import Mathlib

/-!
# LSEQpp: a shallow embedding of the replicated editor

The development embeds `SharedEditor.cpp` and `NetworkServer.cpp`.

* C++ `int` values are `Int`; `std::vector` is `List`; an iterator is the index it
  points at.  Sums and differences of `int`s are exact: apart from the capacity of a level
  (`capacity`), the overflow of an `int` is not modelled, so `_counter` and the elements of
  positions are followed only within the range of `int`.
* A C++ exception is an `Except.error` carrying the exception class.  Undefined
  behaviour (an out-of-range `operator[]`, dereferencing `end()`, falling off the end
  of a non-void function, an out-of-range floating conversion) is the error
  `Err.undefined`, which no `catch` clause handles.
* The static `std::mt19937 generator` is a stream `Rng` of raw outcomes; a
  `uniform_int_distribution(a, b)` consumes one outcome `r` and yields
  `a + r % (b - a + 1)`, so every value of `[a, b]` can be drawn and no other.
-/

namespace LSEQ

/-! ## Errors, random source, vectors -/

/-- The exception classes thrown by the editor, and undefined behaviour. -/
inductive Err where
  | invalid_argument
  | range_error
  | out_of_range
  | runtime_error
  | undefined
deriving DecidableEq, Repr

deriving instance DecidableEq for Except

/-- The stream of raw outcomes of the static generator. -/
abbrev Rng := Nat → Nat

/-- Outcome of `std::uniform_int_distribution<>(a, b)(generator)`; the call requires
`a ≤ b`. -/
def uniform_int_distribution (a b : Int) (g : Rng) : Except Err Int × Rng :=
  if b < a then (.error .undefined, g)
  else (.ok (a + ((g 0 % (b - a + 1).toNat : Nat) : Int)), fun n => g (n + 1))

/-- The value of an `int` converted to `size_t` (64 bit): a negative `int` wraps around. -/
def toSizeT (i : Int) : Nat := if 0 ≤ i then i.toNat else (i + 18446744073709551616).toNat

/-- Checked access `v.at(i)`: throws `std::out_of_range`. -/
def vecAt {α : Type} (v : List α) (i : Int) : Except Err α :=
  match v[toSizeT i]? with
  | some x => .ok x
  | none => .error .out_of_range

/-- Unchecked access `v[i]`: undefined when `i` is not an index of `v`. -/
def vecIdx {α : Type} (v : List α) (i : Int) : Except Err α :=
  if i < 0 then .error .undefined
  else match v[i.toNat]? with
    | some x => .ok x
    | none => .error .undefined

/-- The comparison `std::lexicographical_compare`, which `operator<` of `std::vector<int>`
and of `std::string` perform. -/
def lexicographical_compare : List Int → List Int → Bool
  | _, [] => false
  | [], _ :: _ => true
  | a :: as, b :: bs =>
    if a < b then true else if b < a then false else lexicographical_compare as bs

/-! ## Symbols, messages, editor state -/

/-- A character with its identity `"{siteId}_{counter}"` and its fractional position. -/
structure Symbol where
  c : Char
  id : String
  pos : List Int
deriving DecidableEq, Repr

/-- Modelled from the spec: `Symbol::operator<` is declared in `Symbol.h`, which is not
part of the sources.  "Order among symbols is by position, with id as a deterministic
tiebreak." -/
def Symbol.lt (a b : Symbol) : Bool :=
  lexicographical_compare a.pos b.pos ||
    (a.pos == b.pos &&
      lexicographical_compare (a.id.data.map fun ch => (ch.toNat : Int))
        (b.id.data.map fun ch => (ch.toNat : Int)))

/-- Modelled from the spec: `Symbol::operator==` is declared in `Symbol.h`, which is not
part of the sources.  "Identity equality is by id." -/
def Symbol.eq (a b : Symbol) : Bool := a.id == b.id

/-- A cursor `(line, index)`; the class `Position` of the sources. -/
structure Position where
  line : Int
  index : Int
deriving DecidableEq, Repr

/-- The operation kinds `#define INSERT 1` and `#define DELETE -1`. -/
def INSERT : Int := 1

def DELETE : Int := -1

/-- A message `Message(type, symbol, siteId)`. -/
structure Message where
  type : Int
  s : Symbol
  siteId : Int
deriving DecidableEq, Repr

/-- The members of `SharedEditor` (the reference `_server` is kept by the caller). -/
structure SharedEditor where
  _siteId : Int
  _symbols : List (List Symbol)
  _counter : Int
  _id_counter : Nat
  strategies : List (Int × Bool)
deriving DecidableEq, Repr

/-- The member `base`, set to 32 by the constructor and never assigned again. -/
def base : Int := 32

/-- The member `boundary`, set to 10 by the constructor and never assigned again. -/
def boundary : Int := 10

/-- What a `SharedEditor` method reaches outside the editor: the buffer of its server,
the static generator, and the exceptions it reported on `std::cout`. -/
structure Env where
  messages : List Message
  gen : Rng
  cout : List Err

/-- The state `SharedEditor::SharedEditor` leaves, for the site id `connect` returned. -/
def SharedEditor.init (siteId : Int) : SharedEditor :=
  { _siteId := siteId, _symbols := [[]], _counter := 0, _id_counter := 0, strategies := [] }

def getCounter (e : SharedEditor) : Int := e._counter

def getIdCounter (e : SharedEditor) : Nat := e._id_counter

/-- `std::map::insert`: keeps the old entry when the key is present. -/
def mapInsert (m : List (Int × Bool)) (k : Int) (v : Bool) : List (Int × Bool) :=
  match m.lookup k with
  | some _ => m
  | none => m ++ [(k, v)]

/-! ## The position allocator -/

def retrieveStrategy (e : SharedEditor) (level : Int) (g : Rng) :
    Except Err Bool × SharedEditor × Rng :=
  if level < 0 then (.error .invalid_argument, e, g)
  else if e.strategies.length < toSizeT level ∧ level ≠ 0 then
    match e.strategies.lookup level with
    | some b => (.ok b, e, g)
    | none => (.error .out_of_range, e, g)
  else
    match uniform_int_distribution 1 10 g with
    | (.error err, g1) => (.error err, e, g1)
    | (.ok n, g1) =>
      let strategy := decide (n % 2 = 0)
      (.ok strategy, { e with strategies := mapInsert e.strategies level strategy }, g1)

def generateIdBetween (min max : Int) (strategy : Bool) (g : Rng) : Except Err Int × Rng :=
  if min < 0 ∧ max < 0 then (.error .invalid_argument, g)
  else if min < 0 then (.error .invalid_argument, g)
  else if max < 0 then (.error .invalid_argument, g)
  else if max < min then (.error .range_error, g)
  else if min = max then (.error .range_error, g)
  else if max - min < boundary then uniform_int_distribution (min + 1) (max - 1) g
  else if !strategy then uniform_int_distribution (max - boundary) (max - 1) g
  else uniform_int_distribution (min + 1) (min + boundary) g

/-- The value `static_cast<int>(std::pow(2, level)*base)`: undefined when it does not
fit a 32-bit `int`. -/
def capacity (level : Int) : Except Err Int :=
  if 2 ^ level.toNat * base ≤ 2147483647 then .ok (2 ^ level.toNat * base)
  else .error .undefined

/-- The body of `generatePosBetween`; `fuel` bounds the depth of the recursion. -/
def generatePosBetweenAux : Nat → SharedEditor → List Int → List Int → List Int → Int → Rng →
    Except Err (List Int) × SharedEditor × Rng
  | 0, e, _, _, _, _, g => (.error .undefined, e, g)
  | fuel + 1, e, pos1, pos2, newPos, level, g =>
    if pos1.isEmpty then (.error .invalid_argument, e, g)
    else if level < 0 then (.error .invalid_argument, e, g)
    else
      match capacity level with
      | .error err => (.error err, e, g)
      | .ok cap =>
        let id1 := if pos1.length > level.toNat then pos1.getD level.toNat 0 else 0
        let id2 := if !pos2.isEmpty ∧ pos2.length > level.toNat then pos2.getD level.toNat 0
          else cap
        match retrieveStrategy e level g with
        | (.error err, e1, g1) => (.error err, e1, g1)
        | (.ok boundaryStrategy, e1, g1) =>
          if id2 - id1 > 1 then
            match generateIdBetween id1 id2 boundaryStrategy g1 with
            | (.error err, g2) => (.error err, e1, g2)
            | (.ok newId, g2) => (.ok (newPos ++ [newId]), e1, g2)
          else if id2 - id1 = 1 then
            generatePosBetweenAux fuel e1 pos1 [] (newPos ++ [id1]) (level + 1) g1
          else if id1 = id2 then
            generatePosBetweenAux fuel e1 pos1 pos2 (newPos ++ [id1]) (level + 1) g1
          else (.error .undefined, e1, g1)

/-- The method `generatePosBetween`.  Past level 25 the capacity is undefined, so a call
at level `l` makes at most `27 - l` nested calls and the fuel is never used up. -/
def generatePosBetween (e : SharedEditor) (pos1 pos2 newPos : List Int) (level : Int)
    (g : Rng) : Except Err (List Int) × SharedEditor × Rng :=
  generatePosBetweenAux (27 - level.toNat + 1) e pos1 pos2 newPos level g

/-! ## The line-indexed document -/

def findPosBefore (e : SharedEditor) (pos : Position) : Except Err (List Int) :=
  let line := pos.line
  let index := pos.index
  if line < 0 then .error .out_of_range
  else if line ≥ e._symbols.length then .error .out_of_range
  else if index < 0 then .error .out_of_range
  else do
    let cur ← vecIdx e._symbols line
    if index > cur.length then .error .out_of_range
    else if index = 0 ∧ line = 0 then pure [0]
    else if index = 0 ∧ line ≠ 0 then do
      let prev ← vecIdx e._symbols (line - 1)
      let s ← vecAt prev ((prev.length : Int) - 1)
      pure s.pos
    else do
      let s ← vecAt cur (index - 1)
      pure s.pos

def findPosAfter (e : SharedEditor) (pos : Position) : Except Err (List Int) :=
  let line := pos.line
  let index := pos.index
  if line < 0 then .error .out_of_range
  else if line ≥ e._symbols.length then .error .out_of_range
  else if index < 0 then .error .out_of_range
  else do
    let cur ← vecIdx e._symbols line
    if index > cur.length then .error .out_of_range
    else
      let nLines : Int := e._symbols.length
      if line = nLines - 1 ∧ index = cur.length then pure [base]
      else if line < nLines - 1 ∧ index = cur.length then do
        let next ← vecIdx e._symbols (line + 1)
        let s ← vecAt next 0
        pure s.pos
      else if line > nLines - 1 ∧ index = 0 then pure [base]
      else do
        let s ← vecAt cur index
        pure s.pos

/-- The member `_id_counter` is a `uint64_t` (the type `getIdCounter` returns). -/
def incr64 (n : Nat) : Nat := (n + 1) % 18446744073709551616

def decr64 (n : Nat) : Nat := (n + 18446744073709551615) % 18446744073709551616

def insertSymbol (e : SharedEditor) (pos : Position) (symbol : Symbol) :
    Except Err SharedEditor :=
  let line := pos.line
  let index := pos.index
  do
    let cur ← vecIdx e._symbols line
    if toSizeT index > cur.length then .error .out_of_range
    else
      let lines :=
        if symbol.c = '\n' then
          let lineAfter := if toSizeT index = cur.length then [] else cur.drop index.toNat
          if lineAfter.isEmpty then
            e._symbols.set line.toNat (cur ++ [symbol]) ++ [[]]
          else
            let lineBefore := cur.take index.toNat ++ [symbol]
            (e._symbols.set line.toNat lineBefore).insertIdx (line.toNat + 1) lineAfter
        else
          e._symbols.set line.toNat (cur.insertIdx index.toNat symbol)
      pure { e with _symbols := lines, _counter := e._counter + 1,
                    _id_counter := incr64 e._id_counter }

/-- The symbol identifier `std::to_string(_siteId) + "_" + std::to_string(_id_counter)`. -/
def symId (siteId : Int) (idCounter : Nat) : String :=
  toString siteId ++ "_" ++ toString idCounter

/-- Whether a `catch (std::exception&)` clause handles the error. -/
def Err.caught : Err → Bool
  | .undefined => false
  | _ => true

def localInsert (e : SharedEditor) (env : Env) (pos : Position) (value : Char) :
    Except Err (SharedEditor × Env) :=
  let sym_id := symId e._siteId e._id_counter
  do
    let cur ← vecIdx e._symbols pos.line
    let pos : Position :=
      if ¬ cur.isEmpty ∧ toSizeT pos.index ≥ cur.length ∧
          (cur.getLast?.map fun s => s.c) = some '\n' then
        ⟨pos.line + 1, 0⟩
      else pos
    match findPosBefore e pos with
    | .error err =>
      if err.caught then pure (e, { env with cout := env.cout ++ [err] }) else .error err
    | .ok pos1 =>
      match findPosAfter e pos with
      | .error err =>
        if err.caught then pure (e, { env with cout := env.cout ++ [err] }) else .error err
      | .ok pos2 =>
        match generatePosBetween e pos1 pos2 [] 0 env.gen with
        | (.error err, e1, g1) =>
          if err.caught then pure (e1, { env with gen := g1, cout := env.cout ++ [err] })
          else .error err
        | (.ok sym_position, e1, g1) =>
          let sym : Symbol := ⟨value, sym_id, sym_position⟩
          match insertSymbol e1 pos sym with
          | .error err =>
            if err.caught then pure (e1, { env with gen := g1, cout := env.cout ++ [err] })
            else .error err
          | .ok e2 =>
            pure (e2, { env with gen := g1, messages := env.messages ++ [⟨INSERT, sym, e._siteId⟩] })

/-- The iterator range `[v.begin() + a, v.begin() + b)`, undefined unless
`0 ≤ a ≤ b ≤ v.size()`. -/
def slice {α : Type} (v : List α) (a b : Int) : Except Err (List α) :=
  if 0 ≤ a ∧ a ≤ b ∧ b ≤ v.length then .ok ((v.drop a.toNat).take (b.toNat - a.toNat))
  else .error .undefined

/-- The vector after `v.erase(v.begin() + a, v.begin() + b)`. -/
def eraseRange {α : Type} (v : List α) (a b : Int) : List α :=
  v.take a.toNat ++ v.drop b.toNat

def eraseSingleLine (e : SharedEditor) (startPos endPos : Position) :
    Except Err (List Symbol × SharedEditor) :=
  let startIndex := startPos.index
  let endIndex := endPos.index + 1
  let line := startPos.line
  do
    let cur ← vecIdx e._symbols line
    let symbols ← slice cur startIndex endIndex
    pure (symbols, { e with _symbols := e._symbols.set line.toNat (eraseRange cur startIndex endIndex),
                            _counter := e._counter - (endIndex - startIndex) })

def eraseMultipleLines (e : SharedEditor) (startPos endPos : Position) :
    Except Err (List Symbol × SharedEditor) :=
  let startIndex := startPos.index
  let endIndex := endPos.index
  let startLine := startPos.line
  let endLine := endPos.line
  do
    let first ← vecIdx e._symbols startLine
    let head ← slice first startIndex first.length
    let middle ← slice e._symbols (startLine + 1) (max (startLine + 1) endLine)
    let last ← vecIdx e._symbols endLine
    let tail ← slice last 0 (endIndex + 1)
    let symbols := head ++ middle.flatten ++ tail
    let lines := (e._symbols.set startLine.toNat (eraseRange first startIndex first.length)).set
      endLine.toNat (eraseRange last 0 (endIndex + 1))
    let lines ← if endLine - startLine ≠ 1 then do
        let _ ← slice lines (startLine + 1) endLine
        pure (eraseRange lines (startLine + 1) endLine)
      else pure lines
    pure (symbols, { e with _symbols := lines, _counter := e._counter - symbols.length })

def localErase (e : SharedEditor) (env : Env) (startPos endPos : Position) :
    Except Err (SharedEditor × Env) :=
  let startLine := startPos.line
  let endLine := endPos.line
  do
    let line0 ← vecIdx e._symbols 0
    if line0.isEmpty ∨ e._symbols.length ≤ toSizeT startLine then pure (e, env)
    else
      let (symbols, e1, mergeLines) ←
        if startLine ≠ endLine then do
          let (symbols, e1) ← eraseMultipleLines e startPos endPos
          let next ← vecIdx e1._symbols (startLine + 1)
          let e2 := if next.isEmpty then
              { e1 with _symbols := e1._symbols.eraseIdx (startLine + 1).toNat }
            else e1
          pure (symbols, e2, true)
        else do
          let (symbols, e1) ← eraseSingleLine e startPos endPos
          match symbols.getLast? with
          | none => .error .undefined
          | some back =>
            if back.c = '\n' then do
              let next ← vecIdx e1._symbols (startLine + 1)
              if next.isEmpty then
                pure (symbols, { e1 with _symbols := e1._symbols.eraseIdx (startLine + 1).toNat },
                  false)
              else pure (symbols, e1, true)
            else pure (symbols, e1, false)
      let e3 ←
        if mergeLines then do
          let l0 ← vecIdx e1._symbols 0
          if ¬ (l0.isEmpty ∧ e1._symbols.length = 1) then do
            let cur ← vecIdx e1._symbols startLine
            let next ← vecIdx e1._symbols (startLine + 1)
            let lines := (e1._symbols.set startLine.toNat (cur ++ next)).eraseIdx
              (startLine + 1).toNat
            let lines := if (cur ++ next).isEmpty then lines.eraseIdx startLine.toNat else lines
            pure { e1 with _symbols := lines }
          else pure e1
        else pure e1
      let e4 := if e3._symbols.isEmpty then { e3 with _symbols := [[]] } else e3
      let sent : List Message := symbols.map (fun sym => ⟨DELETE, sym, e._siteId⟩)
      pure (e4, { env with messages := env.messages ++ sent })

/-! ## Remote application -/

/-- The loop of `std::lower_bound` over the indices `[first, first + len)`; `comp i` is the
comparison of the element at index `i` with the value searched.  Each round makes `len`
smaller, so `fuel = len` rounds are enough. -/
def lower_bound (comp : Nat → Except Err Bool) : Nat → Nat → Nat → Except Err Nat
  | 0, first, _ => .ok first
  | fuel + 1, first, len =>
    if len = 0 then .ok first
    else
      let half := len / 2
      let middle := first + half
      match comp middle with
      | .error err => .error err
      | .ok true => lower_bound comp fuel (middle + 1) (len - half - 1)
      | .ok false => lower_bound comp fuel first half

/-- The comparison `it[0] < symbol` of a line with a symbol. -/
def lineLess (lines : List (List Symbol)) (symbol : Symbol) (i : Nat) : Except Err Bool :=
  match lines[i]? with
  | none => .error .undefined
  | some it =>
    match it.head? with
    | none => .error .undefined
    | some h => .ok (h.lt symbol)

/-- The comparison `*it < symbol` of an element of a line with a symbol. -/
def symLess (cur : List Symbol) (symbol : Symbol) (i : Nat) : Except Err Bool :=
  match cur[i]? with
  | none => .error .undefined
  | some x => .ok (x.lt symbol)

/-- The index `std::find(v.begin(), v.end(), symbol)` stops at (`v.size()` for `end()`). -/
def find (v : List Symbol) (symbol : Symbol) : Nat :=
  match v with
  | [] => 0
  | x :: xs => if x.eq symbol then 0 else find xs symbol + 1

def remoteInsert (e : SharedEditor) (symbol : Symbol) (g : Rng) :
    Except Err (SharedEditor × Rng) :=
  match e._symbols.head? with
  | none => .error .undefined
  | some front =>
    if front.isEmpty then do
      let e1 ← insertSymbol e ⟨0, 0⟩ symbol
      pure (e1, g)
    else
      match e._symbols.getLast? with
      | none => .error .undefined
      | some back => do
        let last := if back.isEmpty then e._symbols.length - 1 else e._symbols.length
        let line_it ← lower_bound (lineLess e._symbols symbol) last 0 last
        let line := if line_it ≠ 0 then line_it - 1 else line_it
        match e._symbols[line]? with
        | none => .error .undefined
        | some cur =>
          let index ← lower_bound (symLess cur symbol) cur.length 0 cur.length
          let index_it :=
            if index = cur.length ∧ index ≠ 0 then index - 1
            else if index ≠ cur.length ∧
                ¬ (index = 0 ∨ (cur[index]?).map (fun s => s.pos) = some symbol.pos) then
              index - 1
            else index
          match cur[index_it]? with
          | none => .error .undefined
          | some x =>
            if x.pos = symbol.pos then do
              let target : Position := if x.c = '\n' then ⟨line + 1, 0⟩ else ⟨line, index + 1⟩
              let pos2 ← findPosAfter e target
              match generatePosBetween e symbol.pos pos2 [] 0 g with
              | (.error err, _, _) => .error err
              | (.ok sym_position, e1, g1) =>
                let e2 ← insertSymbol e1 target { symbol with pos := sym_position }
                pure ({ e2 with _id_counter := decr64 e2._id_counter }, g1)
            else
              let target : Position :=
                if x.c = '\n' ∧ x.lt symbol then ⟨line + 1, 0⟩ else ⟨line, index⟩
              do
                let e2 ← insertSymbol e target symbol
                pure ({ e2 with _id_counter := decr64 e2._id_counter }, g)

def remoteErase (e : SharedEditor) (symbol : Symbol) : Except Err SharedEditor :=
  match e._symbols.head? with
  | none => .error .undefined
  | some front =>
    if front.isEmpty then pure e
    else do
      let n := e._symbols.length
      let line_it ← lower_bound (lineLess e._symbols symbol) n 0 n
      let differs ←
        if line_it ≠ n ∧ line_it ≠ 0 then
          match (e._symbols[line_it]?).bind fun it => it.head? with
          | none => .error .undefined
          | some front => pure (decide (front.pos ≠ symbol.pos))
        else pure false
      let line :=
        if differs then line_it - 1
        else if line_it ≠ 0 then line_it - 1
        else line_it
      match e._symbols[line]? with
      | none => .error .undefined
      | some cur =>
        let index_it := find cur symbol
        match cur[index_it]? with
        | none => .error .undefined
        | some x =>
          let (line, cur, index_it) ←
            if ¬ x.eq symbol then
              match e._symbols[line + 1]? with
              | none => .error .undefined
              | some next => pure (line + 1, next, find next symbol)
            else pure (line, cur, index_it)
          match cur[index_it]? with
          | none => .error .undefined
          | some y =>
            let mergeLines := decide (y.c = '\n')
            let (_, e1) ← eraseSingleLine e ⟨line, index_it⟩ ⟨line, index_it⟩
            let e2 ←
              if mergeLines ∧ line < e1._symbols.length - 1 then do
                let cur1 ← vecIdx e1._symbols line
                let next1 ← vecIdx e1._symbols (line + 1)
                pure { e1 with _symbols :=
                  (e1._symbols.set line (cur1 ++ next1)).eraseIdx (line + 1) }
              else pure e1
            pure (if e2._symbols.isEmpty then { e2 with _symbols := [[]] } else e2)

def process (e : SharedEditor) (m : Message) (g : Rng) : Except Err (SharedEditor × Rng) :=
  let symbol := m.s
  if m.type = INSERT then remoteInsert e symbol g
  else if m.type = DELETE then do
    let e1 ← remoteErase e symbol
    pure (e1, g)
  else .error .runtime_error

def to_string (e : SharedEditor) : String :=
  e._symbols.foldl (fun output line => line.foldl (fun output symbol => output.push symbol.c) output) ""

/-! ## The broadcast relay -/

/-- The server with the editors its pointers refer to, the static `id` of
`NetworkServer.cpp`, the static generator and `std::cout`. -/
structure World where
  editors : List SharedEditor
  messages : List Message
  id : Int
  gen : Rng
  cout : List Err

/-- A server with no editor connected. -/
def World.init (g : Rng) : World :=
  { editors := [], messages := [], id := 0, gen := g, cout := [] }

/-- Construction of a `SharedEditor` on the server: `connect` appends the editor and
hands out `id++`. -/
def World.connect (w : World) : World :=
  { w with editors := w.editors ++ [SharedEditor.init w.id], id := w.id + 1 }

def send (messages : List Message) (m : Message) : List Message := messages ++ [m]

/-- The inner loop of `dispatchMessages`: one message offered to every editor. -/
def deliver (m : Message) : List SharedEditor → Rng → Except Err (List SharedEditor × Rng)
  | [], g => .ok ([], g)
  | e :: es, g =>
    if e._siteId ≠ m.siteId then do
      let (e1, g1) ← process e m g
      let (es1, g2) ← deliver m es g1
      pure (e1 :: es1, g2)
    else do
      let (es1, g2) ← deliver m es g
      pure (e :: es1, g2)

/-- The outer loop of `dispatchMessages`. -/
def dispatchLoop : List Message → List SharedEditor → Rng → Except Err (List SharedEditor × Rng)
  | [], es, g => .ok (es, g)
  | m :: ms, es, g => do
    let (es1, g1) ← deliver m es g
    dispatchLoop ms es1 g1

def dispatchMessages (w : World) : Except Err World := do
  let (es, g) ← dispatchLoop w.messages w.editors w.gen
  pure { w with editors := es, gen := g, messages := [] }

/-- The call `editors[i]->localInsert(pos, value)`. -/
def World.localInsert (w : World) (i : Nat) (pos : Position) (value : Char) :
    Except Err World :=
  match w.editors[i]? with
  | none => .error .undefined
  | some e => do
    let (e1, env) ← LSEQ.localInsert e ⟨w.messages, w.gen, w.cout⟩ pos value
    pure { w with editors := w.editors.set i e1, messages := env.messages, gen := env.gen,
                  cout := env.cout }

/-- The call `editors[i]->localErase(startPos, endPos)`. -/
def World.localErase (w : World) (i : Nat) (startPos endPos : Position) : Except Err World :=
  match w.editors[i]? with
  | none => .error .undefined
  | some e => do
    let (e1, env) ← LSEQ.localErase e ⟨w.messages, w.gen, w.cout⟩ startPos endPos
    pure { w with editors := w.editors.set i e1, messages := env.messages, gen := env.gen,
                  cout := env.cout }

/-! ## Well-formed documents and the flat view -/

/-- The flat view of the document: the symbols of all lines, in order. -/
def flat (e : SharedEditor) : List Symbol := e._symbols.flatten

/-- The line ends in a newline: invariant I2 for one line. -/
def EndsLine (l : List Symbol) : Prop :=
  l.getLast?.map (fun s => s.c) = some '\n'

instance (l : List Symbol) : Decidable (EndsLine l) := by
  unfold EndsLine; infer_instance

/-- A well-formed document: the invariants I1 to I5 of the data model hold and the final
line holds no newline.
* I1: the symbols of a line are sorted by position;
* I2: the last symbol of every line but the final one is a newline;
* I3: there is at least one line;
* I4: the positions are pairwise distinct;
* I5: no symbol has the position `[0]` or `[base]`. -/
def WellFormed (e : SharedEditor) : Prop :=
  (∀ l ∈ e._symbols, l.Pairwise fun a b => lexicographical_compare b.pos a.pos = false) ∧
  (∀ l ∈ e._symbols.dropLast, EndsLine l) ∧
  e._symbols ≠ [] ∧
  ((flat e).map fun s => s.pos).Nodup ∧
  (∀ s ∈ flat e, s.pos ≠ [0] ∧ s.pos ≠ [base]) ∧
  (∀ s ∈ e._symbols.getLast?.getD [], s.c ≠ '\n')

instance (e : SharedEditor) : Decidable (WellFormed e) := by
  unfold WellFormed; infer_instance

/-- The invariants I1 to I5 alone. -/
def Invariants (e : SharedEditor) : Prop :=
  (∀ l ∈ e._symbols, l.Pairwise fun a b => lexicographical_compare b.pos a.pos = false) ∧
  (∀ l ∈ e._symbols.dropLast, EndsLine l) ∧
  e._symbols ≠ [] ∧
  ((flat e).map fun s => s.pos).Nodup ∧
  (∀ s ∈ flat e, s.pos ≠ [0] ∧ s.pos ≠ [base])

instance (e : SharedEditor) : Decidable (Invariants e) := by
  unfold Invariants; infer_instance

/-- Every newline of the document is the last symbol of its line. -/
def NewlineEndsLine (e : SharedEditor) : Prop :=
  ∀ l ∈ e._symbols.dropLast, ∀ s ∈ l.dropLast, s.c ≠ '\n'

instance (e : SharedEditor) : Decidable (NewlineEndsLine e) := by
  unfold NewlineEndsLine; infer_instance

/-- A line that another line follows, in a document whose newlines all end a line: symbols
other than a newline, then one newline. -/
def FullLine (l : List Symbol) : Prop :=
  l.getLast?.map (fun s => s.c) = some '\n' ∧ ∀ s ∈ l.dropLast, s.c ≠ '\n'

/-- The lines of a well-formed document whose newlines all end a line. -/
def TextLines (e : SharedEditor) : Prop :=
  (∀ l ∈ e._symbols.dropLast, FullLine l) ∧ e._symbols ≠ [] ∧
  (∀ s ∈ e._symbols.getLast?.getD [], s.c ≠ '\n')

/-- The flat offset of a cursor: the lengths of the lines before `line`, plus `index`. -/
def flatOffset (e : SharedEditor) (pos : Position) : Nat :=
  ((e._symbols.take pos.line.toNat).map List.length).sum + pos.index.toNat

/-- The position left of the flat offset `o`: the left sentinel at the start. -/
def leftNeighbour (e : SharedEditor) (o : Nat) : List Int :=
  if o = 0 then [0] else ((flat e)[o - 1]?.map fun s => s.pos).getD [0]

/-- The position right of the flat offset `o`: the right sentinel at the end. -/
def rightNeighbour (e : SharedEditor) (o : Nat) : List Int :=
  ((flat e)[o]?.map fun s => s.pos).getD [base]

/-! ## Concrete states used to run the code -/

/-- Two editors connected to one server; every raw outcome of the generator is 1. -/
def twoReplicas : World := ((World.init fun _ => 1).connect).connect

/-- The text of every editor of a world. -/
def texts (w : Except Err World) : Except Err (List String) :=
  w.map fun w => w.editors.map to_string

/-- The document and the server buffer after an editor method. -/
def outcome (r : Except Err (SharedEditor × Env)) :
    Except Err (List (List Symbol) × List Message) :=
  r.map fun p => (p.1._symbols, p.2.messages)

/-- An environment with an empty buffer; every raw outcome of the generator is 1. -/
def env1 : Env := ⟨[], fun _ => 1, []⟩

/-- The document `"ab\ncd"` held by site 0. -/
def docAbCd : SharedEditor :=
  { _siteId := 0,
    _symbols := [[⟨'a', "0_0", [2]⟩, ⟨'b', "0_1", [4]⟩, ⟨'\n', "0_2", [6]⟩],
                 [⟨'c', "0_3", [8]⟩, ⟨'d', "0_4", [10]⟩]],
    _counter := 5, _id_counter := 5, strategies := [(0, true)] }

/-- The document `"a\n"` received by site 1 from site 0: a line and the trailing empty
line. -/
def docANewline : SharedEditor :=
  { _siteId := 1,
    _symbols := [[⟨'a', "0_0", [2]⟩, ⟨'\n', "0_1", [4]⟩], []],
    _counter := 2, _id_counter := 1, strategies := [] }

/-- The document `"a"` held by site 0. -/
def docA : SharedEditor :=
  { _siteId := 0, _symbols := [[⟨'a', "0_0", [2]⟩]], _counter := 1, _id_counter := 1,
    strategies := [(0, true)] }

/-- The document `"a"` at site 0, the symbol coming from site 2. -/
def docRemoteA : SharedEditor :=
  { _siteId := 0, _symbols := [[⟨'a', "2_0", [5]⟩]], _counter := 1, _id_counter := 1,
    strategies := [] }

/-- Two messages in sequence, and the text they leave. -/
def processTwo (e : SharedEditor) (m1 m2 : Message) (g : Rng) : Except Err String := do
  let (e1, g1) ← process e m1 g
  let (e2, _) ← process e1 m2 g1
  pure (to_string e2)

end LSEQ

namespace LSEQ

/-- The single line `"abcd"` held by site 0. -/
def docAbcd : SharedEditor :=
  { _siteId := 0,
    _symbols := [[⟨'a', "0_0", [2]⟩, ⟨'b', "0_1", [4]⟩, ⟨'c', "0_2", [6]⟩, ⟨'d', "0_3", [8]⟩]],
    _counter := 4, _id_counter := 4, strategies := [(0, true)] }

/-- The line `"ab"` received from site 1; the element 70 of the first position is above
the capacity 64 of level 1. -/
def docDeep : SharedEditor :=
  { _siteId := 0, _symbols := [[⟨'a', "1_0", [5, 70]⟩, ⟨'b', "1_1", [6]⟩]],
    _counter := 2, _id_counter := 1, strategies := [] }

/-- The lines `"x\n"` and `"y"` received from site 1; each line is sorted, the second line
lies before the first in position order. -/
def docCrossed : SharedEditor :=
  { _siteId := 0,
    _symbols := [[⟨'x', "1_0", [9]⟩, ⟨'\n', "1_1", [10]⟩], [⟨'y', "1_2", [3]⟩]],
    _counter := 3, _id_counter := 1, strategies := [] }

/-- The lines `"a\nb\n"` and `"c"` received from site 1: the first line holds a newline
before its end. -/
def docInnerNewline : SharedEditor :=
  { _siteId := 0,
    _symbols := [[⟨'a', "1_0", [1]⟩, ⟨'\n', "1_1", [2]⟩, ⟨'b', "1_2", [3]⟩, ⟨'\n', "1_3", [4]⟩],
                 [⟨'c', "1_4", [5]⟩]],
    _counter := 5, _id_counter := 1, strategies := [] }

/-- The single line `"x\n"` received from site 1: the final line ends in a newline. -/
def docFinalNewline : SharedEditor :=
  { _siteId := 0, _symbols := [[⟨'x', "1_0", [5]⟩, ⟨'\n', "1_1", [6]⟩]],
    _counter := 2, _id_counter := 1, strategies := [] }

/-- The position `[31, 63, 127, ...]` of 26 levels: at each level one below the capacity
`2^l * base` of the level. -/
def deepPosition : List Int := (List.range 26).map fun l => 2 ^ l * base - 1

/-- The line `"a"` received from site 1, its symbol at `deepPosition`. -/
def docDeepest : SharedEditor :=
  { _siteId := 0, _symbols := [[⟨'a', "1_0", deepPosition⟩]],
    _counter := 1, _id_counter := 0, strategies := [] }

end LSEQ

namespace LSEQ

/-! ## Preconditions of the allocator -/

/-- Every element of the position lies within the capacity of its level:
`0 ≤ p[l] ≤ 2^l * base`. -/
def withinCapacity (p : List Int) : Prop :=
  ∀ l < p.length, 0 ≤ p.getD l 0 ∧ p.getD l 0 ≤ 2 ^ l * base

instance (p : List Int) : Decidable (withinCapacity p) := by
  unfold withinCapacity; infer_instance

/-- The position `p2` is `p1` followed by zeros only. -/
def zeroExtension (p1 p2 : List Int) : Prop :=
  p2.take p1.length = p1 ∧ ∀ x ∈ p2.drop p1.length, x = 0

instance (p1 p2 : List Int) : Decidable (zeroExtension p1 p2) := by
  unfold zeroExtension; infer_instance

/-- The interval `id2 - id1` at which `generatePosBetween` draws the new element: the first
interval above 1 that the recursion meets going down from `level`.  As in the source, `id1`
is the element of `pos1` (0 past its end), `id2` the element of `pos2` or, past its end, the
capacity of the level, and `pos2` is left out (`{}`) once an interval of 1 was met. -/
def drawnInterval (pos1 : List Int) : Nat → List Int → Nat → Int
  | 0, _, _ => 0
  | fuel + 1, pos2, level =>
    let id1 := pos1.getD level 0
    let id2 := if level < pos2.length then pos2.getD level 0 else 2 ^ level * base
    if id2 - id1 > 1 then id2 - id1
    else if id2 - id1 = 1 then drawnInterval pos1 fuel [] (level + 1)
    else drawnInterval pos1 fuel pos2 (level + 1)

/-- The level at which `generatePosBetween` draws the new element: the level of the first
interval above 1 (see `drawnInterval`). -/
def drawnLevel (pos1 : List Int) : Nat → List Int → Nat → Nat
  | 0, _, level => level
  | fuel + 1, pos2, level =>
    let id1 := pos1.getD level 0
    let id2 := if level < pos2.length then pos2.getD level 0 else 2 ^ level * base
    if id2 - id1 > 1 then level
    else if id2 - id1 = 1 then drawnLevel pos1 fuel [] (level + 1)
    else drawnLevel pos1 fuel pos2 (level + 1)

/-- The levels below `n` all have an entry in the strategy map. -/
def levelsCached (e : SharedEditor) (n : Nat) : Prop :=
  ∀ k : Nat, k < n → (e.strategies.lookup (k : Int)).isSome = true

/-- The position returned by the allocator. -/
def allocated (r : Except Err (List Int) × SharedEditor × Rng) : Except Err (List Int) := r.1

end LSEQ

namespace LSEQ

/-- A sequence of symbols strictly ascending by position. -/
def Ascending (l : List Symbol) : Prop :=
  l.Pairwise fun a b => lexicographical_compare a.pos b.pos = true

instance (l : List Symbol) : Decidable (Ascending l) := by
  unfold Ascending; infer_instance

/-- The comparison `it[0] < symbol` as a property of the line. -/
def headLess (s : Symbol) (l : List Symbol) : Bool :=
  match l.head? with
  | some h => h.lt s
  | none => false

end LSEQ

namespace LSEQ

/-! ## Sequences of operations on one replica -/

/-- A call of the public interface of one replica. -/
inductive Op where
  | localInsert (pos : Position) (value : Char)
  | localErase (startPos endPos : Position)
  | remoteInsert (symbol : Symbol)
  | remoteErase (symbol : Symbol)
  | process (m : Message)

/-- One call on a replica and what it reaches outside the replica; an error is a call that
does not complete. -/
def Op.apply (st : SharedEditor × Env) : Op → Except Err (SharedEditor × Env)
  | .localInsert pos value => LSEQ.localInsert st.1 st.2 pos value
  | .localErase startPos endPos => LSEQ.localErase st.1 st.2 startPos endPos
  | .remoteInsert symbol => do
    let (e, g) ← LSEQ.remoteInsert st.1 symbol st.2.gen
    pure (e, { st.2 with gen := g })
  | .remoteErase symbol => do
    let e ← LSEQ.remoteErase st.1 symbol
    pure (e, st.2)
  | .process m => do
    let (e, g) ← LSEQ.process st.1 m st.2.gen
    pure (e, { st.2 with gen := g })

/-- The calls of a list in sequence, every one of them completing. -/
def runOps : List Op → SharedEditor × Env → Except Err (SharedEditor × Env)
  | [], st => .ok st
  | op :: ops, st => do
    let st1 ← op.apply st
    runOps ops st1

/-- The characters of the lines of a document. -/
def chars (r : Except Err (SharedEditor × Env)) : Except Err (List (List Char)) :=
  r.map fun p => p.1._symbols.map fun l => l.map fun s => s.c

/-- The results of `retrieveStrategy` called for the levels of a list, in sequence. -/
def strategyCalls : List Int → SharedEditor → Rng → List (Except Err Bool)
  | [], _, _ => []
  | level :: levels, e, g =>
    match retrieveStrategy e level g with
    | (r, e1, g1) => r :: strategyCalls levels e1 g1

/-- A generator whose raw outcomes are those of the list, then 0. -/
def draws (l : List Nat) : Rng := fun n => l.getD n 0

/-- The text `"x\na\nb\n"` typed at site 0, character by character. -/
def typeThreeLines : List Op :=
  [.localInsert ⟨0, 0⟩ 'x', .localInsert ⟨0, 1⟩ '\n', .localInsert ⟨1, 0⟩ 'a',
   .localInsert ⟨1, 1⟩ '\n', .localInsert ⟨2, 0⟩ 'b', .localInsert ⟨2, 1⟩ '\n']

/-- The text `"x\nw"` typed at site 0, character by character. -/
def typeTwoLines : List Op :=
  [.localInsert ⟨0, 0⟩ 'x', .localInsert ⟨0, 1⟩ '\n', .localInsert ⟨1, 0⟩ 'w']


/-- The text `"ab\ncd"` typed at site 0, character by character. -/
def typeAbCd : List Op :=
  [.localInsert ⟨0, 0⟩ 'a', .localInsert ⟨0, 1⟩ 'b', .localInsert ⟨0, 2⟩ '\n',
   .localInsert ⟨1, 0⟩ 'c', .localInsert ⟨1, 1⟩ 'd']

/-- The counter, the number of stored symbols and the text of a replica. -/
def tally (r : Except Err (SharedEditor × Env)) : Except Err (Int × Nat × String) :=
  r.map fun p => (getCounter p.1, (flat p.1).length, to_string p.1)

/-- The counter and the lines a half of `localErase` leaves. -/
def counted (r : Except Err (List Symbol × SharedEditor × Bool)) :
    Except Err (Int × List (List Char)) :=
  r.map fun p => (getCounter p.2.1, p.2.1._symbols.map fun l => l.map fun s => s.c)


/-- The outcomes of the generator that make every strategy boundary-minus and every drawn
element the last of its range: for the `k`-th of 27 calls, `k` outcomes 0 and one outcome 9. -/
def appendDraws : Rng :=
  draws ((List.range 27).map fun k => List.replicate (k + 1) 0 ++ [9]).flatten

/-- The text `"aa...a"` of `n` characters typed at site 0, each character appended at the end
of the line. -/
def appends (n : Nat) : List Op :=
  (List.range n).map fun k => .localInsert ⟨0, k⟩ 'a'

/-- The position of the last symbol of the document and what was reported on `std::cout`. -/
def lastPosition (r : Except Err (SharedEditor × Env)) :
    Except Err (Option (List Int) × List Err) :=
  r.map fun p => ((flat p.1).getLast?.map fun s => s.pos, p.2.cout)

end LSEQ

namespace LSEQ

/-! ## The halves of localErase and of remoteErase -/

/-- The first half of `localErase`: the symbols erased, the lines left, and whether the
start line is to be merged with the line after it. -/
def eraseBlock (e : SharedEditor) (startPos endPos : Position) :
    Except Err (List Symbol × SharedEditor × Bool) :=
  let startLine := startPos.line
  let endLine := endPos.line
  if startLine ≠ endLine then do
    let (symbols, e1) ← eraseMultipleLines e startPos endPos
    let next ← vecIdx e1._symbols (startLine + 1)
    let e2 := if next.isEmpty then
        { e1 with _symbols := e1._symbols.eraseIdx (startLine + 1).toNat }
      else e1
    pure (symbols, e2, true)
  else do
    let (symbols, e1) ← eraseSingleLine e startPos endPos
    match symbols.getLast? with
    | none => .error .undefined
    | some back =>
      if back.c = '\n' then do
        let next ← vecIdx e1._symbols (startLine + 1)
        if next.isEmpty then
          pure (symbols, { e1 with _symbols := e1._symbols.eraseIdx (startLine + 1).toNat },
            false)
        else pure (symbols, e1, true)
      else pure (symbols, e1, false)

/-- The second half of `localErase`: the merge of the start line with the line after it. -/
def mergeBlock (e1 : SharedEditor) (startLine : Int) (mergeLines : Bool) :
    Except Err SharedEditor :=
  if mergeLines then do
    let l0 ← vecIdx e1._symbols 0
    if ¬ (l0.isEmpty ∧ e1._symbols.length = 1) then do
      let cur ← vecIdx e1._symbols startLine
      let next ← vecIdx e1._symbols (startLine + 1)
      let lines := (e1._symbols.set startLine.toNat (cur ++ next)).eraseIdx
        (startLine + 1).toNat
      let lines := if (cur ++ next).isEmpty then lines.eraseIdx startLine.toNat else lines
      pure { e1 with _symbols := lines }
    else pure e1
  else pure e1


/-- The end of `remoteErase`: the symbol `y` found at `(line, index_it)` is erased, and its
line is merged with the line after it when `y` is a newline. -/
def eraseFound (e : SharedEditor) (line index_it : Nat) (y : Symbol) :
    Except Err SharedEditor := do
  let mergeLines := decide (y.c = '\n')
  let (_, e1) ← eraseSingleLine e ⟨line, index_it⟩ ⟨line, index_it⟩
  let e2 ←
    if mergeLines ∧ line < e1._symbols.length - 1 then do
      let cur1 ← vecIdx e1._symbols line
      let next1 ← vecIdx e1._symbols (line + 1)
      pure { e1 with _symbols :=
        (e1._symbols.set line (cur1 ++ next1)).eraseIdx (line + 1) }
    else pure e1
  pure (if e2._symbols.isEmpty then { e2 with _symbols := [[]] } else e2)

/-- The middle of `remoteErase`: the search of the symbol in the line `line`, then in the
line after it. -/
def eraseLookup (e : SharedEditor) (symbol : Symbol) (line : Nat) : Except Err SharedEditor :=
  match e._symbols[line]? with
  | none => .error .undefined
  | some cur =>
    let index_it := find cur symbol
    match cur[index_it]? with
    | none => .error .undefined
    | some x => do
      let (line, cur, index_it) ←
        if ¬ x.eq symbol then
          match e._symbols[line + 1]? with
          | none => .error .undefined
          | some next => pure (line + 1, next, find next symbol)
        else pure (line, cur, index_it)
      match cur[index_it]? with
      | none => .error .undefined
      | some y => eraseFound e line index_it y

end LSEQ

namespace LSEQ

/-! ## The calls of a dispatch, as the specification words them -/

/-- The calls `process(m)` owed for one message: one for the index of every connected
editor whose site id differs from the origin of the message, in the order of the editors,
the first editor of the list having the index `i`. -/
def callsFrom (m : Message) : Nat → List SharedEditor → List (Message × Nat)
  | _, [] => []
  | i, e :: es =>
    if e._siteId ≠ m.siteId then (m, i) :: callsFrom m (i + 1) es
    else callsFrom m (i + 1) es

/-- The calls owed for a buffer of messages: those of each message, in buffer order. -/
def deliveries (ms : List Message) (es : List SharedEditor) : List (Message × Nat) :=
  ms.flatMap fun m => callsFrom m 0 es

/-- The call `editors[i]->process(m)`. -/
def callProcess (st : List SharedEditor × Rng) (c : Message × Nat) :
    Except Err (List SharedEditor × Rng) :=
  match st.1[c.2]? with
  | none => .error .undefined
  | some e => do
    let (e1, g1) ← process e c.1 st.2
    pure (st.1.set c.2 e1, g1)

/-- The calls of a list in sequence; an exception of `process` ends the sequence. -/
def runCalls : List (Message × Nat) → List SharedEditor × Rng →
    Except Err (List SharedEditor × Rng)
  | [], st => .ok st
  | c :: cs, st => do
    let st1 ← callProcess st c
    runCalls cs st1

/-- A server with the editors of the sites 0 and 1 connected and one INSERT message of site
0 in its buffer. -/
def relayOne : World :=
  { twoReplicas with messages := [⟨INSERT, ⟨'a', "0_0", [2]⟩, 0⟩] }

/-- A server with the editors of the sites 0 and 1 connected; its buffer holds a message of
the unknown kind 0 from site 7, then an INSERT message of site 0. -/
def relayForbidden : World :=
  { twoReplicas with
    messages := [⟨0, ⟨'a', "7_0", [2]⟩, 7⟩, ⟨INSERT, ⟨'b', "0_0", [3]⟩, 0⟩] }

/-- A server with site 0 holding `"a"` and site 1 holding `"a\n"`; its buffer holds the
DELETE message of site 0 for `a`, then an INSERT message of site 0. -/
def relayStale : World :=
  { editors := [docA, docANewline],
    messages := [⟨DELETE, ⟨'a', "0_0", [2]⟩, 0⟩, ⟨INSERT, ⟨'b', "0_2", [3]⟩, 0⟩],
    id := 2, gen := fun _ => 1, cout := [] }

end LSEQ

namespace LSEQ

/-! ## Vectors and the flat view -/

theorem toSizeT_natCast (i : Nat) : toSizeT (i : Int) = i := by
  simp [toSizeT]

theorem vecIdx_natCast {α : Type} (v : List α) (i : Nat) (x : α) (h : v[i]? = some x) :
    vecIdx v (i : Int) = .ok x := by
  simp [vecIdx, h]

theorem vecAt_natCast {α : Type} (v : List α) (i : Nat) (x : α) (h : v[i]? = some x) :
    vecAt v (i : Int) = .ok x := by
  simp [vecAt, toSizeT_natCast, h]

theorem vecIdx_ok_iff {α : Type} (v : List α) (i : Int) (x : α) :
    vecIdx v i = .ok x ↔ 0 ≤ i ∧ v[i.toNat]? = some x := by
  unfold vecIdx
  by_cases h : i < 0
  · simp [h]
  · simp only [h, if_false]
    cases hv : v[i.toNat]? with
    | none => simp; 
    | some y => simp; omega

theorem foldl_push_data (l : List Symbol) (out : String) :
    (l.foldl (fun output symbol => output.push symbol.c) out).data
      = out.data ++ l.map fun s => s.c := by
  induction l generalizing out with
  | nil => simp
  | cons x xs ih =>
    rw [List.foldl_cons, ih]
    simp [String.push]

theorem to_string_data (e : SharedEditor) :
    (to_string e).data = (flat e).map fun s => s.c := by
  have key : ∀ (ls : List (List Symbol)) (out : String),
      (ls.foldl (fun output line =>
        line.foldl (fun output symbol => output.push symbol.c) output) out).data
        = out.data ++ ls.flatten.map fun s => s.c := by
    intro ls
    induction ls with
    | nil => intro out; simp
    | cons l ls ih => intro out; simp [ih, foldl_push_data]
  simpa [to_string, flat] using key e._symbols ""

end LSEQ

namespace LSEQ

/-! ## Decomposed documents -/

theorem getElem?_mid {α : Type} (pre : List α) (cur : α) (post : List α) :
    (pre ++ cur :: post)[pre.length]? = some cur := by
  rw [List.getElem?_append_right (Nat.le_refl _)]
  simp

theorem set_mid {α : Type} (pre : List α) (cur x : α) (post : List α) :
    (pre ++ cur :: post).set pre.length x = pre ++ x :: post := by
  simp

theorem insertIdx_after {α : Type} (pre : List α) (a x : α) (post : List α) :
    (pre ++ a :: post).insertIdx (pre.length + 1) x = pre ++ a :: x :: post := by
  induction pre with
  | nil => simp [List.insertIdx_succ_cons]
  | cons p ps ih =>
    simp only [List.cons_append, List.length_cons, List.insertIdx_succ_cons, ih]

theorem insertIdx_take_drop {α : Type} (l : List α) (k : Nat) (x : α) (hk : k ≤ l.length) :
    l.insertIdx k x = l.take k ++ x :: l.drop k := by
  induction l generalizing k with
  | nil =>
    have : k = 0 := by simpa using hk
    subst this
    simp
  | cons a as ih =>
    cases k with
    | zero => simp
    | succ k =>
      have hk2 : k ≤ as.length := by simpa using hk
      simp [List.insertIdx_succ_cons, ih k hk2]

theorem split_of_getElem? {α : Type} (l : List α) (k : Nat) (x : α) (h : l[k]? = some x) :
    ∃ pre post, l = pre ++ x :: post ∧ pre.length = k := by
  obtain ⟨hk, hx⟩ := List.getElem?_eq_some_iff.mp h
  refine ⟨l.take k, l.drop (k + 1), ?_, by simp; omega⟩
  rw [← hx, ← List.drop_eq_getElem_cons hk, List.take_append_drop]

theorem insertSymbol_at (e : SharedEditor) (pre : List (List Symbol)) (cur : List Symbol)
    (post : List (List Symbol)) (k : Nat) (sym : Symbol)
    (hl : e._symbols = pre ++ cur :: post) (hk : k ≤ cur.length) :
    insertSymbol e ⟨pre.length, k⟩ sym = .ok
      { e with
        _symbols :=
          if sym.c = '\n' then
            if k = cur.length then (pre ++ (cur ++ [sym]) :: post) ++ [[]]
            else pre ++ (cur.take k ++ [sym]) :: cur.drop k :: post
          else pre ++ (cur.insertIdx k sym) :: post
        _counter := e._counter + 1
        _id_counter := incr64 e._id_counter } := by
  unfold insertSymbol
  simp only [hl, vecIdx_natCast _ _ _ (getElem?_mid pre cur post), toSizeT_natCast, bind,
    Except.bind, pure, Except.pure, Int.toNat_ofNat, set_mid]
  have hk' : ¬ k > cur.length := by omega
  simp only [hk', if_false]
  congr 1
  by_cases hc : sym.c = '\n'
  · by_cases hkl : k = cur.length
    · simp [hc, hkl]
    · have : cur.drop k ≠ [] := by
        intro h
        have := congrArg List.length h
        simp at this
        omega
      simp [hc, hkl, this, insertIdx_after]
  · simp [hc]

end LSEQ

namespace LSEQ

/-! ## What the allocator leaves untouched -/

theorem retrieveStrategy_frame (e : SharedEditor) (level : Int) (g : Rng) :
    (retrieveStrategy e level g).2.1._symbols = e._symbols ∧
    (retrieveStrategy e level g).2.1._siteId = e._siteId ∧
    (retrieveStrategy e level g).2.1._counter = e._counter ∧
    (retrieveStrategy e level g).2.1._id_counter = e._id_counter := by
  unfold retrieveStrategy
  split
  · simp
  · split
    · split <;> simp
    · split <;> simp

theorem generatePosBetweenAux_frame (fuel : Nat) :
    ∀ (e : SharedEditor) (pos1 pos2 newPos : List Int) (level : Int) (g : Rng),
    (generatePosBetweenAux fuel e pos1 pos2 newPos level g).2.1._symbols = e._symbols ∧
    (generatePosBetweenAux fuel e pos1 pos2 newPos level g).2.1._siteId = e._siteId ∧
    (generatePosBetweenAux fuel e pos1 pos2 newPos level g).2.1._counter = e._counter ∧
    (generatePosBetweenAux fuel e pos1 pos2 newPos level g).2.1._id_counter
      = e._id_counter := by
  induction fuel with
  | zero => intro e pos1 pos2 newPos level g; simp [generatePosBetweenAux]
  | succ n ih =>
    intro e pos1 pos2 newPos level g
    rw [generatePosBetweenAux]
    have hr := retrieveStrategy_frame e level g
    by_cases h1 : pos1.isEmpty = true
    · simp [h1]
    by_cases h2 : level < 0
    · simp [h1, h2]
    simp only [h1, h2, if_false]
    cases hc : capacity level with
    | error err => simp
    | ok cap =>
      simp only []
      generalize (if pos1.length > level.toNat then pos1.getD level.toNat 0 else 0) = id1
      generalize (if (!pos2.isEmpty) = true ∧ pos2.length > level.toNat then
        pos2.getD level.toNat 0 else cap) = id2
      rcases hrs : retrieveStrategy e level g with ⟨r, e1, g1⟩
      rw [hrs] at hr
      cases r with
      | error err => simpa using hr
      | ok b =>
        simp only []
        by_cases h3 : id2 - id1 > 1
        · simp only [h3, if_true]
          rcases generateIdBetween id1 id2 b g1 with ⟨r2, g2⟩
          cases r2 <;> simpa using hr
        · simp only [h3, if_false]
          by_cases h4 : id2 - id1 = 1
          · simp only [h4, if_true]
            have := ih e1 pos1 [] (newPos ++ [id1]) (level + 1) g1
            simp only [] at hr
            rw [hr.1, hr.2.1, hr.2.2.1, hr.2.2.2] at this
            exact this
          · simp only [h4, if_false]
            by_cases h5 : id1 = id2
            · simp only [h5, if_true]
              have := ih e1 pos1 pos2 (newPos ++ [id2]) (level + 1) g1
              simp only [] at hr
              rw [hr.1, hr.2.1, hr.2.2.1, hr.2.2.2] at this
              exact this
            · simp only [h5, if_false]
              simpa using hr

theorem generatePosBetween_frame (e : SharedEditor) (pos1 pos2 newPos : List Int)
    (level : Int) (g : Rng) :
    (generatePosBetween e pos1 pos2 newPos level g).2.1._symbols = e._symbols ∧
    (generatePosBetween e pos1 pos2 newPos level g).2.1._siteId = e._siteId ∧
    (generatePosBetween e pos1 pos2 newPos level g).2.1._counter = e._counter ∧
    (generatePosBetween e pos1 pos2 newPos level g).2.1._id_counter = e._id_counter :=
  generatePosBetweenAux_frame _ e pos1 pos2 newPos level g

end LSEQ

namespace LSEQ

/-! ## Neighbours of a cursor -/

theorem getElem?_of_split {α : Type} {l A B : List α} {x : α} {n : Nat}
    (h : l = A ++ x :: B) (hn : n = A.length) : l[n]? = some x := by
  subst h hn
  exact getElem?_mid A x B

theorem nil_or_snoc {α : Type} (l : List α) : l = [] ∨ ∃ init s, l = init ++ [s] := by
  rcases List.eq_nil_or_concat l with h | ⟨i, s, h⟩
  · exact Or.inl h
  · exact Or.inr ⟨i, s, by simpa using h⟩

theorem cut_at {α : Type} (l : List α) (k : Nat) (hk : k < l.length) :
    l = l.take k ++ l[k] :: l.drop (k + 1) := by
  rw [← List.drop_eq_getElem_cons hk, List.take_append_drop]

theorem findPosBefore_at (e : SharedEditor) (pre : List (List Symbol)) (cur : List Symbol)
    (post : List (List Symbol)) (k : Nat)
    (hl : e._symbols = pre ++ cur :: post) (hk : k ≤ cur.length)
    (hprev : k = 0 → ∀ prev, pre.getLast? = some prev → prev ≠ []) :
    findPosBefore e ⟨pre.length, k⟩ = .ok (leftNeighbour e (pre.flatten.length + k)) := by
  unfold findPosBefore
  have h1 : ¬ ((pre.length : Int) < 0) := by omega
  have h2 : ¬ ((pre.length : Int) ≥ ((pre ++ cur :: post).length : Nat)) := by
    simp only [List.length_append, List.length_cons]; push_cast; omega
  have h3 : ¬ ((k : Int) < 0) := by omega
  have h4 : ¬ ((k : Int) > (cur.length : Nat)) := by omega
  simp only [hl, h1, h2, h3, if_false, vecIdx_natCast _ _ _ (getElem?_mid pre cur post), bind,
    Except.bind, h4]
  rcases Nat.eq_zero_or_pos k with hk0 | hkpos
  · subst hk0
    rcases nil_or_snoc pre with hp | ⟨pre1, prev, hp⟩
    · subst hp
      simp [leftNeighbour, pure, Except.pure]
    · subst hp
      have hne : prev ≠ [] := hprev rfl prev (by simp)
      obtain ⟨init, s, hs⟩ : ∃ init s, prev = init ++ [s] := by
        rcases nil_or_snoc prev with h | h
        · exact absurd h hne
        · exact h
      subst hs
      have e1 : ((↑(pre1 ++ [init ++ [s]]).length : Int) - 1) = (pre1.length : Nat) := by
        simp
      have e2 : ((↑(init ++ [s]).length : Int) - 1) = (init.length : Nat) := by
        simp
      have g1 : (pre1 ++ [init ++ [s]] ++ cur :: post)[pre1.length]? = some (init ++ [s]) :=
        getElem?_of_split (A := pre1) (B := cur :: post) (by simp) rfl
      have g2 : (init ++ [s])[init.length]? = some s :=
        getElem?_of_split (A := init) (B := []) rfl rfl
      have hnz : ¬ ((↑(pre1 ++ [init ++ [s]]).length : Int) = 0) := by
        simp only [List.length_append, List.length_cons, List.length_nil]; push_cast; omega
      simp only [Int.ofNat_zero, Nat.cast_zero, true_and, hnz, if_false, not_false_eq_true, if_true,
        ne_eq, e1, e2, vecIdx_natCast _ _ _ g1, vecAt_natCast _ _ _ g2, pure, Except.pure]
      have hflat : flat e = (pre1.flatten ++ init) ++ s :: (cur ++ post.flatten) := by
        simp [flat, hl]
      have g3 := getElem?_of_split (n := (pre1.flatten ++ init).length) hflat rfl
      have ho : (pre1 ++ [init ++ [s]]).flatten.length + 0 - 1 = (pre1.flatten ++ init).length := by
        simp
      have ho2 : (pre1 ++ [init ++ [s]]).flatten.length + 0 ≠ 0 := by
        simp
      simp only [leftNeighbour, ho2, if_false, ho, g3, Option.map_some', Option.getD_some]
  · have hk0 : ¬ ((k : Int) = 0) := by omega
    have e1 : ((k : Int) - 1) = ((k - 1 : Nat) : Int) := by omega
    have hlt : k - 1 < cur.length := by omega
    have g2 : cur[k - 1]? = some cur[k - 1] := List.getElem?_eq_getElem hlt
    simp only [hk0, false_and, if_false, e1, vecAt_natCast _ _ _ g2, pure, Except.pure]
    have hflat : flat e = (pre.flatten ++ cur.take (k - 1)) ++ cur[k - 1] ::
        (cur.drop (k - 1 + 1) ++ post.flatten) := by
      have := cut_at cur (k - 1) hlt
      simp only [flat, hl, List.flatten_append, List.flatten_cons, List.append_assoc,
        List.cons_append]
      rw [← List.cons_append, ← List.append_assoc (cur.take (k - 1)), ← this]
    have g3 := getElem?_of_split (n := (pre.flatten ++ cur.take (k - 1)).length) hflat rfl
    have ho : pre.flatten.length + k - 1 = (pre.flatten ++ cur.take (k - 1)).length := by
      simp only [List.length_append, List.length_take]; omega
    have ho2 : pre.flatten.length + k ≠ 0 := by omega
    simp only [leftNeighbour, ho2, if_false, ho, g3, Option.map_some', Option.getD_some]

theorem findPosAfter_at (e : SharedEditor) (pre : List (List Symbol)) (cur : List Symbol)
    (post : List (List Symbol)) (k : Nat)
    (hl : e._symbols = pre ++ cur :: post) (hk : k ≤ cur.length)
    (hpost : k = cur.length → post = []) :
    findPosAfter e ⟨pre.length, k⟩ = .ok (rightNeighbour e (pre.flatten.length + k)) := by
  unfold findPosAfter
  have h1 : ¬ ((pre.length : Int) < 0) := by omega
  have h2 : ¬ ((pre.length : Int) ≥ ((pre ++ cur :: post).length : Nat)) := by
    simp only [List.length_append, List.length_cons]; push_cast; omega
  have h3 : ¬ ((k : Int) < 0) := by omega
  have h4 : ¬ ((k : Int) > (cur.length : Nat)) := by omega
  simp only [hl, h1, h2, h3, if_false, vecIdx_natCast _ _ _ (getElem?_mid pre cur post), bind,
    Except.bind, h4]
  rcases Nat.eq_or_lt_of_le hk with hke | hlt
  · have hp := hpost hke
    subst hp
    have c1 : ((pre.length : Int) = ((pre ++ [cur]).length : Nat) - 1) := by simp
    have c2 : (k : Int) = (cur.length : Nat) := by omega
    simp only [c1, c2, and_self, if_true, pure, Except.pure]
    have hflat : flat e = pre.flatten ++ cur := by simp [flat, hl]
    have hnone : (flat e)[pre.flatten.length + k]? = none := by
      rw [List.getElem?_eq_none_iff, hflat, List.length_append]; omega
    simp only [rightNeighbour, hnone, Option.map_none', Option.getD_none]
  · have c2 : ¬ ((k : Int) = (cur.length : Nat)) := by omega
    have c3 : ¬ ((pre.length : Int) > ((pre ++ cur :: post).length : Nat) - 1) := by
      simp only [List.length_append, List.length_cons]; push_cast; omega
    have g2 : cur[k]? = some cur[k] := List.getElem?_eq_getElem hlt
    simp only [c2, and_false, if_false, c3, false_and, vecAt_natCast _ _ _ g2, pure, Except.pure]
    have hflat : flat e = (pre.flatten ++ cur.take k) ++ cur[k] ::
        (cur.drop (k + 1) ++ post.flatten) := by
      have := cut_at cur k hlt
      simp only [flat, hl, List.flatten_append, List.flatten_cons, List.append_assoc,
        List.cons_append]
      rw [← List.cons_append, ← List.append_assoc (cur.take k), ← this]
    have g3 := getElem?_of_split (n := (pre.flatten ++ cur.take k).length) hflat rfl
    have ho : pre.flatten.length + k = (pre.flatten ++ cur.take k).length := by
      simp only [List.length_append, List.length_take]; omega
    simp only [rightNeighbour, ho, g3, Option.map_some', Option.getD_some]

end LSEQ

namespace LSEQ

/-! ## localInsert -/

/-- The cursor `localInsert` works at: past a newline at the end of a line it is the start
of the next line. -/
theorem localInsert_normal (e : SharedEditor) (env : Env) (pre : List (List Symbol))
    (cur : List Symbol) (post : List (List Symbol)) (k : Nat) (value : Char)
    (q : List Int) (e1 : SharedEditor) (g1 : Rng)
    (hl : e._symbols = pre ++ cur :: post) (hk : k ≤ cur.length)
    (hnorm : ¬ (¬ cur.isEmpty ∧ k ≥ cur.length ∧
      (cur.getLast?.map fun s => s.c) = some '\n'))
    (hprev : k = 0 → ∀ prev, pre.getLast? = some prev → prev ≠ [])
    (hpost : k = cur.length → post = [])
    (hgen : generatePosBetween e (leftNeighbour e (pre.flatten.length + k))
      (rightNeighbour e (pre.flatten.length + k)) [] 0 env.gen = (.ok q, e1, g1)) :
    localInsert e env ⟨pre.length, k⟩ value =
      (insertSymbol e1 ⟨pre.length, k⟩ ⟨value, symId e._siteId e._id_counter, q⟩).map
        fun e2 => (e2, { env with
          gen := g1,
          messages := env.messages ++
            [⟨INSERT, ⟨value, symId e._siteId e._id_counter, q⟩, e._siteId⟩] }) := by
  have hfr := generatePosBetween_frame e (leftNeighbour e (pre.flatten.length + k))
      (rightNeighbour e (pre.flatten.length + k)) [] 0 env.gen
  rw [hgen] at hfr
  simp only [] at hfr
  have hl1 : e1._symbols = pre ++ cur :: post := by rw [hfr.1, hl]
  unfold localInsert
  have hv : vecIdx e._symbols (pre.length : Int) = .ok cur := by
    rw [hl]; exact vecIdx_natCast _ _ _ (getElem?_mid pre cur post)
  simp only [hv, bind, Except.bind, toSizeT_natCast, hnorm, if_false,
    findPosBefore_at e pre cur post k hl hk hprev, findPosAfter_at e pre cur post k hl hk hpost,
    hgen, insertSymbol_at e1 pre cur post k _ hl1 hk, pure, Except.pure, Except.map]

/-- Past the newline that ends a line, `localInsert` is `localInsert` at the start of the
next line. -/
theorem localInsert_past_newline (e : SharedEditor) (env : Env) (pre : List (List Symbol))
    (cur next : List Symbol) (post : List (List Symbol)) (value : Char)
    (hl : e._symbols = pre ++ cur :: next :: post)
    (hlast : (cur.getLast?.map fun s => s.c) = some '\n') :
    localInsert e env ⟨pre.length, cur.length⟩ value
      = localInsert e env ⟨(pre ++ [cur]).length, (0 : Nat)⟩ value := by
  have hne : ¬ cur.isEmpty = true := by
    intro h
    rw [List.isEmpty_iff] at h
    subst h
    simp at hlast
  have hv : vecIdx e._symbols (pre.length : Int) = .ok cur := by
    rw [hl]; exact vecIdx_natCast _ _ _ (getElem?_mid pre cur (next :: post))
  have hv2 : vecIdx e._symbols ((pre ++ [cur]).length : Nat) = .ok next := by
    rw [hl]
    exact vecIdx_natCast _ _ _ (getElem?_of_split (A := pre ++ [cur]) (B := post) (by simp) rfl)
  have hn2 : ¬ (¬ next.isEmpty = true ∧ 0 ≥ next.length ∧
      (next.getLast?.map fun s => s.c) = some '\n') := by
    rintro ⟨h1, h2, -⟩
    apply h1
    rw [List.isEmpty_iff]
    exact List.length_eq_zero.mp (by omega)
  have e1 : ((pre.length : Int) + 1) = ((pre ++ [cur]).length : Nat) := by simp
  conv_lhs => unfold localInsert
  conv_rhs => unfold localInsert
  simp only [hv, hv2, bind, Except.bind, toSizeT_natCast, hne, hlast, not_false_eq_true,
    ge_iff_le, le_refl, and_self, if_true, e1, CharP.cast_eq_zero, Nat.cast_zero]
  simp only [← Nat.cast_zero (R := Int), toSizeT_natCast, hn2, if_false]
  simp

end LSEQ

namespace LSEQ

/-! ## Well-formed documents, decomposed -/

theorem FullLine.ne_nil {l : List Symbol} (h : FullLine l) : l ≠ [] := by
  intro hl
  subst hl
  simp [FullLine] at h

theorem EndsLine.line_ne_nil {l : List Symbol} (h : EndsLine l) : l ≠ [] := by
  intro hl
  subst hl
  simp [EndsLine] at h

theorem textLines_of {e : SharedEditor} (hwf : WellFormed e) (hnl : NewlineEndsLine e) :
    TextLines e :=
  ⟨fun l hl => ⟨hwf.2.1 l hl, hnl l hl⟩, hwf.2.2.1, hwf.2.2.2.2.2⟩

theorem wf_split {e : SharedEditor} (hwf : TextLines e) {pre : List (List Symbol)}
    {cur : List Symbol} {post : List (List Symbol)} (hl : e._symbols = pre ++ cur :: post) :
    (∀ l ∈ pre, FullLine l) ∧ (post ≠ [] → FullLine cur) ∧
      (post = [] → ∀ s ∈ cur, s.c ≠ '\n') := by
  obtain ⟨h2, -, h6⟩ := hwf
  rw [hl] at h2 h6
  rw [List.dropLast_append_cons] at h2
  refine ⟨fun l hl => h2 l (List.mem_append_left _ hl), ?_, ?_⟩
  · intro hp
    apply h2
    apply List.mem_append_right
    cases post with
    | nil => exact absurd rfl hp
    | cons p ps => simp
  · intro hp
    subst hp
    simpa using h6

theorem wf_ends {e : SharedEditor} (hwf : WellFormed e) {pre : List (List Symbol)}
    {cur : List Symbol} {post : List (List Symbol)} (hl : e._symbols = pre ++ cur :: post) :
    (∀ l ∈ pre, EndsLine l) ∧ (post ≠ [] → EndsLine cur) ∧
      (post = [] → ∀ s ∈ cur, s.c ≠ '\n') := by
  obtain ⟨-, h2, -, -, -, h6⟩ := hwf
  rw [hl] at h2 h6
  rw [List.dropLast_append_cons] at h2
  refine ⟨fun l hl => h2 l (List.mem_append_left _ hl), ?_, ?_⟩
  · intro hp
    apply h2
    apply List.mem_append_right
    cases post with
    | nil => exact absurd rfl hp
    | cons p ps => simp
  · intro hp
    subst hp
    simpa using h6

theorem flatOffset_split (e : SharedEditor) (pre : List (List Symbol)) (cur : List Symbol)
    (post : List (List Symbol)) (k : Nat) (hl : e._symbols = pre ++ cur :: post) :
    flatOffset e ⟨pre.length, k⟩ = pre.flatten.length + k := by
  simp [flatOffset, hl, List.length_flatten]

theorem localInsert_at_cursor (e : SharedEditor) (env : Env) (pre : List (List Symbol))
    (cur : List Symbol) (post : List (List Symbol)) (k : Nat) (value : Char)
    (hwf : WellFormed e) (hl : e._symbols = pre ++ cur :: post) (hk : k ≤ cur.length)
    (q : List Int)
    (halloc : (generatePosBetween e (leftNeighbour e (pre.flatten.length + k))
      (rightNeighbour e (pre.flatten.length + k)) [] 0 env.gen).1 = .ok q) :
    ∃ e2 env2 sym, localInsert e env ⟨pre.length, k⟩ value = .ok (e2, env2) ∧
      sym.c = value ∧
      flat e2 = (pre.flatten ++ cur.take k) ++ sym :: (cur.drop k ++ post.flatten) ∧
      (value = '\n' → k < cur.length →
        e2._symbols = pre ++ (cur.take k ++ [sym]) :: cur.drop k :: post) := by
  obtain ⟨w1, w2, w3⟩ := wf_ends hwf hl
  rcases hg : generatePosBetween e (leftNeighbour e (pre.flatten.length + k))
      (rightNeighbour e (pre.flatten.length + k)) [] 0 env.gen with ⟨r, e1, g1⟩
  rw [hg] at halloc
  simp only [] at halloc
  subst halloc
  by_cases hnorm : ¬ cur.isEmpty ∧ k ≥ cur.length ∧ (cur.getLast?.map fun s => s.c) = some '\n'
  · -- the cursor is past the newline that ends the line
    obtain ⟨hne, hge, hlast⟩ := hnorm
    have hkl : k = cur.length := by omega
    subst hkl
    have hpost : post ≠ [] := by
      intro hp
      have h3 := w3 hp
      rcases nil_or_snoc cur with hc | ⟨init, s, hc⟩
      · subst hc; simp at hne
      · subst hc
        simp at hlast
        exact h3 s (by simp) hlast
    obtain ⟨next, post1, hp⟩ := List.exists_cons_of_ne_nil hpost
    subst hp
    have hl2 : e._symbols = (pre ++ [cur]) ++ next :: post1 := by simp [hl]
    have w1b := (wf_ends hwf hl2).1
    have w2b := (wf_ends hwf hl2).2.1
    have hoff : (pre ++ [cur]).flatten.length + 0 = pre.flatten.length + cur.length := by simp
    have hB := localInsert_normal e env (pre ++ [cur]) next post1 0 value q e1 g1 hl2
      (Nat.zero_le _)
      (by
        rintro ⟨h1, h2, -⟩
        apply h1
        rw [List.isEmpty_iff]
        exact List.length_eq_zero.mp (by omega))
      (by
        intro _ prev hprev
        simp at hprev
        subst hprev
        exact (w2 hpost).line_ne_nil)
      (by
        intro h0
        by_contra hp1
        exact (w2b hp1).line_ne_nil (List.length_eq_zero.mp h0.symm))
      (by rw [hoff]; exact hg)
    rw [localInsert_past_newline e env pre cur next post1 value hl hlast, hB]
    have hfr := generatePosBetween_frame e (leftNeighbour e (pre.flatten.length + cur.length))
      (rightNeighbour e (pre.flatten.length + cur.length)) [] 0 env.gen
    rw [hg] at hfr
    simp only [] at hfr
    have hl1 : e1._symbols = (pre ++ [cur]) ++ next :: post1 := by rw [hfr.1, hl2]
    rw [insertSymbol_at e1 (pre ++ [cur]) next post1 0 _ hl1 (Nat.zero_le _)]
    refine ⟨_, _, ⟨value, symId e._siteId e._id_counter, q⟩, rfl, rfl, ?_, ?_⟩
    · simp only [flat]
      split
      · split
        · rename_i h1 h2
          have := List.length_eq_zero.mp h2.symm
          subst this
          simp
        · simp
      · simp
    · intro _ h; exact absurd h (Nat.lt_irrefl _)
  · have hB := localInsert_normal e env pre cur post k value q e1 g1 hl hk hnorm
      (by
        intro _ prev hprev
        exact (w1 prev (List.mem_of_mem_getLast? hprev)).line_ne_nil)
      (by
        intro hkl
        by_contra hp
        apply hnorm
        have hf := w2 hp
        refine ⟨?_, by omega, hf⟩
        rw [List.isEmpty_iff]
        exact hf.line_ne_nil)
      hg
    rw [hB]
    have hfr := generatePosBetween_frame e (leftNeighbour e (pre.flatten.length + k))
      (rightNeighbour e (pre.flatten.length + k)) [] 0 env.gen
    rw [hg] at hfr
    simp only [] at hfr
    have hl1 : e1._symbols = pre ++ cur :: post := by rw [hfr.1, hl]
    rw [insertSymbol_at e1 pre cur post k _ hl1 hk]
    refine ⟨_, _, ⟨value, symId e._siteId e._id_counter, q⟩, rfl, rfl, ?_, ?_⟩
    · simp only [flat]
      split
      · split
        · rename_i h1 h2; subst h2; simp
        · simp
      · simp [insertIdx_take_drop cur k _ hk]
    · intro hv hlt
      have : k ≠ cur.length := by omega
      simp [hv, this]

end LSEQ

namespace LSEQ

/-! ## The allocator: draws -/

theorem uniform_range (a b : Int) (g : Rng) (h : a ≤ b) :
    ∃ r, uniform_int_distribution a b g = (.ok r, fun n => g (n + 1)) ∧ a ≤ r ∧ r ≤ b := by
  unfold uniform_int_distribution
  have hb : ¬ b < a := by omega
  simp only [hb, if_false]
  refine ⟨_, rfl, ?_, ?_⟩
  · omega
  · have hpos : 0 < (b - a + 1).toNat := by omega
    have := Nat.mod_lt (g 0) hpos
    omega

theorem generateIdBetween_open (min max : Int) (strategy : Bool) (g : Rng)
    (h0 : 0 ≤ min) (h1 : max - min > 1) (h2 : max - min ≠ boundary) :
    ∃ r, generateIdBetween min max strategy g = (.ok r, fun n => g (n + 1)) ∧
      min < r ∧ r < max := by
  unfold generateIdBetween
  unfold boundary at h2 ⊢
  have c1 : ¬ (min < 0 ∧ max < 0) := by omega
  have c2 : ¬ min < 0 := by omega
  have c3 : ¬ max < 0 := by omega
  have c4 : ¬ max < min := by omega
  have c5 : ¬ min = max := by omega
  simp only [c1, c2, c3, c4, c5, if_false]
  by_cases hb : max - min < 10
  · simp only [hb, if_true]
    obtain ⟨r, hr, h3, h4⟩ := uniform_range (min + 1) (max - 1) g (by omega)
    exact ⟨r, hr, by omega, by omega⟩
  · simp only [hb, if_false]
    cases strategy with
    | false =>
      simp only [Bool.not_false, if_true]
      obtain ⟨r, hr, h3, h4⟩ := uniform_range (max - 10) (max - 1) g (by omega)
      exact ⟨r, hr, by omega, by omega⟩
    | true =>
      simp only [Bool.not_true, Bool.false_eq_true, if_false]
      obtain ⟨r, hr, h3, h4⟩ := uniform_range (min + 1) (min + 10) g (by omega)
      exact ⟨r, hr, by omega, by omega⟩

theorem generateIdBetween_closed (min max : Int) (strategy : Bool) (g : Rng)
    (h0 : 0 ≤ min) (h1 : max - min > 1) :
    ∃ r, generateIdBetween min max strategy g = (.ok r, fun n => g (n + 1)) ∧
      min ≤ r ∧ r ≤ max := by
  unfold generateIdBetween
  unfold boundary
  have c1 : ¬ (min < 0 ∧ max < 0) := by omega
  have c2 : ¬ min < 0 := by omega
  have c3 : ¬ max < 0 := by omega
  have c4 : ¬ max < min := by omega
  have c5 : ¬ min = max := by omega
  simp only [c1, c2, c3, c4, c5, if_false]
  by_cases hb : max - min < 10
  · simp only [hb, if_true]
    obtain ⟨r, hr, h3, h4⟩ := uniform_range (min + 1) (max - 1) g (by omega)
    exact ⟨r, hr, by omega, by omega⟩
  · simp only [hb, if_false]
    cases strategy with
    | false =>
      simp only [Bool.not_false, if_true]
      obtain ⟨r, hr, h3, h4⟩ := uniform_range (max - 10) (max - 1) g (by omega)
      exact ⟨r, hr, by omega, by omega⟩
    | true =>
      simp only [Bool.not_true, Bool.false_eq_true, if_false]
      obtain ⟨r, hr, h3, h4⟩ := uniform_range (min + 1) (min + 10) g (by omega)
      exact ⟨r, hr, by omega, by omega⟩

/-! ## The allocator: the strategy map -/

theorem lookup_isSome_mem (m : List (Int × Bool)) (k : Int)
    (h : (m.lookup k).isSome = true) : k ∈ m.map Prod.fst := by
  induction m with
  | nil => simp at h
  | cons x xs ih =>
    obtain ⟨a, b⟩ := x
    by_cases hk : k = a
    · simp [hk]
    · have : (k == a) = false := by simpa using hk
      simp only [List.lookup, this] at h
      simp [ih h]

theorem levelsCached_length (e : SharedEditor) (n : Nat) (h : levelsCached e n) :
    n ≤ e.strategies.length := by
  have hsub : (List.range n).map (fun k : Nat => (k : Int)) ⊆ e.strategies.map Prod.fst := by
    intro x hx
    simp only [List.mem_map, List.mem_range] at hx
    obtain ⟨k, hk, rfl⟩ := hx
    exact lookup_isSome_mem _ _ (h k hk)
  have hnd : ((List.range n).map (fun k : Nat => (k : Int))).Nodup :=
    (List.nodup_range n).map (fun a b hab => by simpa using hab)
  have := (hnd.subperm hsub).length_le
  simpa using this

theorem lookup_mapInsert_self (m : List (Int × Bool)) (k : Int) (v : Bool) :
    ((mapInsert m k v).lookup k).isSome = true := by
  unfold mapInsert
  cases h : m.lookup k with
  | some b => simp [h]
  | none =>
    simp only []
    induction m with
    | nil => simp [List.lookup]
    | cons x xs ih =>
      obtain ⟨a, b⟩ := x
      by_cases hk : k = a
      · subst hk; simp [List.lookup]
      · have hk2 : (k == a) = false := by simpa using hk
        simp only [List.lookup, hk2] at h
        simp only [List.cons_append, List.lookup, hk2]
        exact ih h

theorem lookup_mapInsert_other (m : List (Int × Bool)) (k j : Int) (v : Bool)
    (h : (m.lookup j).isSome = true) : ((mapInsert m k v).lookup j).isSome = true := by
  unfold mapInsert
  cases hk : m.lookup k with
  | some b => simpa using h
  | none =>
    simp only []
    induction m with
    | nil => simp at h
    | cons x xs ih =>
      obtain ⟨a, b⟩ := x
      by_cases hj : j = a
      · subst hj; simp [List.lookup]
      · have hj2 : (j == a) = false := by simpa using hj
        simp only [List.lookup, hj2] at h
        simp only [List.cons_append, List.lookup, hj2]
        by_cases hka : k = a
        · subst hka; simp [List.lookup] at hk
        · have hk2 : (k == a) = false := by simpa using hka
          simp only [List.lookup, hk2] at hk
          exact ih h hk

theorem retrieveStrategy_ok (e : SharedEditor) (n : Nat) (g : Rng) (h : levelsCached e n) :
    ∃ b e1, retrieveStrategy e (n : Int) g = (.ok b, e1, fun k => g (k + 1)) ∧
      levelsCached e1 (n + 1) := by
  unfold retrieveStrategy
  have c1 : ¬ ((n : Int) < 0) := by omega
  have c2 : ¬ (e.strategies.length < toSizeT (n : Int) ∧ (n : Int) ≠ 0) := by
    rw [toSizeT_natCast]
    have := levelsCached_length e n h
    omega
  simp only [c1, c2, if_false]
  obtain ⟨r, hr, -, -⟩ := uniform_range 1 10 g (by omega)
  rw [hr]
  refine ⟨_, _, rfl, ?_⟩
  intro k hk
  simp only []
  by_cases hkn : k = n
  · subst hkn; exact lookup_mapInsert_self _ _ _
  · exact lookup_mapInsert_other _ _ _ _ (h k (by omega))

theorem capacity_ok (n : Nat) (h : n ≤ 25) : capacity (n : Int) = .ok (2 ^ n * base) := by
  unfold capacity
  have h1 : (2 : Int) ^ n ≤ 2 ^ 25 := by
    exact_mod_cast Nat.pow_le_pow_right (by omega : 0 < 2) h
  have h2 : (2 : Int) ^ n * base ≤ 2147483647 := by
    unfold base
    omega
  simp [h2]

end LSEQ

namespace LSEQ

/-! ## The allocator: one level -/

theorem getD_guard (p : List Int) (n : Nat) :
    (if p.length > n then p.getD n 0 else 0) = p.getD n 0 := by
  by_cases h : p.length > n
  · simp [h]
  · simp only [h, if_false]
    rw [List.getD_eq_default]
    omega

/-- One call of `generatePosBetween` at a level whose capacity fits an `int`, with the
strategies of the lower levels in the map. -/
theorem generatePosBetweenAux_step (fuel : Nat) (e : SharedEditor) (pos1 pos2 newPos : List Int)
    (n : Nat) (g : Rng) (hp1 : pos1 ≠ []) (hn : n ≤ 25) (hS : levelsCached e n) :
    ∃ b e1, levelsCached e1 (n + 1) ∧
      generatePosBetweenAux (fuel + 1) e pos1 pos2 newPos (n : Int) g =
        if (if (!pos2.isEmpty) = true ∧ pos2.length > n then pos2.getD n 0 else 2 ^ n * base)
            - pos1.getD n 0 > 1 then
          match generateIdBetween (pos1.getD n 0)
            (if (!pos2.isEmpty) = true ∧ pos2.length > n then pos2.getD n 0 else 2 ^ n * base)
            b (fun k => g (k + 1)) with
          | (.error err, g2) => (.error err, e1, g2)
          | (.ok newId, g2) => (.ok (newPos ++ [newId]), e1, g2)
        else if (if (!pos2.isEmpty) = true ∧ pos2.length > n then pos2.getD n 0
            else 2 ^ n * base) - pos1.getD n 0 = 1 then
          generatePosBetweenAux fuel e1 pos1 [] (newPos ++ [pos1.getD n 0]) ((n + 1 : Nat) : Int)
            (fun k => g (k + 1))
        else if pos1.getD n 0 = (if (!pos2.isEmpty) = true ∧ pos2.length > n then
            pos2.getD n 0 else 2 ^ n * base) then
          generatePosBetweenAux fuel e1 pos1 pos2 (newPos ++ [pos1.getD n 0])
            ((n + 1 : Nat) : Int) (fun k => g (k + 1))
        else (.error .undefined, e1, fun k => g (k + 1)) := by
  obtain ⟨b, e1, hr, hS1⟩ := retrieveStrategy_ok e n g hS
  refine ⟨b, e1, hS1, ?_⟩
  rw [generatePosBetweenAux]
  have c1 : ¬ (pos1.isEmpty = true) := by
    rw [List.isEmpty_iff]; exact hp1
  have c2 : ¬ ((n : Int) < 0) := by omega
  simp only [c1, c2, if_false, capacity_ok n hn, Int.toNat_ofNat, getD_guard, hr]
  rfl

end LSEQ

namespace LSEQ

/-! ## The allocator: the descent -/

theorem lex_nil_cons (y : Int) (bs : List Int) :
    lexicographical_compare [] (y :: bs) = true := rfl

theorem lex_cons_cons (x y : Int) (as bs : List Int) :
    lexicographical_compare (x :: as) (y :: bs) =
      if x < y then true else if y < x then false else lexicographical_compare as bs := rfl

theorem lex_cons_self (x : Int) (as bs : List Int) :
    lexicographical_compare (x :: as) (x :: bs) = lexicographical_compare as bs := by
  simp [lex_cons_cons]

theorem lex_cons_lt (x y : Int) (as bs : List Int) (h : x < y) :
    lexicographical_compare (x :: as) (y :: bs) = true := by
  simp [lex_cons_cons, h]

theorem drop_eq_getD_cons (p : List Int) (n : Nat) (h : n < p.length) :
    p.drop n = p.getD n 0 :: p.drop (n + 1) := by
  rw [List.drop_eq_getElem_cons h, List.getD_eq_getElem _ _ h]

/-- The descent once the right neighbour is left out (`pos2 = {}`). -/
theorem generatePosBetweenAux_dropped (p1 : List Int) (hp1 : p1 ≠ [])
    (hcap : withinCapacity p1) (hlen : p1.length ≤ 25) :
    ∀ (m n fuel : Nat) (e : SharedEditor) (g : Rng) (newPos : List Int),
      p1.length - n ≤ m → n ≤ 25 → 26 - n < fuel → levelsCached e n →
      drawnInterval p1 fuel [] n ≠ boundary →
      ∃ q e1 g1, generatePosBetweenAux fuel e p1 [] newPos (n : Int) g
          = (.ok (newPos ++ q), e1, g1) ∧
        lexicographical_compare (p1.drop n) q = true := by
  intro m
  induction m with
  | zero =>
    intro n fuel e g newPos hm hn hfuel hS hD
    obtain ⟨fuel, rfl⟩ : ∃ f, fuel = f + 1 := ⟨fuel - 1, by omega⟩
    obtain ⟨b, e1, -, hstep⟩ := generatePosBetweenAux_step fuel e p1 [] newPos n g hp1 hn hS
    have hge : p1.length ≤ n := by omega
    have hid : p1.getD n 0 = 0 := List.getD_eq_default _ _ hge
    have hpow : (1 : Int) ≤ 2 ^ n := by
      exact_mod_cast Nat.one_le_two_pow
    have hgt : 2 ^ n * base - 0 > 1 := by unfold base; omega
    have hne : 2 ^ n * base - 0 ≠ boundary := by
      rw [drawnInterval] at hD
      simpa only [List.length_nil, Nat.not_lt_zero, if_false, hid, hgt, if_true] using hD
    obtain ⟨r, hr, h1, h2⟩ := generateIdBetween_open 0 (2 ^ n * base) b (fun k => g (k + 1))
      (le_refl _) hgt hne
    simp only [List.isEmpty_nil, Bool.not_true, Bool.false_eq_true, false_and, if_false, hid,
      hgt, if_true, hr] at hstep
    refine ⟨[r], e1, _, hstep, ?_⟩
    rw [List.drop_eq_nil_of_le hge]
    rfl
  | succ m ih =>
    intro n fuel e g newPos hm hn hfuel hS hD
    obtain ⟨fuel, rfl⟩ : ∃ f, fuel = f + 1 := ⟨fuel - 1, by omega⟩
    obtain ⟨b, e1, hS1, hstep⟩ := generatePosBetweenAux_step fuel e p1 [] newPos n g hp1 hn hS
    simp only [List.isEmpty_nil, Bool.not_true, Bool.false_eq_true, false_and, if_false]
      at hstep
    by_cases hlt : n < p1.length
    · obtain ⟨hc0, hc1⟩ := hcap n hlt
      have hdrop := drop_eq_getD_cons p1 n hlt
      rw [drawnInterval] at hD
      simp only [List.length_nil, Nat.not_lt_zero, if_false] at hD
      by_cases hgt : 2 ^ n * base - p1.getD n 0 > 1
      · have hne : 2 ^ n * base - p1.getD n 0 ≠ boundary := by
          simpa only [hgt, if_true] using hD
        obtain ⟨r, hr, h1, h2⟩ := generateIdBetween_open (p1.getD n 0) (2 ^ n * base) b
          (fun k => g (k + 1)) hc0 hgt hne
        simp only [hgt, if_true, hr] at hstep
        refine ⟨[r], e1, _, hstep, ?_⟩
        rw [hdrop]
        exact lex_cons_lt _ _ _ _ h1
      · have hD1 : drawnInterval p1 fuel [] (n + 1) ≠ boundary := by
          simp only [hgt, if_false] at hD
          split at hD <;> exact hD
        obtain ⟨q, e2, g2, hrec, hlex⟩ := ih (n + 1) fuel e1 (fun k => g (k + 1))
          (newPos ++ [p1.getD n 0]) (by omega) (by omega) (by omega) hS1 hD1
        have hres : generatePosBetweenAux (fuel + 1) e p1 [] newPos (n : Int) g
            = (.ok (newPos ++ [p1.getD n 0] ++ q), e2, g2) := by
          rw [hstep]
          simp only [hgt, if_false]
          split
          · exact hrec
          · split
            · exact hrec
            · omega
        refine ⟨p1.getD n 0 :: q, e2, g2, ?_, ?_⟩
        · rw [hres]; simp
        · rw [hdrop, lex_cons_self]; exact hlex
    · have hge : p1.length ≤ n := by omega
      exact ih n (fuel + 1) e g newPos (by omega) hn hfuel hS hD

/-- Once the right neighbour is left out, a draw past the end of `p1` is made from the whole
capacity of its level, which is not `boundary`. -/
theorem drawnInterval_dropped (p1 : List Int) :
    ∀ (fuel n : Nat), p1.length ≤ drawnLevel p1 fuel [] n →
      drawnInterval p1 fuel [] n ≠ boundary := by
  intro fuel
  induction fuel with
  | zero =>
    intro n _
    rw [drawnInterval]
    decide
  | succ fuel ih =>
    intro n h
    rw [drawnLevel] at h
    rw [drawnInterval]
    simp only [List.length_nil, Nat.not_lt_zero, if_false] at h ⊢
    by_cases hgt : 2 ^ n * base - p1.getD n 0 > 1
    · simp only [hgt, if_true] at h ⊢
      rw [List.getD_eq_default _ _ h]
      have hpow : (1 : Int) ≤ 2 ^ n := by
        exact_mod_cast Nat.one_le_two_pow
      unfold base boundary
      omega
    · simp only [hgt, if_false] at h ⊢
      split
      · rename_i h1
        rw [if_pos h1] at h
        exact ih (n + 1) h
      · rename_i h1
        rw [if_neg h1] at h
        exact ih (n + 1) h

end LSEQ

namespace LSEQ

theorem lex_nil_right (a : List Int) : lexicographical_compare a [] = false := by
  cases a <;> rfl

theorem zeroExtension_cons (x : Int) (as bs : List Int) :
    zeroExtension (x :: as) (x :: bs) ↔ zeroExtension as bs := by
  simp [zeroExtension]

theorem zeroExtension_nil (b : List Int) : zeroExtension [] b ↔ ∀ x ∈ b, x = 0 := by
  simp [zeroExtension]

/-- What the precondition on the draw says at one level of the descent with the right
neighbour kept. -/
theorem drawn_cases (p1 p2 : List Int) (fuel n : Nat) (hn2 : n < p2.length)
    (hD : drawnInterval p1 (fuel + 1) p2 n ≠ boundary ∨
      (p1.length ≤ drawnLevel p1 (fuel + 1) p2 n ∧
        drawnLevel p1 (fuel + 1) p2 n + 1 < p2.length)) :
    (p2.getD n 0 - p1.getD n 0 > 1 →
      p2.getD n 0 - p1.getD n 0 ≠ boundary ∨ (p1.length ≤ n ∧ n + 1 < p2.length)) ∧
    (p2.getD n 0 - p1.getD n 0 = 1 → drawnInterval p1 fuel [] (n + 1) ≠ boundary) ∧
    (¬ p2.getD n 0 - p1.getD n 0 > 1 → ¬ p2.getD n 0 - p1.getD n 0 = 1 →
      (drawnInterval p1 fuel p2 (n + 1) ≠ boundary ∨
        (p1.length ≤ drawnLevel p1 fuel p2 (n + 1) ∧
          drawnLevel p1 fuel p2 (n + 1) + 1 < p2.length))) := by
  rw [drawnInterval, drawnLevel] at hD
  simp only [hn2, if_true] at hD
  refine ⟨?_, ?_, ?_⟩
  · intro h
    simpa only [h, if_true] using hD
  · intro h
    have h0 : ¬ p2.getD n 0 - p1.getD n 0 > 1 := by omega
    simp only [h0, if_false, h, if_true] at hD
    rcases hD with hD | ⟨hD, -⟩
    · exact hD
    · exact drawnInterval_dropped p1 fuel (n + 1) hD
  · intro h0 h1
    simpa only [h0, if_false, h1] using hD

/-- The descent while the right neighbour is kept. -/
theorem generatePosBetweenAux_retained (p1 p2 : List Int) (hp1 : p1 ≠ [])
    (hcap1 : withinCapacity p1) (hcap2 : withinCapacity p2)
    (hlen1 : p1.length ≤ 25) (hlen2 : p2.length ≤ 25) :
    ∀ (m n fuel : Nat) (e : SharedEditor) (g : Rng) (newPos : List Int),
      p2.length - n ≤ m → 26 - n < fuel → levelsCached e n →
      lexicographical_compare (p1.drop n) (p2.drop n) = true →
      ¬ zeroExtension (p1.drop n) (p2.drop n) →
      (drawnInterval p1 fuel p2 n ≠ boundary ∨
        (p1.length ≤ drawnLevel p1 fuel p2 n ∧ drawnLevel p1 fuel p2 n + 1 < p2.length)) →
      ∃ q e1 g1, generatePosBetweenAux fuel e p1 p2 newPos (n : Int) g
          = (.ok (newPos ++ q), e1, g1) ∧
        lexicographical_compare (p1.drop n) q = true ∧
        lexicographical_compare q (p2.drop n) = true := by
  intro m
  induction m with
  | zero =>
    intro n fuel e g newPos hm _ _ hlt _ _
    have : p2.drop n = [] := List.drop_eq_nil_of_le (by omega)
    rw [this, lex_nil_right] at hlt
    exact absurd hlt (by simp)
  | succ m ih =>
    intro n fuel e g newPos hm hfuel hS hlt hnz
    have hn2 : n < p2.length := by
      by_contra hc
      have : p2.drop n = [] := List.drop_eq_nil_of_le (by omega)
      rw [this, lex_nil_right] at hlt
      exact absurd hlt (by simp)
    have hn : n ≤ 25 := by omega
    obtain ⟨fuel, rfl⟩ : ∃ f, fuel = f + 1 := ⟨fuel - 1, by omega⟩
    obtain ⟨b, e1, hS1, hstep⟩ := generatePosBetweenAux_step fuel e p1 p2 newPos n g hp1 hn hS
    have hne2 : (!p2.isEmpty) = true := by
      cases p2 with
      | nil => simp at hn2
      | cons _ _ => rfl
    have hcond : ((!p2.isEmpty) = true ∧ p2.length > n) := ⟨hne2, hn2⟩
    simp only [hcond, and_self, if_true] at hstep
    have hdrop2 := drop_eq_getD_cons p2 n hn2
    obtain ⟨hy0, -⟩ := hcap2 n hn2
    have hnil : p1.length ≤ n → ∀ r, lexicographical_compare (p1.drop n) [r] = true := by
      intro h r
      rw [List.drop_eq_nil_of_le h]
      rfl
    have hmore : n + 1 < p2.length → lexicographical_compare [] (p2.drop (n + 1)) = true := by
      intro h
      rw [drop_eq_getD_cons p2 (n + 1) h]
      rfl
    rw [hdrop2] at hlt hnz ⊢
    generalize hy : p2.getD n 0 = y at hstep hlt hnz hy0 ⊢
    -- the element of the left neighbour at this level
    have hx0 : 0 ≤ p1.getD n 0 := by
      by_cases hl : n < p1.length
      · exact (hcap1 n hl).1
      · rw [List.getD_eq_default _ _ (by omega)]
    have hxy : p1.getD n 0 ≤ y ∧ (p1.getD n 0 = y →
        lexicographical_compare (p1.drop (n + 1)) (p2.drop (n + 1)) = true ∧
        ¬ zeroExtension (p1.drop (n + 1)) (p2.drop (n + 1))) := by
      by_cases hl : n < p1.length
      · rw [drop_eq_getD_cons p1 n hl, lex_cons_cons] at hlt
        rw [drop_eq_getD_cons p1 n hl] at hnz
        constructor
        · by_contra hc
          have h1 : ¬ p1.getD n 0 < y := by omega
          have h2 : y < p1.getD n 0 := by omega
          rw [if_neg h1, if_pos h2] at hlt
          exact absurd hlt (by simp)
        · intro heq
          rw [heq] at hlt hnz
          simp only [lt_self_iff_false, if_false] at hlt
          exact ⟨hlt, fun h => hnz ((zeroExtension_cons _ _ _).mpr h)⟩
      · have hd : p1.drop n = [] := List.drop_eq_nil_of_le (by omega)
        have hd1 : p1.drop (n + 1) = [] := List.drop_eq_nil_of_le (by omega)
        rw [List.getD_eq_default _ _ (by omega : p1.length ≤ n)]
        rw [hd] at hnz
        refine ⟨hy0, fun heq => ?_⟩
        rw [hd1]
        have hnz2 : ¬ zeroExtension [] (p2.drop (n + 1)) := by
          intro h
          apply hnz
          rw [zeroExtension_nil] at h ⊢
          intro x hx
          rcases List.mem_cons.mp hx with hx | hx
          · omega
          · exact h x hx
        refine ⟨?_, hnz2⟩
        cases hb : p2.drop (n + 1) with
        | nil =>
          rw [hb] at hnz2
          exact absurd ((zeroExtension_nil _).mpr (by simp)) hnz2
        | cons z zs => rfl
    have hlexL : ∀ q, lexicographical_compare (p1.drop (n + 1)) q = true →
        lexicographical_compare (p1.drop n) (p1.getD n 0 :: q) = true := by
      intro q hq
      by_cases hl : n < p1.length
      · rw [drop_eq_getD_cons p1 n hl, lex_cons_self]; exact hq
      · rw [List.drop_eq_nil_of_le (by omega)]; rfl
    have hlexL1 : ∀ r, p1.getD n 0 < r → lexicographical_compare (p1.drop n) [r] = true := by
      intro r hr
      by_cases hl : n < p1.length
      · rw [drop_eq_getD_cons p1 n hl]; exact lex_cons_lt _ _ _ _ hr
      · rw [List.drop_eq_nil_of_le (by omega)]; rfl
    generalize hx : p1.getD n 0 = x at hstep hx0 hxy hlexL hlexL1
    by_cases hgt : y - x > 1
    · intro hD
      have hfr := (drawn_cases p1 p2 fuel n hn2 hD).1
      rw [hx, hy] at hfr
      clear hD
      rcases hfr hgt with hne | ⟨hend1, hend2⟩
      · obtain ⟨r, hr, h1, h2⟩ := generateIdBetween_open x y b (fun k => g (k + 1)) hx0 hgt hne
        simp only [hgt, if_true, hr] at hstep
        exact ⟨[r], e1, _, hstep, hlexL1 r h1, lex_cons_lt _ _ _ _ h2⟩
      · obtain ⟨r, hr, h1, h2⟩ := generateIdBetween_closed x y b (fun k => g (k + 1)) hx0 hgt
        simp only [hgt, if_true, hr] at hstep
        refine ⟨[r], e1, _, hstep, hnil hend1 r, ?_⟩
        by_cases hry : r < y
        · exact lex_cons_lt _ _ _ _ hry
        · have : r = y := by omega
          rw [this, lex_cons_self]
          exact hmore hend2
    · by_cases h1 : y - x = 1
      · intro hD
        have hD1 := (drawn_cases p1 p2 fuel n hn2 hD).2.1
        rw [hx, hy] at hD1
        clear hD
        obtain ⟨q, e2, g2, hrec, hlex⟩ := generatePosBetweenAux_dropped p1 hp1 hcap1 hlen1
          (p1.length - (n + 1)) (n + 1) fuel e1 (fun k => g (k + 1)) (newPos ++ [x])
          (le_refl _) (by omega) (by omega) hS1 (hD1 h1)
        refine ⟨x :: q, e2, g2, ?_, hlexL q hlex, lex_cons_lt _ _ _ _ (by omega)⟩
        rw [hstep]
        simp only [hgt, if_false, h1, if_true]
        rw [hrec]; simp
      · intro hD
        have hD2 := (drawn_cases p1 p2 fuel n hn2 hD).2.2
        rw [hx, hy] at hD2
        clear hD
        have heq : x = y := by omega
        obtain ⟨hlt1, hnz1⟩ := hxy.2 heq
        obtain ⟨q, e2, g2, hrec, hlexa, hlexb⟩ := ih (n + 1) fuel e1 (fun k => g (k + 1))
          (newPos ++ [x]) (by omega) (by omega) hS1 hlt1 hnz1 (hD2 hgt h1)
        refine ⟨x :: q, e2, g2, ?_, hlexL q hlexa, ?_⟩
        · rw [hstep]
          simp only [hgt, if_false, h1, heq, if_true]
          rw [heq] at hrec
          rw [hrec]; simp
        · rw [heq, lex_cons_self]; exact hlexb

end LSEQ

namespace LSEQ

/-! ## The order of positions -/

theorem lex_irrefl (a : List Int) : lexicographical_compare a a = false := by
  induction a with
  | nil => rfl
  | cons x xs ih => rw [lex_cons_self]; exact ih

theorem lex_trans : ∀ (a b c : List Int), lexicographical_compare a b = true →
    lexicographical_compare b c = true → lexicographical_compare a c = true := by
  intro a
  induction a with
  | nil =>
    intro b c hab hbc
    cases c with
    | nil => rw [lex_nil_right] at hbc; exact absurd hbc (by simp)
    | cons z zs => rfl
  | cons x xs ih =>
    intro b c hab hbc
    cases b with
    | nil => rw [lex_nil_right] at hab; exact absurd hab (by simp)
    | cons y ys =>
      cases c with
      | nil => rw [lex_nil_right] at hbc; exact absurd hbc (by simp)
      | cons z zs =>
        rw [lex_cons_cons] at hab hbc ⊢
        by_cases h1 : x < y
        · by_cases h2 : y < z
          · have : x < z := by omega
            simp [this]
          · by_cases h3 : z < y
            · simp [h2, h3] at hbc
            · have : x < z := by omega
              simp [this]
        · by_cases h1b : y < x
          · simp [h1, h1b] at hab
          · have hxy : x = y := by omega
            subst hxy
            simp only [h1, if_false] at hab
            by_cases h2 : x < z
            · simp [h2]
            · by_cases h3 : z < x
              · simp [h2, h3] at hbc
              · simp only [h2, h3, if_false] at hbc ⊢
                exact ih ys zs hab hbc

theorem lex_total : ∀ (a b : List Int), a ≠ b → lexicographical_compare a b = false →
    lexicographical_compare b a = true := by
  intro a
  induction a with
  | nil =>
    intro b hne h
    cases b with
    | nil => exact absurd rfl hne
    | cons y ys => rw [lex_nil_cons] at h; exact absurd h (by simp)
  | cons x xs ih =>
    intro b hne h
    cases b with
    | nil => rfl
    | cons y ys =>
      rw [lex_cons_cons] at h ⊢
      by_cases h1 : x < y
      · simp [h1] at h
      · by_cases h2 : y < x
        · simp [h2]
        · have hxy : x = y := by omega
          subst hxy
          simp only [h1, if_false] at h ⊢
          exact ih ys (fun hc => hne (by rw [hc])) h

theorem lex_asymm (a b : List Int) (h : lexicographical_compare a b = true) :
    lexicographical_compare b a = false := by
  cases hb : lexicographical_compare b a with
  | false => rfl
  | true =>
    have := lex_trans a b a h hb
    rw [lex_irrefl] at this
    exact absurd this (by simp)

/-- With a position no stored symbol has, `operator<` of symbols is the order of the
positions. -/
theorem Symbol.lt_of_pos_ne (x s : Symbol) (h : x.pos ≠ s.pos) :
    x.lt s = lexicographical_compare x.pos s.pos := by
  unfold Symbol.lt
  have : (x.pos == s.pos) = false := by simpa using h
  simp [this]

end LSEQ

namespace LSEQ

/-! ## std::lower_bound -/

/-- On a range where the comparison is defined and, once false, stays false,
`std::lower_bound` returns the partition point. -/
theorem lower_bound_spec (comp : Nat → Except Err Bool) (P : Nat → Bool) :
    ∀ (fuel first len : Nat), len ≤ fuel →
      (∀ i, first ≤ i → i < first + len → comp i = .ok (P i)) →
      (∀ i j, first ≤ i → i < j → j < first + len → P j = true → P i = true) →
      ∃ r, lower_bound comp fuel first len = .ok r ∧ first ≤ r ∧ r ≤ first + len ∧
        (∀ i, first ≤ i → i < r → P i = true) ∧
        (∀ i, r ≤ i → i < first + len → P i = false) := by
  intro fuel
  induction fuel with
  | zero =>
    intro first len hlen _ _
    have : len = 0 := by omega
    subst this
    exact ⟨first, rfl, le_refl _, le_refl _, fun i h1 h2 => by omega, fun i h1 h2 => by omega⟩
  | succ fuel ih =>
    intro first len hlen hcomp hmono
    rw [lower_bound]
    by_cases h0 : len = 0
    · subst h0
      simp only [if_true]
      exact ⟨first, rfl, le_refl _, le_refl _, fun i h1 h2 => by omega, fun i h1 h2 => by omega⟩
    · simp only [h0, if_false]
      have hhalf : len / 2 < len := Nat.div_lt_self (by omega) (by omega)
      have hmid := hcomp (first + len / 2) (by omega) (by omega)
      rw [hmid]
      cases hP : P (first + len / 2) with
      | true =>
        simp only []
        obtain ⟨r, hr, h1, h2, h3, h4⟩ := ih (first + len / 2 + 1) (len - len / 2 - 1)
          (by omega) (fun i hi1 hi2 => hcomp i (by omega) (by omega))
          (fun i j hi hij hj => hmono i j (by omega) hij (by omega))
        refine ⟨r, hr, by omega, by omega, ?_, fun i hi1 hi2 => h4 i hi1 (by omega)⟩
        intro i hi1 hi2
        by_cases hc : i < first + len / 2
        · exact hmono i (first + len / 2) hi1 hc (by omega) hP
        · by_cases hc2 : i = first + len / 2
          · rw [hc2]; exact hP
          · exact h3 i (by omega) hi2
      | false =>
        simp only []
        obtain ⟨r, hr, h1, h2, h3, h4⟩ := ih first (len / 2)
          (by omega) (fun i hi1 hi2 => hcomp i hi1 (by omega))
          (fun i j hi hij hj => hmono i j hi hij (by omega))
        refine ⟨r, hr, h1, by omega, h3, ?_⟩
        intro i hi1 hi2
        by_cases hc : i < first + len / 2
        · exact h4 i hi1 hc
        · by_cases hc2 : i = first + len / 2
          · rw [hc2]; exact hP
          · cases hPi : P i with
            | false => rfl
            | true =>
              have := hmono (first + len / 2) i (by omega) (by omega) hi2 hPi
              rw [hP] at this
              exact absurd this (by simp)

/-- The partition point as a split of the list searched. -/
theorem lower_bound_split {α : Type} (xs : List α) (p : α → Bool)
    (comp : Nat → Except Err Bool)
    (hcomp : ∀ i (h : i < xs.length), comp i = .ok (p (xs.get ⟨i, h⟩)))
    (hmono : xs.Pairwise fun a b => p b = true → p a = true) :
    ∃ A B, xs = A ++ B ∧ lower_bound comp xs.length 0 xs.length = .ok A.length ∧
      (∀ a ∈ A, p a = true) ∧ (∀ b ∈ B, p b = false) := by
  obtain ⟨r, hr, -, h2, h3, h4⟩ := lower_bound_spec comp
    (fun i => (xs[i]?.map p).getD false) xs.length 0 xs.length (le_refl _)
    (fun i _ hi => by
      have hi' : i < xs.length := by omega
      rw [hcomp i hi']
      simp [List.getElem?_eq_getElem hi'])
    (fun i j _ hij hj hPj => by
      have hj' : j < xs.length := by omega
      have hi' : i < xs.length := by omega
      have := (List.pairwise_iff_getElem.mp hmono) i j hi' hj' hij
      simp only [List.getElem?_eq_getElem hi', List.getElem?_eq_getElem hj', Option.map_some',
        Option.getD_some] at hPj ⊢
      exact this hPj)
  have hrl : r ≤ xs.length := by omega
  refine ⟨xs.take r, xs.drop r, (List.take_append_drop r xs).symm, ?_, ?_, ?_⟩
  · rw [hr, List.length_take, Nat.min_eq_left hrl]
  · intro a ha
    obtain ⟨i, hi, rfl⟩ := List.mem_iff_getElem.mp ha
    have hi2 : i < r := by
      rw [List.length_take] at hi; omega
    have hi3 : i < xs.length := by omega
    have := h3 i (Nat.zero_le _) hi2
    simp only [List.getElem?_eq_getElem hi3, Option.map_some', Option.getD_some] at this
    rw [List.getElem_take]
    exact this
  · intro b hb
    obtain ⟨i, hi, rfl⟩ := List.mem_iff_getElem.mp hb
    have hi2 : r + i < xs.length := by
      rw [List.length_drop] at hi; omega
    have := h4 (r + i) (by omega) (by omega)
    simp only [List.getElem?_eq_getElem hi2, Option.map_some', Option.getD_some] at this
    rw [List.getElem_drop]
    exact this

end LSEQ

namespace LSEQ

/-! ## remoteInsert -/

/-- What `remoteInsert` does once its two searches are known and no stored symbol has the
position of the symbol received. -/
theorem remoteInsert_eval (e : SharedEditor) (s : Symbol) (g : Rng)
    (front back cur : List Symbol) (r1 r2 : Nat) (x : Symbol)
    (hfront : e._symbols.head? = some front) (hne : front ≠ [])
    (hback : e._symbols.getLast? = some back)
    (hr1 : lower_bound (lineLess e._symbols s)
      (if back.isEmpty then e._symbols.length - 1 else e._symbols.length) 0
      (if back.isEmpty then e._symbols.length - 1 else e._symbols.length) = .ok r1)
    (hcur : e._symbols[if r1 ≠ 0 then r1 - 1 else r1]? = some cur)
    (hr2 : lower_bound (symLess cur s) cur.length 0 cur.length = .ok r2)
    (hx : cur[if r2 = cur.length ∧ r2 ≠ 0 then r2 - 1
      else if r2 ≠ cur.length ∧
        ¬ (r2 = 0 ∨ (cur[r2]?).map (fun s => s.pos) = some s.pos) then r2 - 1
      else r2]? = some x)
    (hpos : x.pos ≠ s.pos) :
    remoteInsert e s g =
      (insertSymbol e
        (if x.c = '\n' ∧ x.lt s = true then
          ⟨((if r1 ≠ 0 then r1 - 1 else r1 : Nat) : Int) + 1, 0⟩
         else ⟨((if r1 ≠ 0 then r1 - 1 else r1 : Nat) : Int), (r2 : Int)⟩) s).map
        fun e2 => ({ e2 with _id_counter := decr64 e2._id_counter }, g) := by
  unfold remoteInsert
  have hne2 : front.isEmpty = false := by
    cases front with
    | nil => exact absurd rfl hne
    | cons _ _ => rfl
  simp only [hfront, hne2, Bool.false_eq_true, if_false, hback, bind, Except.bind, hr1, hcur, hr2,
    hx, hpos, pure, Except.pure]
  cases insertSymbol e _ s <;> rfl

end LSEQ

namespace LSEQ

/-! ## Ascending sequences -/

theorem Ascending.all_lt_of_last {l0 : List Symbol} {x s : Symbol}
    (h : Ascending (l0 ++ [x])) (hx : lexicographical_compare x.pos s.pos = true) :
    ∀ a ∈ l0 ++ [x], lexicographical_compare a.pos s.pos = true := by
  intro a ha
  rcases List.mem_append.mp ha with ha | ha
  · have := (List.pairwise_append.mp h).2.2 a ha x (by simp)
    exact lex_trans _ _ _ this hx
  · have : a = x := by simpa using ha
    rw [this]; exact hx

theorem Ascending.all_gt_of_head {r0 : List Symbol} {y s : Symbol}
    (h : Ascending (y :: r0)) (hy : lexicographical_compare s.pos y.pos = true) :
    ∀ b ∈ y :: r0, lexicographical_compare s.pos b.pos = true := by
  intro b hb
  rcases List.mem_cons.mp hb with hb | hb
  · rw [hb]; exact hy
  · have := (List.pairwise_cons.mp h).1 b hb
    exact lex_trans _ _ _ hy this

theorem Ascending.insert {l r : List Symbol} {s : Symbol} (h : Ascending (l ++ r))
    (hl : ∀ a ∈ l, lexicographical_compare a.pos s.pos = true)
    (hr : ∀ b ∈ r, lexicographical_compare s.pos b.pos = true) :
    Ascending (l ++ s :: r) := by
  obtain ⟨h1, h2, h3⟩ := List.pairwise_append.mp h
  refine List.pairwise_append.mpr ⟨h1, List.pairwise_cons.mpr ⟨hr, h2⟩, ?_⟩
  intro a ha b hb
  rcases List.mem_cons.mp hb with hb | hb
  · rw [hb]; exact hl a ha
  · exact h3 a ha b hb

theorem Ascending.left {l r : List Symbol} (h : Ascending (l ++ r)) : Ascending l :=
  (List.pairwise_append.mp h).1

theorem Ascending.right {l r : List Symbol} (h : Ascending (l ++ r)) : Ascending r :=
  (List.pairwise_append.mp h).2.1

end LSEQ

namespace LSEQ

/-! ## remoteInsert: the search of the line -/

theorem headLess_of_head {s h : Symbol} {l : List Symbol} (hl : l.head? = some h) :
    headLess s l = h.lt s := by
  simp [headLess, hl]

theorem lineLess_eq (L H T : List (List Symbol)) (s : Symbol) (hL : L = H ++ T)
    (hH : ∀ l ∈ H, l ≠ []) (i : Nat) (h : i < H.length) :
    lineLess L s i = .ok (headLess s (H.get ⟨i, h⟩)) := by
  have h1 : L[i]? = some (H.get ⟨i, h⟩) := by
    rw [hL, List.getElem?_append_left h, List.getElem?_eq_getElem h]
    rfl
  have hne := hH _ (List.get_mem H i h)
  generalize H.get ⟨i, h⟩ = l at h1 hne
  obtain ⟨a, as, ha⟩ := List.exists_cons_of_ne_nil hne
  subst ha
  simp [lineLess, h1, headLess]

/-- The line `remoteInsert` chooses in a well-formed, ascending document whose first line is
not empty. -/
theorem remoteInsert_line (e : SharedEditor) (s : Symbol) (hwf : TextLines e)
    (hasc : Ascending (flat e)) (hfresh : ∀ x ∈ flat e, x.pos ≠ s.pos)
    (front : List Symbol) (hfront : e._symbols.head? = some front) (hne : front ≠ []) :
    ∃ back r1 pre cur post,
      e._symbols.getLast? = some back ∧
      lower_bound (lineLess e._symbols s)
        (if back.isEmpty then e._symbols.length - 1 else e._symbols.length) 0
        (if back.isEmpty then e._symbols.length - 1 else e._symbols.length) = .ok r1 ∧
      e._symbols = pre ++ cur :: post ∧ cur ≠ [] ∧
      (if r1 ≠ 0 then r1 - 1 else r1) = pre.length ∧
      ((pre = [] ∧ headLess s cur = false) ∨
        (headLess s cur = true ∧
          ∀ nxt rest, post = nxt :: rest → nxt ≠ [] → headLess s nxt = false)) := by
  obtain ⟨h2, h3, -⟩ := hwf
  rcases nil_or_snoc e._symbols with hnil | ⟨D, back, hL⟩
  · exact absurd hnil h3
  have hD : ∀ l ∈ D, FullLine l := by
    rw [hL, List.dropLast_concat] at h2; exact h2
  have hlen : e._symbols.length = D.length + 1 := by rw [hL]; simp
  -- the lines searched and the trailing empty line
  obtain ⟨H, T, hHT, hT, hH, hlast⟩ : ∃ H T, e._symbols = H ++ T ∧ (T = [] ∨ T = [[]]) ∧
      (∀ l ∈ H, l ≠ []) ∧
      (if back.isEmpty then e._symbols.length - 1 else e._symbols.length) = H.length := by
    by_cases hb : back = []
    · refine ⟨D, [[]], by rw [hL, hb], Or.inr rfl, fun l hl => (hD l hl).ne_nil, ?_⟩
      simp [hb, hlen]
    · refine ⟨D ++ [back], [], by rw [hL]; simp, Or.inl rfl, ?_, ?_⟩
      · intro l hl
        rcases List.mem_append.mp hl with h | h
        · exact (hD l h).ne_nil
        · have : l = back := by simpa using h
          rw [this]; exact hb
      · have : back.isEmpty = false := by
          cases back with
          | nil => exact absurd rfl hb
          | cons _ _ => rfl
        simp [this, hlen]
  have hHne : H ≠ [] := by
    intro hH0
    rw [hH0, List.nil_append] at hHT
    rcases hT with hT | hT
    · rw [hT] at hHT; exact h3 hHT
    · rw [hT] at hHT
      rw [hHT] at hfront
      simp only [List.head?_cons, Option.some.injEq] at hfront
      exact hne hfront.symm
  -- the heads of the lines searched ascend
  have hpw : H.Pairwise fun l1 l2 =>
      ∀ x ∈ l1, ∀ y ∈ l2, lexicographical_compare x.pos y.pos = true := by
    have := (List.pairwise_flatten.mp hasc).2
    rw [hHT] at this
    exact (List.pairwise_append.mp this).1
  have hmono : H.Pairwise fun a b => headLess s b = true → headLess s a = true := by
    refine List.Pairwise.imp_of_mem ?_ hpw
    intro a b ha hb hR hlb
    obtain ⟨x, xs, hx⟩ := List.exists_cons_of_ne_nil (hH a ha)
    obtain ⟨y, ys, hy⟩ := List.exists_cons_of_ne_nil (hH b hb)
    subst hx hy
    have hxy := hR x (by simp) y (by simp)
    have hxf : x ∈ flat e := by
      simp only [flat, hHT]
      exact List.mem_flatten.mpr ⟨_, List.mem_append_left _ ha, by simp⟩
    have hyf : y ∈ flat e := by
      simp only [flat, hHT]
      exact List.mem_flatten.mpr ⟨_, List.mem_append_left _ hb, by simp⟩
    simp only [headLess, List.head?_cons] at hlb ⊢
    rw [Symbol.lt_of_pos_ne _ _ (hfresh x hxf)]
    rw [Symbol.lt_of_pos_ne _ _ (hfresh y hyf)] at hlb
    exact lex_trans _ _ _ hxy hlb
  obtain ⟨A, B, hAB, hr, hA, hB⟩ := lower_bound_split H (headLess s)
    (lineLess e._symbols s) (lineLess_eq e._symbols H T s hHT hH) hmono
  refine ⟨back, A.length, ?_⟩
  rw [hlast]
  have hbk : e._symbols.getLast? = some back := by rw [hL]; simp
  rcases nil_or_snoc A with hA0 | ⟨A0, cur, hA1⟩
  · subst hA0
    rw [List.nil_append] at hAB
    obtain ⟨cur, B1, hB1⟩ := List.exists_cons_of_ne_nil (hAB ▸ hHne)
    subst hB1
    refine ⟨[], cur, B1 ++ T, hbk, hr, by rw [hHT, hAB]; simp, ?_, by simp, ?_⟩
    · exact hH cur (by rw [hAB]; simp)
    · exact Or.inl ⟨rfl, hB cur (by simp)⟩
  · subst hA1
    refine ⟨A0, cur, B ++ T, hbk, hr, by rw [hHT, hAB]; simp, ?_, by simp, ?_⟩
    · exact hH cur (by rw [hAB]; simp)
    · refine Or.inr ⟨hA cur (by simp), ?_⟩
      intro nxt rest hpost hnxt
      cases B with
      | nil =>
        rw [List.nil_append] at hpost
        rcases hT with hT | hT
        · rw [hT] at hpost; exact absurd hpost (by simp)
        · rw [hT] at hpost
          simp only [List.cons.injEq] at hpost
          exact absurd hpost.1.symm hnxt
      | cons b B1 =>
        simp only [List.cons_append, List.cons.injEq] at hpost
        rw [← hpost.1]
        exact hB b (by simp)

end LSEQ

namespace LSEQ

/-! ## remoteInsert: the search inside the line -/

theorem symLess_eq (cur : List Symbol) (s : Symbol) (i : Nat) (h : i < cur.length) :
    symLess cur s i = .ok ((cur.get ⟨i, h⟩).lt s) := by
  simp [symLess, List.getElem?_eq_getElem h]

theorem remoteInsert_index (cur : List Symbol) (s : Symbol) (hasc : Ascending cur)
    (hfresh : ∀ x ∈ cur, x.pos ≠ s.pos) :
    ∃ C1 C2, cur = C1 ++ C2 ∧
      lower_bound (symLess cur s) cur.length 0 cur.length = .ok C1.length ∧
      (∀ a ∈ C1, lexicographical_compare a.pos s.pos = true) ∧
      (∀ b ∈ C2, lexicographical_compare s.pos b.pos = true) := by
  have hmono : cur.Pairwise fun a b => b.lt s = true → a.lt s = true := by
    refine List.Pairwise.imp_of_mem ?_ hasc
    intro a b ha hb hR hlb
    rw [Symbol.lt_of_pos_ne _ _ (hfresh a ha)]
    rw [Symbol.lt_of_pos_ne _ _ (hfresh b hb)] at hlb
    exact lex_trans _ _ _ hR hlb
  obtain ⟨C1, C2, hC, hr, h1, h2⟩ := lower_bound_split cur (fun x => x.lt s)
    (symLess cur s) (symLess_eq cur s) hmono
  refine ⟨C1, C2, hC, hr, ?_, ?_⟩
  · intro a ha
    have hm : a ∈ cur := by rw [hC]; exact List.mem_append_left _ ha
    rw [← Symbol.lt_of_pos_ne _ _ (hfresh a hm)]
    exact h1 a ha
  · intro b hb
    have hm : b ∈ cur := by rw [hC]; exact List.mem_append_right _ hb
    have := h2 b hb
    simp only [] at this
    rw [Symbol.lt_of_pos_ne _ _ (hfresh b hm)] at this
    exact lex_total _ _ (hfresh b hm) this

/-- The symbol `index_it` points at after its adjustment: the last symbol below the one
received, or the first symbol of the line when there is none. -/
theorem remoteInsert_index_it (C1 C2 : List Symbol) (s : Symbol) (hne : C1 ++ C2 ≠ [])
    (hfresh : ∀ y ∈ C2, y.pos ≠ s.pos) :
    (C1 ++ C2)[if C1.length = (C1 ++ C2).length ∧ C1.length ≠ 0 then C1.length - 1
      else if C1.length ≠ (C1 ++ C2).length ∧
        ¬ (C1.length = 0 ∨ ((C1 ++ C2)[C1.length]?).map (fun s => s.pos) = some s.pos) then
          C1.length - 1
      else C1.length]? = if C1 = [] then C2.head? else C1.getLast? := by
  rcases nil_or_snoc C1 with h1 | ⟨C0, x, h1⟩
  · subst h1
    obtain ⟨y, ys, hy⟩ := List.exists_cons_of_ne_nil (by simpa using hne : C2 ≠ [])
    subst hy
    simp
  · subst h1
    have hx : (C0 ++ [x] ++ C2)[C0.length]? = some x :=
      getElem?_of_split (A := C0) (B := C2) (by simp) rfl
    have hl : (C0 ++ [x]).length - 1 = C0.length := by simp
    have hn0 : (C0 ++ [x]).length ≠ 0 := by simp
    have hnil : ¬ (C0 ++ [x] = []) := by simp
    cases C2 with
    | nil =>
      simp only [List.append_nil, true_and, hn0, ne_eq, not_false_eq_true, if_true, hl, hnil,
        if_false] at hx ⊢
      rw [hx]; simp
    | cons y ys =>
      have hy : (C0 ++ [x] ++ y :: ys)[(C0 ++ [x]).length]? = some y :=
        getElem?_of_split (A := C0 ++ [x]) (B := ys) rfl rfl
      have hlen : ¬ ((C0 ++ [x]).length = (C0 ++ [x] ++ y :: ys).length) := by
        simp
      have hp : ¬ (some y.pos = some s.pos) := by
        intro h
        exact hfresh y (by simp) (Option.some.inj h)
      simp only [hlen, false_and, if_false, ne_eq, not_false_eq_true, true_and, hn0, hy,
        Option.map_some', hp, or_self, if_true, hl, hx, hnil]
      simp

end LSEQ

namespace LSEQ

/-! ## C5: remoteInsert keeps the flat view ascending -/

theorem insertSymbol_flat (e : SharedEditor) (pre : List (List Symbol)) (cur : List Symbol)
    (post : List (List Symbol)) (k : Nat) (sym : Symbol)
    (hl : e._symbols = pre ++ cur :: post) (hk : k ≤ cur.length) :
    ∃ e2, insertSymbol e ⟨pre.length, k⟩ sym = .ok e2 ∧
      flat e = (pre.flatten ++ cur.take k) ++ (cur.drop k ++ post.flatten) ∧
      flat e2 = (pre.flatten ++ cur.take k) ++ sym :: (cur.drop k ++ post.flatten) := by
  refine ⟨_, insertSymbol_at e pre cur post k sym hl hk, ?_, ?_⟩
  · simp only [flat, hl, List.flatten_append, List.flatten_cons, List.flatten_nil,
      List.append_assoc]
    rw [← List.append_assoc (cur.take k), List.take_append_drop]
  · simp only [flat]
    split
    · split
      · rename_i h1 h2; subst h2; simp
      · simp
    · simp [insertIdx_take_drop cur k _ hk]

theorem flat_set_id_counter (e : SharedEditor) (n : Nat) :
    flat { e with _id_counter := n } = flat e := rfl

theorem remoteInsert_finish (e e2 : SharedEditor) (s : Symbol) (g : Rng) (p : Position)
    (l r : List Symbol)
    (hev : remoteInsert e s g = (Except.ok e2 : Except Err SharedEditor).map
      fun e2 => ({ e2 with _id_counter := decr64 e2._id_counter }, g))
    (h2 : flat e = l ++ r) (h3 : flat e2 = l ++ s :: r) (hasc : Ascending (l ++ s :: r)) :
    ∃ e3 l r, (remoteInsert e s g).map Prod.fst = .ok e3 ∧ flat e = l ++ r ∧
      flat e3 = l ++ s :: r ∧ Ascending (flat e3) := by
  have _ := p
  refine ⟨{ e2 with _id_counter := decr64 e2._id_counter }, l, r, ?_, h2, ?_, ?_⟩
  · rw [hev]; simp only [Except.map]
  · rw [flat_set_id_counter, h3]
  · rw [flat_set_id_counter, h3]; exact hasc

theorem remoteInsert_sorted (e : SharedEditor) (s : Symbol) (g : Rng)
    (hwf : TextLines e) (hasc : Ascending (flat e)) (hfresh : ∀ x ∈ flat e, x.pos ≠ s.pos) :
    ∃ e2 l r, (remoteInsert e s g).map Prod.fst = .ok e2 ∧ flat e = l ++ r ∧
      flat e2 = l ++ s :: r ∧ Ascending (flat e2) := by
  obtain ⟨front, rest, hL⟩ := List.exists_cons_of_ne_nil hwf.2.1
  have hfront : e._symbols.head? = some front := by rw [hL]; rfl
  by_cases hf : front = []
  · -- the empty document
    subst hf
    have hrest : rest = [] := by
      by_contra hr
      have hL0 : e._symbols = [] ++ [] :: rest := by simpa using hL
      have := (wf_split hwf hL0).2.1 hr
      exact this.ne_nil rfl
    subst hrest
    obtain ⟨e2, h1, h2, h3⟩ := insertSymbol_flat e [] [] [] 0 s (by simpa using hL) (le_refl _)
    refine ⟨e2, [], [], ?_, by simpa using h2, by simpa using h3, ?_⟩
    · have h1' : insertSymbol e ⟨0, 0⟩ s = .ok e2 := h1
      simp [remoteInsert, hfront, h1', bind, Except.bind, pure, Except.pure, Except.map]
    · have : flat e2 = [s] := by simpa using h3
      rw [this]
      exact List.pairwise_singleton _ _
  · obtain ⟨back, r1, pre, cur, post, hback, hr1, hl, hcne, hidx, hcase⟩ :=
      remoteInsert_line e s hwf hasc hfresh front hfront hf
    have hflat : flat e = pre.flatten ++ (cur ++ post.flatten) := by simp [flat, hl]
    have hcur_mem : ∀ x ∈ cur, x ∈ flat e := by
      intro x hx
      rw [hflat]
      exact List.mem_append_right _ (List.mem_append_left _ hx)
    have hcur_asc : Ascending cur := by
      rw [hflat] at hasc
      exact hasc.right.left
    obtain ⟨C1, C2, hC, hr2, hC1, hC2⟩ := remoteInsert_index cur s hcur_asc
      (fun x hx => hfresh x (hcur_mem x hx))
    have hC2fresh : ∀ y ∈ C2, y.pos ≠ s.pos := fun y hy =>
      hfresh y (hcur_mem y (by rw [hC]; exact List.mem_append_right _ hy))
    have hit := remoteInsert_index_it C1 C2 s (hC ▸ hcne) hC2fresh
    rw [← hC] at hit
    have hcur : e._symbols[if r1 ≠ 0 then r1 - 1 else r1]? = some cur := by
      rw [hidx, hl]; exact getElem?_mid pre cur post
    obtain ⟨w1, w2, w3⟩ := wf_split hwf hl
    rcases nil_or_snoc C1 with hC1nil | ⟨C0, x, hC1s⟩
    · -- no symbol of the line is below the one received
      subst hC1nil
      rw [List.nil_append] at hC
      subst hC
      obtain ⟨y, ys, hy⟩ := List.exists_cons_of_ne_nil hcne
      subst hy
      have hys : lexicographical_compare s.pos y.pos = true := hC2 y (by simp)
      have hylt : y.lt s = false := by
        rw [Symbol.lt_of_pos_ne _ _ (hC2fresh y (by simp))]
        exact lex_asymm _ _ hys
      have hpre : pre = [] := by
        rcases hcase with ⟨h, -⟩ | ⟨h, -⟩
        · exact h
        · simp [headLess, hylt] at h
      subst hpre
      simp only [if_true, List.head?_cons, List.length_nil] at hit
      have hev := remoteInsert_eval e s g front back (y :: ys) r1 0 y hfront hf hback hr1 hcur
        hr2 hit (hC2fresh y (by simp))
      obtain ⟨e2, h1, h2, h3⟩ := insertSymbol_flat e [] (y :: ys) post 0 s hl (Nat.zero_le _)
      have htarget : (if y.c = '\n' ∧ y.lt s = true then
          (⟨((if r1 ≠ 0 then r1 - 1 else r1 : Nat) : Int) + 1, 0⟩ : Position)
          else ⟨((if r1 ≠ 0 then r1 - 1 else r1 : Nat) : Int), ((0 : Nat) : Int)⟩)
          = ⟨(([] : List (List Symbol)).length : Nat), ((0 : Nat) : Int)⟩ := by
        rw [hidx]; simp [hylt]
      rw [htarget, h1] at hev
      refine remoteInsert_finish e e2 s g ⟨0, 0⟩ _ _ hev h2 h3 ?_
      refine Ascending.insert (h2 ▸ hasc) (by simp) ?_
      have hr : Ascending (y :: (ys ++ post.flatten)) := by
        have := hasc
        rw [h2] at this
        simpa using this.right
      simpa using Ascending.all_gt_of_head hr hys
    · -- `x` is the last symbol of the line below the one received
      subst hC1s
      have hxs : lexicographical_compare x.pos s.pos = true := hC1 x (by simp)
      have hxm : x ∈ cur := by rw [hC]; simp
      have hxfresh : x.pos ≠ s.pos := hfresh x (hcur_mem x hxm)
      have hxlt : x.lt s = true := by
        rw [Symbol.lt_of_pos_ne _ _ hxfresh]; exact hxs
      have hnil : ¬ (C0 ++ [x] = []) := by simp
      have hgl : (C0 ++ [x]).getLast? = some x := by simp
      rw [if_neg hnil, hgl] at hit
      have hev := remoteInsert_eval e s g front back cur r1 (C0 ++ [x]).length x hfront hf hback
        hr1 hcur hr2 hit hxfresh
      rw [hidx] at hev
      have hnext : ∀ nxt rest, post = nxt :: rest → nxt ≠ [] → headLess s nxt = false := by
        rcases hcase with ⟨-, h⟩ | ⟨-, h⟩
        · exfalso
          have hhead : headLess s cur = true := by
            cases C0 with
            | nil =>
              rw [hC]
              simp [headLess, hxlt]
            | cons c cs =>
              have hc : lexicographical_compare c.pos s.pos = true := hC1 c (by simp)
              have hcm : c ∈ cur := by rw [hC]; simp
              rw [hC]
              simp only [headLess, List.cons_append, List.head?_cons]
              rw [Symbol.lt_of_pos_ne _ _ (hfresh c (hcur_mem c hcm))]
              exact hc
          rw [hhead] at h
          exact absurd h (by simp)
        · exact h
      cases C2 with
      | cons y ys =>
        -- inside the line
        have hxc : x.c ≠ '\n' := by
          have hdl : x ∈ cur.dropLast := by
            rw [hC]
            have : (C0 ++ [x] ++ y :: ys).dropLast = C0 ++ [x] ++ (y :: ys).dropLast := by
              rw [List.dropLast_append_of_ne_nil _ (by simp)]
            rw [this]; simp
          by_cases hp : post = []
          · exact w3 hp x hxm
          · exact (w2 hp).2 x hdl
        have hk : (C0 ++ [x]).length ≤ cur.length := by rw [hC]; simp
        obtain ⟨e2, h1, h2, h3⟩ := insertSymbol_flat e pre cur post (C0 ++ [x]).length s hl hk
        have htk : cur.take (C0 ++ [x]).length = C0 ++ [x] := by rw [hC, List.take_left]
        have hdk : cur.drop (C0 ++ [x]).length = y :: ys := by rw [hC, List.drop_left]
        rw [htk, hdk] at h2 h3
        simp only [hxc, false_and, if_false] at hev
        rw [h1] at hev
        refine remoteInsert_finish e e2 s g ⟨0, 0⟩ _ _ hev h2 h3 ?_
        refine Ascending.insert (h2 ▸ hasc) ?_ ?_
        · have hl2 : Ascending ((pre.flatten ++ C0) ++ [x]) := by
            have := (h2 ▸ hasc).left
            simpa using this
          simpa using Ascending.all_lt_of_last hl2 hxs
        · have hr : Ascending (y :: (ys ++ post.flatten)) := by
            simpa using (h2 ▸ hasc).right
          simpa using Ascending.all_gt_of_head hr (hC2 y (by simp))
      | nil =>
        rw [List.append_nil] at hC
        by_cases hxc : x.c = '\n'
        · -- after the newline: the start of the next line
          have hpost : post ≠ [] := by
            intro hp
            exact w3 hp x hxm hxc
          obtain ⟨nxt, rest2, hp⟩ := List.exists_cons_of_ne_nil hpost
          subst hp
          have hl2 : e._symbols = (pre ++ [cur]) ++ nxt :: rest2 := by simp [hl]
          obtain ⟨e2, h1, h2, h3⟩ := insertSymbol_flat e (pre ++ [cur]) nxt rest2 0 s hl2
            (Nat.zero_le _)
          simp only [hxc, hxlt, and_self, if_true] at hev
          have htarget : (⟨(pre.length : Int) + 1, 0⟩ : Position)
              = ⟨((pre ++ [cur]).length : Nat), ((0 : Nat) : Int)⟩ := by simp
          rw [htarget, h1] at hev
          refine remoteInsert_finish e e2 s g ⟨0, 0⟩ _ _ hev h2 h3 ?_
          refine Ascending.insert (h2 ▸ hasc) ?_ ?_
          · have hl3 : Ascending ((pre.flatten ++ C0) ++ [x]) := by
              have := (h2 ▸ hasc).left
              simpa [hC] using this
            simpa [hC] using Ascending.all_lt_of_last hl3 hxs
          · cases nxt with
            | nil =>
              have hr2 : rest2 = [] := by
                by_contra hr
                exact ((wf_split hwf hl2).2.1 hr).ne_nil rfl
              subst hr2
              simp
            | cons y ys =>
              have hhl := hnext (y :: ys) rest2 rfl (by simp)
              have hym : y ∈ flat e := by rw [h2]; simp
              have hylt : lexicographical_compare y.pos s.pos = false := by
                rw [← Symbol.lt_of_pos_ne _ _ (hfresh y hym)]
                simpa [headLess] using hhl
              have hys := lex_total _ _ (hfresh y hym) hylt
              have hr : Ascending (y :: (ys ++ rest2.flatten)) := by
                simpa using (h2 ▸ hasc).right
              simpa using Ascending.all_gt_of_head hr hys
        · -- at the end of the last line
          have hpost : post = [] := by
            by_contra hp
            have := (w2 hp).1
            rw [hC] at this
            simp at this
            exact hxc this
          subst hpost
          have hk : (C0 ++ [x]).length ≤ cur.length := by rw [hC]
          obtain ⟨e2, h1, h2, h3⟩ := insertSymbol_flat e pre cur [] (C0 ++ [x]).length s hl hk
          have htk : cur.take (C0 ++ [x]).length = C0 ++ [x] := by rw [hC, List.take_length]
          have hdk : cur.drop (C0 ++ [x]).length = [] := by rw [hC, List.drop_length]
          rw [htk, hdk] at h2 h3
          simp only [hxc, false_and, if_false] at hev
          rw [h1] at hev
          refine remoteInsert_finish e e2 s g ⟨0, 0⟩ _ _ hev h2 h3 ?_
          refine Ascending.insert (h2 ▸ hasc) ?_ (by simp)
          have hl3 : Ascending ((pre.flatten ++ C0) ++ [x]) := by
            have := (h2 ▸ hasc).left
            simpa using this
          simpa using Ascending.all_lt_of_last hl3 hxs

end LSEQ

namespace LSEQ

/-! ## The fuel of the allocator is never used up -/

theorem capacity_overflow (n : Nat) (h : 26 ≤ n) : capacity (n : Int) = .error .undefined := by
  unfold capacity
  have h1 : (2 : Int) ^ 26 ≤ 2 ^ n := by
    exact_mod_cast Nat.pow_le_pow_right (by omega : 0 < 2) h
  have h2 : ¬ ((2 : Int) ^ n * base ≤ 2147483647) := by
    unfold base
    omega
  simp [h2]

/-- From level `n` on, every amount of fuel above `27 - n` gives the same result: the
recursion of `generatePosBetween` ends before the fuel does. -/
theorem generatePosBetweenAux_fuel :
    ∀ (m n fuel1 fuel2 : Nat), 26 - n ≤ m → 27 - n < fuel1 → 27 - n < fuel2 →
      ∀ (e : SharedEditor) (pos1 pos2 newPos : List Int) (g : Rng),
        generatePosBetweenAux fuel1 e pos1 pos2 newPos (n : Int) g
          = generatePosBetweenAux fuel2 e pos1 pos2 newPos (n : Int) g := by
  intro m
  induction m with
  | zero =>
    intro n fuel1 fuel2 hm h1 h2 e pos1 pos2 newPos g
    obtain ⟨f1, rfl⟩ : ∃ f, fuel1 = f + 1 := ⟨fuel1 - 1, by omega⟩
    obtain ⟨f2, rfl⟩ : ∃ f, fuel2 = f + 1 := ⟨fuel2 - 1, by omega⟩
    rw [generatePosBetweenAux, generatePosBetweenAux, capacity_overflow n (by omega)]
  | succ m ih =>
    intro n fuel1 fuel2 hm h1 h2 e pos1 pos2 newPos g
    obtain ⟨f1, rfl⟩ : ∃ f, fuel1 = f + 1 := ⟨fuel1 - 1, by omega⟩
    obtain ⟨f2, rfl⟩ : ∃ f, fuel2 = f + 1 := ⟨fuel2 - 1, by omega⟩
    by_cases hn : 26 ≤ n
    · rw [generatePosBetweenAux, generatePosBetweenAux, capacity_overflow n hn]
    · have hrec : ∀ (e1 : SharedEditor) (q2 np : List Int) (g1 : Rng),
          generatePosBetweenAux f1 e1 pos1 q2 np ((n : Int) + 1) g1
            = generatePosBetweenAux f2 e1 pos1 q2 np ((n : Int) + 1) g1 := by
        intro e1 q2 np g1
        have := ih (n + 1) f1 f2 (by omega) (by omega) (by omega) e1 pos1 q2 np g1
        simpa using this
      rw [generatePosBetweenAux, generatePosBetweenAux]
      simp only [hrec]

/-- The method `generatePosBetween` with any larger amount of fuel. -/
theorem generatePosBetween_fuel (k n : Nat) (e : SharedEditor) (pos1 pos2 newPos : List Int)
    (g : Rng) :
    generatePosBetween e pos1 pos2 newPos (n : Int) g
      = generatePosBetweenAux (27 - n + 1 + k) e pos1 pos2 newPos (n : Int) g := by
  unfold generatePosBetween
  rw [Int.toNat_ofNat]
  exact generatePosBetweenAux_fuel (26 - n) n _ _ (le_refl _) (by omega) (by omega) e pos1 pos2
    newPos g

/-- The loop of `std::lower_bound` ends before its fuel does: more fuel than `len` changes
nothing. -/
theorem lower_bound_fuel (comp : Nat → Except Err Bool) :
    ∀ (fuel first len : Nat), len ≤ fuel →
      lower_bound comp fuel first len = lower_bound comp len first len := by
  intro fuel
  induction fuel using Nat.strong_induction_on with
  | _ fuel ih =>
    intro first len hlen
    cases fuel with
    | zero =>
      have : len = 0 := by omega
      subst this
      rfl
    | succ f =>
      cases len with
      | zero => rw [lower_bound, lower_bound]; simp
      | succ l =>
        rw [lower_bound, lower_bound]
        simp only [Nat.succ_ne_zero, if_false]
        have hhalf : (l + 1) / 2 ≤ l := by omega
        cases comp (first + (l + 1) / 2) with
        | error err => rfl
        | ok b =>
          cases b with
          | true =>
            simp only []
            rw [ih f (by omega) _ _ (by omega), ih l (by omega) _ _ (by omega)]
          | false =>
            simp only []
            rw [ih f (by omega) _ _ (by omega), ih l (by omega) _ _ (by omega)]

end LSEQ

namespace LSEQ

/-! ## The allocator: shape of the result -/

theorem generateIdBetween_ok (min max : Int) (strategy : Bool) (g : Rng)
    (h0 : 0 ≤ min) (h1 : max - min > 1) :
    ∃ r, generateIdBetween min max strategy g = (.ok r, fun n => g (n + 1)) := by
  unfold generateIdBetween
  unfold boundary
  have c1 : ¬ (min < 0 ∧ max < 0) := by omega
  have c2 : ¬ min < 0 := by omega
  have c3 : ¬ max < 0 := by omega
  have c4 : ¬ max < min := by omega
  have c5 : ¬ min = max := by omega
  simp only [c1, c2, c3, c4, c5, if_false]
  by_cases hb : max - min < 10
  · simp only [hb, if_true]
    obtain ⟨r, hr, -, -⟩ := uniform_range (min + 1) (max - 1) g (by omega)
    exact ⟨r, hr⟩
  · simp only [hb, if_false]
    cases strategy with
    | false =>
      simp only [Bool.not_false, if_true]
      obtain ⟨r, hr, -, -⟩ := uniform_range (max - 10) (max - 1) g (by omega)
      exact ⟨r, hr⟩
    | true =>
      simp only [Bool.not_true, Bool.false_eq_true, if_false]
      obtain ⟨r, hr, -, -⟩ := uniform_range (min + 1) (min + 10) g (by omega)
      exact ⟨r, hr⟩

/-- The descent with the right neighbour left out: the result repeats the elements of `p1`
and ends with one drawn element, at the latest one level past the end of `p1`. -/
theorem generatePosBetweenAux_dropped_shape (p1 : List Int) (hp1 : p1 ≠ [])
    (hcap : withinCapacity p1) (hlen : p1.length ≤ 25) :
    ∀ (m n fuel : Nat) (e : SharedEditor) (g : Rng) (newPos : List Int),
      p1.length - n ≤ m → n ≤ 25 → 26 - n < fuel → levelsCached e n →
      ∃ q e1 g1, generatePosBetweenAux fuel e p1 [] newPos (n : Int) g
          = (.ok (newPos ++ q), e1, g1) ∧
        n + q.length ≤ max n p1.length + 1 ∧
        ∀ i, i + 1 < q.length → q.getD i 0 = p1.getD (n + i) 0 := by
  intro m
  induction m with
  | zero =>
    intro n fuel e g newPos hm hn hfuel hS
    obtain ⟨fuel, rfl⟩ : ∃ f, fuel = f + 1 := ⟨fuel - 1, by omega⟩
    obtain ⟨b, e1, -, hstep⟩ := generatePosBetweenAux_step fuel e p1 [] newPos n g hp1 hn hS
    have hge : p1.length ≤ n := by omega
    have hid : p1.getD n 0 = 0 := List.getD_eq_default _ _ hge
    have hpow : (1 : Int) ≤ 2 ^ n := by
      exact_mod_cast Nat.one_le_two_pow
    have hgt : 2 ^ n * base - 0 > 1 := by unfold base; omega
    obtain ⟨r, hr⟩ := generateIdBetween_ok 0 (2 ^ n * base) b (fun k => g (k + 1))
      (le_refl _) hgt
    simp only [List.isEmpty_nil, Bool.not_true, Bool.false_eq_true, false_and, if_false, hid,
      hgt, if_true, hr] at hstep
    refine ⟨[r], e1, _, hstep, ?_, ?_⟩
    · simp
    · intro i hi
      simp at hi
  | succ m ih =>
    intro n fuel e g newPos hm hn hfuel hS
    obtain ⟨fuel, rfl⟩ : ∃ f, fuel = f + 1 := ⟨fuel - 1, by omega⟩
    obtain ⟨b, e1, hS1, hstep⟩ := generatePosBetweenAux_step fuel e p1 [] newPos n g hp1 hn hS
    simp only [List.isEmpty_nil, Bool.not_true, Bool.false_eq_true, false_and, if_false]
      at hstep
    by_cases hlt : n < p1.length
    · obtain ⟨hc0, hc1⟩ := hcap n hlt
      by_cases hgt : 2 ^ n * base - p1.getD n 0 > 1
      · obtain ⟨r, hr⟩ := generateIdBetween_ok (p1.getD n 0) (2 ^ n * base) b
          (fun k => g (k + 1)) hc0 hgt
        simp only [hgt, if_true, hr] at hstep
        refine ⟨[r], e1, _, hstep, ?_, ?_⟩
        · simp
        · intro i hi
          simp at hi
      · obtain ⟨q, e2, g2, hrec, hql, hqe⟩ := ih (n + 1) fuel e1 (fun k => g (k + 1))
          (newPos ++ [p1.getD n 0]) (by omega) (by omega) (by omega) hS1
        have hres : generatePosBetweenAux (fuel + 1) e p1 [] newPos (n : Int) g
            = (.ok (newPos ++ [p1.getD n 0] ++ q), e2, g2) := by
          rw [hstep]
          simp only [hgt, if_false]
          split
          · exact hrec
          · split
            · exact hrec
            · omega
        refine ⟨p1.getD n 0 :: q, e2, g2, ?_, ?_, ?_⟩
        · rw [hres]; simp
        · simp only [List.length_cons]
          omega
        · intro i hi
          cases i with
          | zero => simp
          | succ i =>
            simp only [List.length_cons] at hi
            have := hqe i (by omega)
            simp only [List.getD_cons_succ]
            rw [this]
            congr 1
            omega
    · have hge : p1.length ≤ n := by omega
      exact ih n (fuel + 1) e g newPos (by omega) hn hfuel hS

/-- The descent while the right neighbour is kept: either `p1` is below `p2` from this
level on, or both positions have ended at this level. -/
theorem generatePosBetweenAux_retained_shape (p1 p2 : List Int) (hp1 : p1 ≠ [])
    (hcap1 : withinCapacity p1) (hcap2 : withinCapacity p2)
    (hlen1 : p1.length ≤ 25) (hlen2 : p2.length ≤ 25) :
    ∀ (m n fuel : Nat) (e : SharedEditor) (g : Rng) (newPos : List Int),
      p2.length + 1 - n ≤ m → 26 - n < fuel → levelsCached e n →
      (lexicographical_compare (p1.drop n) (p2.drop n) = true ∨
        (p1.length ≤ n ∧ n = p2.length)) →
      ∃ q e1 g1, generatePosBetweenAux fuel e p1 p2 newPos (n : Int) g
          = (.ok (newPos ++ q), e1, g1) ∧
        n + q.length ≤ max p1.length p2.length + 1 ∧
        ∀ i, i + 1 < q.length → q.getD i 0 = p1.getD (n + i) 0 := by
  intro m
  induction m with
  | zero =>
    intro n fuel e g newPos hm _ _ hR
    exfalso
    rcases hR with hlt | ⟨-, h2⟩
    · have : p2.drop n = [] := List.drop_eq_nil_of_le (by omega)
      rw [this, lex_nil_right] at hlt
      exact absurd hlt (by simp)
    · omega
  | succ m ih =>
    intro n fuel e g newPos hm hfuel hS hR
    have hn : n ≤ 25 := by
      rcases hR with hlt | ⟨-, h2⟩
      · by_contra hc
        have : p2.drop n = [] := List.drop_eq_nil_of_le (by omega)
        rw [this, lex_nil_right] at hlt
        exact absurd hlt (by simp)
      · omega
    obtain ⟨fuel, rfl⟩ : ∃ f, fuel = f + 1 := ⟨fuel - 1, by omega⟩
    obtain ⟨b, e1, hS1, hstep⟩ := generatePosBetweenAux_step fuel e p1 p2 newPos n g hp1 hn hS
    have hpow : (1 : Int) ≤ 2 ^ n := by
      exact_mod_cast Nat.one_le_two_pow
    rcases hR with hlt | ⟨hl1, hl2⟩
    · -- `p1` is below `p2` from this level on
      have hn2 : n < p2.length := by
        by_contra hc
        have : p2.drop n = [] := List.drop_eq_nil_of_le (by omega)
        rw [this, lex_nil_right] at hlt
        exact absurd hlt (by simp)
      have hne2 : (!p2.isEmpty) = true := by
        cases p2 with
        | nil => simp at hn2
        | cons _ _ => rfl
      have hcond : ((!p2.isEmpty) = true ∧ p2.length > n) := ⟨hne2, hn2⟩
      simp only [hcond, and_self, if_true] at hstep
      have hdrop2 := drop_eq_getD_cons p2 n hn2
      obtain ⟨hy0, -⟩ := hcap2 n hn2
      rw [hdrop2] at hlt
      have hx0 : 0 ≤ p1.getD n 0 := by
        by_cases hl : n < p1.length
        · exact (hcap1 n hl).1
        · rw [List.getD_eq_default _ _ (by omega)]
      have hxy : p1.getD n 0 ≤ p2.getD n 0 ∧ (p1.getD n 0 = p2.getD n 0 →
          (lexicographical_compare (p1.drop (n + 1)) (p2.drop (n + 1)) = true ∨
            (p1.length ≤ n + 1 ∧ n + 1 = p2.length))) := by
        by_cases hl : n < p1.length
        · rw [drop_eq_getD_cons p1 n hl, lex_cons_cons] at hlt
          constructor
          · by_contra hc
            have h1 : ¬ p1.getD n 0 < p2.getD n 0 := by omega
            have h2 : p2.getD n 0 < p1.getD n 0 := by omega
            rw [if_neg h1, if_pos h2] at hlt
            exact absurd hlt (by simp)
          · intro heq
            rw [heq] at hlt
            simp only [lt_self_iff_false, if_false] at hlt
            exact Or.inl hlt
        · have hd1 : p1.drop (n + 1) = [] := List.drop_eq_nil_of_le (by omega)
          rw [List.getD_eq_default _ _ (by omega : p1.length ≤ n)]
          refine ⟨hy0, fun _ => ?_⟩
          rw [hd1]
          cases hb : p2.drop (n + 1) with
          | nil =>
            right
            have := List.drop_eq_nil_iff.mp hb
            omega
          | cons z zs => left; rfl
      generalize p2.getD n 0 = y at hstep hxy hy0
      generalize hx : p1.getD n 0 = x at hstep hx0 hxy
      by_cases hgt : y - x > 1
      · obtain ⟨r, hr⟩ := generateIdBetween_ok x y b (fun k => g (k + 1)) hx0 hgt
        simp only [hgt, if_true, hr] at hstep
        refine ⟨[r], e1, _, hstep, ?_, ?_⟩
        · simp only [List.length_singleton]
          omega
        · intro i hi
          simp at hi
      · have hshape : ∀ q : List Int, n + 1 + q.length ≤ max p1.length p2.length + 1 →
            (∀ i, i + 1 < q.length → q.getD i 0 = p1.getD (n + 1 + i) 0) →
            n + (x :: q).length ≤ max p1.length p2.length + 1 ∧
            ∀ i, i + 1 < (x :: q).length → (x :: q).getD i 0 = p1.getD (n + i) 0 := by
          intro q hql hqe
          refine ⟨by simp only [List.length_cons]; omega, ?_⟩
          intro i hi
          cases i with
          | zero => simpa using hx.symm
          | succ i =>
            simp only [List.length_cons] at hi
            have := hqe i (by omega)
            simp only [List.getD_cons_succ]
            rw [this]
            congr 1
            omega
        by_cases h1 : y - x = 1
        · obtain ⟨q, e2, g2, hrec, hql, hqe⟩ := generatePosBetweenAux_dropped_shape p1 hp1
            hcap1 hlen1 (p1.length - (n + 1)) (n + 1) fuel e1 (fun k => g (k + 1))
            (newPos ++ [x]) (le_refl _) (by omega) (by omega) hS1
          obtain ⟨ha, hb⟩ := hshape q (by omega) hqe
          refine ⟨x :: q, e2, g2, ?_, ha, hb⟩
          rw [hstep]
          simp only [hgt, if_false, h1, if_true]
          rw [hrec]; simp
        · have heq : x = y := by omega
          obtain ⟨q, e2, g2, hrec, hql, hqe⟩ := ih (n + 1) fuel e1 (fun k => g (k + 1))
            (newPos ++ [x]) (by omega) (by omega) hS1 (hxy.2 heq)
          obtain ⟨ha, hb⟩ := hshape q hql hqe
          refine ⟨x :: q, e2, g2, ?_, ha, hb⟩
          rw [hstep]
          simp only [hgt, if_false, h1, heq, if_true]
          rw [heq] at hrec
          rw [hrec]; simp
    · -- both positions have ended: the interval is the capacity of the level
      have hcond : ¬ ((!p2.isEmpty) = true ∧ p2.length > n) := by
        intro h
        omega
      have hid : p1.getD n 0 = 0 := List.getD_eq_default _ _ hl1
      have hgt : 2 ^ n * base - 0 > 1 := by unfold base; omega
      obtain ⟨r, hr⟩ := generateIdBetween_ok 0 (2 ^ n * base) b (fun k => g (k + 1))
        (le_refl _) hgt
      simp only [hcond, if_false, hid, hgt, if_true, hr] at hstep
      refine ⟨[r], e1, _, hstep, ?_, ?_⟩
      · simp only [List.length_singleton]
        omega
      · intro i hi
        simp at hi

/-- Up to level 25 the descent is bounded: for non-empty positions `p1 < p2` of at most 25
levels whose elements lie within the capacity of their level, `generatePosBetween` returns a
position `q` (no interval met is negative), whatever the strategy map and the outcomes of
the generator; more fuel than the 28 nested calls of the model gives the same result; `q`
has at most `max(|p1|, |p2|) + 1` elements, each of them except the last the element of `p1`
at its level, 0 past the end of `p1`. -/
theorem generatePosBetween_descent_bounded (e : SharedEditor) (g : Rng) (p1 p2 : List Int)
    (hp1 : p1 ≠ []) (hp2 : p2 ≠ [])
    (hlt : lexicographical_compare p1 p2 = true)
    (hcap1 : withinCapacity p1) (hcap2 : withinCapacity p2)
    (hlen1 : p1.length ≤ 25) (hlen2 : p2.length ≤ 25) :
    ∃ q, allocated (generatePosBetween e p1 p2 [] 0 g) = .ok q ∧
      (∀ k, allocated (generatePosBetweenAux (28 + k) e p1 p2 [] 0 g) = .ok q) ∧
      q.length ≤ max p1.length p2.length + 1 ∧
      ∀ i, i + 1 < q.length → q.getD i 0 = p1.getD i 0 := by
  have _ := hp2
  obtain ⟨q, e1, g1, hres, hql, hqe⟩ := generatePosBetweenAux_retained_shape p1 p2 hp1 hcap1
    hcap2 hlen1 hlen2 (p2.length + 1) 0 28 e g [] (by omega) (by omega)
    (fun k hk => absurd hk (Nat.not_lt_zero k)) (Or.inl (by simpa using hlt))
  have hgen : generatePosBetween e p1 p2 [] 0 g = (.ok q, e1, g1) := by
    simpa [generatePosBetween] using hres
  refine ⟨q, ?_, ?_, by omega, ?_⟩
  · rw [hgen]; rfl
  · intro k
    have := generatePosBetween_fuel k 0 e p1 p2 [] g
    simp only [Nat.cast_zero, Nat.sub_zero] at this
    rw [show 28 + k = 27 + 1 + k by omega, ← this, hgen]
    rfl
  · intro i hi
    have := hqe i hi
    simpa using this

end LSEQ

namespace LSEQ

/-! ## The counter and the number of stored symbols -/

theorem eraseIdx_mid {α : Type} (pre : List α) (cur : α) (post : List α) :
    (pre ++ cur :: post).eraseIdx pre.length = pre ++ post := by
  induction pre with
  | nil => simp
  | cons p ps ih => simp [ih]

theorem length_flatten_set {α : Type} (ls : List (List α)) (i : Nat) (x cur : List α)
    (h : ls[i]? = some cur) :
    (ls.set i x).flatten.length + cur.length = ls.flatten.length + x.length := by
  obtain ⟨pre, post, rfl, rfl⟩ := split_of_getElem? ls i cur h
  rw [set_mid]
  simp only [List.flatten_append, List.flatten_cons, List.length_append]
  omega

theorem length_flatten_eraseIdx {α : Type} (ls : List (List α)) (i : Nat) (cur : List α)
    (h : ls[i]? = some cur) :
    (ls.eraseIdx i).flatten.length + cur.length = ls.flatten.length := by
  obtain ⟨pre, post, rfl, rfl⟩ := split_of_getElem? ls i cur h
  rw [eraseIdx_mid]
  simp only [List.flatten_append, List.flatten_cons, List.length_append]
  omega

theorem length_flatten_insertIdx {α : Type} (ls : List (List α)) (i : Nat) (x : List α)
    (h : i ≤ ls.length) :
    (ls.insertIdx i x).flatten.length = ls.flatten.length + x.length := by
  rw [insertIdx_take_drop ls i x h]
  conv_rhs => rw [← List.take_append_drop i ls]
  simp only [List.flatten_append, List.flatten_cons, List.length_append]
  omega

theorem length_flatten_take_drop {α : Type} (ls : List (List α)) (a : Nat) :
    (ls.take a).flatten.length + (ls.drop a).flatten.length = ls.flatten.length := by
  conv_rhs => rw [← List.take_append_drop a ls]
  simp only [List.flatten_append, List.length_append]

/-- A completed `insertSymbol` adds one symbol and one to the counter. -/
theorem insertSymbol_size (e : SharedEditor) (pos : Position) (s : Symbol) (e1 : SharedEditor)
    (h : insertSymbol e pos s = .ok e1) :
    e1._siteId = e._siteId ∧ e1._counter = e._counter + 1 ∧
      (flat e1).length = (flat e).length + 1 := by
  obtain ⟨line, index⟩ := pos
  unfold insertSymbol at h
  simp only [bind, Except.bind] at h
  cases hv : vecIdx e._symbols line with
  | error err => simp [hv] at h
  | ok cur =>
    simp only [hv] at h
    by_cases hgt : toSizeT index > cur.length
    · simp [hgt] at h
    · simp only [hgt, if_false, pure, Except.pure, Except.ok.injEq] at h
      obtain ⟨hl0, hc⟩ := (vecIdx_ok_iff _ _ _).mp hv
      have hlt : line.toNat < e._symbols.length := by
        by_contra hcon
        rw [List.getElem?_eq_none (by omega)] at hc
        exact absurd hc (by simp)
      have hk : index.toNat ≤ cur.length := by
        unfold toSizeT at hgt
        by_cases h0 : 0 ≤ index
        · simp only [h0, if_true] at hgt; omega
        · omega
      subst h
      refine ⟨rfl, rfl, ?_⟩
      unfold flat
      simp only []
      by_cases hnl : s.c = '\n'
      · simp only [hnl, if_true]
        by_cases hend : toSizeT index = cur.length
        · simp only [hend, if_true, List.isEmpty_nil]
          have := length_flatten_set e._symbols line.toNat (cur ++ [s]) cur hc
          simp only [List.flatten_append, List.length_append, List.flatten_cons,
            List.flatten_nil, List.length_nil, List.length_singleton] at this ⊢
          omega
        · simp only [hend, if_false]
          by_cases hem : (cur.drop index.toNat).isEmpty = true
          · simp only [hem, if_true]
            have := length_flatten_set e._symbols line.toNat (cur ++ [s]) cur hc
            simp only [List.flatten_append, List.length_append, List.flatten_cons,
              List.flatten_nil, List.length_nil, List.length_singleton] at this ⊢
            omega
          · simp only [hem, Bool.false_eq_true, if_false]
            have h1 := length_flatten_set e._symbols line.toNat (cur.take index.toNat ++ [s])
              cur hc
            have h2 := length_flatten_insertIdx
              (e._symbols.set line.toNat (cur.take index.toNat ++ [s])) (line.toNat + 1)
              (cur.drop index.toNat) (by rw [List.length_set]; omega)
            rw [h2]
            simp only [List.length_append, List.length_singleton, List.length_take,
              List.length_drop] at h1 ⊢
            omega
      · simp only [hnl, if_false]
        have h1 := length_flatten_set e._symbols line.toNat (cur.insertIdx index.toNat s) cur hc
        rw [List.length_insertIdx _ _ hk] at h1
        omega


theorem slice_ok {α : Type} (v : List α) (a b : Int) (r : List α) (h : slice v a b = .ok r) :
    0 ≤ a ∧ a ≤ b ∧ b ≤ v.length ∧ r = (v.drop a.toNat).take (b.toNat - a.toNat) := by
  unfold slice at h
  by_cases hc : 0 ≤ a ∧ a ≤ b ∧ b ≤ v.length
  · simp only [hc, and_self, if_true, Except.ok.injEq] at h
    exact ⟨hc.1, hc.2.1, hc.2.2, h.symm⟩
  · simp [hc] at h

theorem length_eraseRange {α : Type} (v : List α) (a b : Int) (h0 : 0 ≤ a) (h1 : a ≤ b)
    (h2 : b ≤ v.length) :
    ((eraseRange v a b).length : Int) = v.length - (b - a) := by
  unfold eraseRange
  simp only [List.length_append, List.length_take, List.length_drop]
  omega

/-- A completed `eraseSingleLine` takes from the counter the number of symbols it removes. -/
theorem eraseSingleLine_size (e : SharedEditor) (startPos endPos : Position)
    (symbols : List Symbol) (e1 : SharedEditor)
    (h : eraseSingleLine e startPos endPos = .ok (symbols, e1)) :
    e1._siteId = e._siteId ∧
      e1._counter - ((flat e1).length : Int) = e._counter - ((flat e).length : Int) := by
  unfold eraseSingleLine at h
  simp only [bind, Except.bind] at h
  cases hv : vecIdx e._symbols startPos.line with
  | error err => simp [hv] at h
  | ok cur =>
    simp only [hv] at h
    cases hs : slice cur startPos.index (endPos.index + 1) with
    | error err => simp [hs] at h
    | ok syms =>
      simp only [hs, pure, Except.pure, Except.ok.injEq, Prod.mk.injEq] at h
      obtain ⟨-, rfl⟩ := h
      obtain ⟨hl0, hc⟩ := (vecIdx_ok_iff _ _ _).mp hv
      obtain ⟨h0, h1, h2, -⟩ := slice_ok _ _ _ _ hs
      refine ⟨rfl, ?_⟩
      unfold flat
      simp only []
      have hset := length_flatten_set e._symbols startPos.line.toNat
        (eraseRange cur startPos.index (endPos.index + 1)) cur hc
      have hlen := length_eraseRange cur _ _ h0 h1 h2
      omega

theorem take_drop_set_set {α : Type} (ls : List α) (i j p n : Nat) (A B : α)
    (hi : i < p) (hj : p + n ≤ j) :
    (((ls.set i A).set j B).drop p).take n = (ls.drop p).take n := by
  apply List.ext_getElem?
  intro k
  by_cases hk : k < n
  · rw [List.getElem?_take_of_lt hk, List.getElem?_take_of_lt hk, List.getElem?_drop,
      List.getElem?_drop, List.getElem?_set_ne (by omega), List.getElem?_set_ne (by omega)]
  · rw [List.getElem?_take_eq_none (by omega), List.getElem?_take_eq_none (by omega)]

theorem length_flatten_eraseRange {α : Type} (L : List (List α)) (p q : Nat) (hpq : p ≤ q) :
    (L.take p ++ L.drop q).flatten.length + ((L.drop p).take (q - p)).flatten.length
      = L.flatten.length := by
  have h1 := length_flatten_take_drop L p
  have h2 := length_flatten_take_drop (L.drop p) (q - p)
  rw [List.drop_drop] at h2
  rw [show p + (q - p) = q by omega] at h2
  simp only [List.flatten_append, List.length_append]
  omega


/-- A completed `eraseMultipleLines` takes from the counter the number of symbols it
removes. -/
theorem eraseMultipleLines_size (e : SharedEditor) (startPos endPos : Position)
    (symbols : List Symbol) (e1 : SharedEditor)
    (h : eraseMultipleLines e startPos endPos = .ok (symbols, e1)) :
    e1._siteId = e._siteId ∧
      e1._counter - ((flat e1).length : Int) = e._counter - ((flat e).length : Int) := by
  obtain ⟨sl, a⟩ := startPos
  obtain ⟨el, b⟩ := endPos
  unfold eraseMultipleLines at h
  simp only [bind, Except.bind] at h
  cases hv1 : vecIdx e._symbols sl with
  | error err => simp [hv1] at h
  | ok first =>
    simp only [hv1] at h
    cases hs1 : slice first a first.length with
    | error err => simp [hs1] at h
    | ok head =>
      simp only [hs1] at h
      cases hs2 : slice e._symbols (sl + 1) (max (sl + 1) el) with
      | error err => simp [hs2] at h
      | ok middle =>
        simp only [hs2] at h
        cases hv2 : vecIdx e._symbols el with
        | error err => simp [hv2] at h
        | ok last =>
          simp only [hv2] at h
          cases hs3 : slice last 0 (b + 1) with
          | error err => simp [hs3] at h
          | ok tail =>
            simp only [hs3] at h
            obtain ⟨hsl0, hc1⟩ := (vecIdx_ok_iff _ _ _).mp hv1
            obtain ⟨hel0, hc2⟩ := (vecIdx_ok_iff _ _ _).mp hv2
            obtain ⟨ha0, ha1, -, hhead⟩ := slice_ok _ _ _ _ hs1
            obtain ⟨-, -, -, hmid⟩ := slice_ok _ _ _ _ hs2
            obtain ⟨-, hb0, hb1, htail⟩ := slice_ok _ _ _ _ hs3
            have hlt1 : sl.toNat < e._symbols.length := by
              by_contra hcon
              rw [List.getElem?_eq_none (by omega)] at hc1
              exact absurd hc1 (by simp)
            have hlt2 : el.toNat < e._symbols.length := by
              by_contra hcon
              rw [List.getElem?_eq_none (by omega)] at hc2
              exact absurd hc2 (by simp)
            have hheadLen : (head.length : Int) = first.length - a := by
              rw [hhead]; simp only [List.length_take, List.length_drop]; omega
            have htailLen : (tail.length : Int) = b + 1 := by
              rw [htail]; simp only [List.length_take, List.length_drop]; omega
            have hA := length_eraseRange first a first.length ha0 ha1 (le_refl _)
            have hB := length_eraseRange last 0 (b + 1) (le_refl _) hb0 hb1
            by_cases hne : el - sl ≠ 1
            · simp only [hne, ne_eq, not_false_eq_true, if_true] at h
              cases hs4 : slice ((e._symbols.set sl.toNat (eraseRange first a first.length)).set
                  el.toNat (eraseRange last 0 (b + 1))) (sl + 1) el with
              | error err => simp [hs4] at h
              | ok dropped =>
                simp only [hs4, pure, Except.pure, Except.ok.injEq, Prod.mk.injEq] at h
                obtain ⟨hsym, rfl⟩ := h
                obtain ⟨-, hle, -, -⟩ := slice_ok _ _ _ _ hs4
                refine ⟨rfl, ?_⟩
                unfold flat
                simp only []
                have hset1 := length_flatten_set e._symbols sl.toNat
                  (eraseRange first a first.length) first hc1
                have hc2b : (e._symbols.set sl.toNat (eraseRange first a first.length))[el.toNat]?
                    = some last := by
                  rw [List.getElem?_set_ne (by omega)]; exact hc2
                have hset2 := length_flatten_set _ el.toNat (eraseRange last 0 (b + 1)) last hc2b
                have her := length_flatten_eraseRange
                  ((e._symbols.set sl.toNat (eraseRange first a first.length)).set el.toNat
                    (eraseRange last 0 (b + 1))) (sl + 1).toNat el.toNat (by omega)
                rw [show (sl + 1).toNat = sl.toNat + 1 by omega] at her
                rw [take_drop_set_set _ _ _ _ _ _ _ (by omega) (by omega)] at her
                have hmidLen : middle = (e._symbols.drop (sl.toNat + 1)).take
                    (el.toNat - (sl.toNat + 1)) := by
                  rw [hmid, max_eq_right (by omega), show (sl + 1).toNat = sl.toNat + 1 by omega]
                rw [← hmidLen] at her
                generalize eraseRange first a first.length = A at hA hset1 hset2 her hs4 hc2b ⊢
                generalize eraseRange last 0 (b + 1) = B at hB hset2 her hs4 ⊢
                unfold eraseRange
                rw [show (sl + 1).toNat = sl.toNat + 1 by omega]
                simp only [List.flatten_append, List.length_append] at her ⊢
                push_cast
                omega
            · have h1 : el - sl = 1 := by omega
              simp only [h1, ne_eq, not_true_eq_false, if_false, pure, Except.pure,
                Except.ok.injEq, Prod.mk.injEq] at h
              obtain ⟨hsym, rfl⟩ := h
              refine ⟨rfl, ?_⟩
              unfold flat
              simp only []
              have hset1 := length_flatten_set e._symbols sl.toNat
                (eraseRange first a first.length) first hc1
              have hc2b : (e._symbols.set sl.toNat (eraseRange first a first.length))[el.toNat]?
                  = some last := by
                rw [List.getElem?_set_ne (by omega)]; exact hc2
              have hset2 := length_flatten_set _ el.toNat (eraseRange last 0 (b + 1)) last hc2b
              have hmid0 : middle = [] := by
                rw [hmid, max_eq_left (by omega)]
                simp
              rw [hmid0]
              generalize eraseRange first a first.length = A at hA hset1 hset2 hc2b ⊢
              generalize eraseRange last 0 (b + 1) = B at hB hset2 ⊢
              simp only [List.length_append, List.flatten_nil, List.length_nil]
              push_cast
              omega

end LSEQ

namespace LSEQ

/-! ## localErase and the counter -/

theorem localErase_eq (e : SharedEditor) (env : Env) (startPos endPos : Position) :
    localErase e env startPos endPos = (do
      let line0 ← vecIdx e._symbols 0
      if line0.isEmpty ∨ e._symbols.length ≤ toSizeT startPos.line then pure (e, env)
      else do
        let (symbols, e1, mergeLines) ← eraseBlock e startPos endPos
        let e3 ← mergeBlock e1 startPos.line mergeLines
        let e4 := if e3._symbols.isEmpty then { e3 with _symbols := [[]] } else e3
        let sent : List Message := symbols.map (fun sym => ⟨DELETE, sym, e._siteId⟩)
        pure (e4, { env with messages := env.messages ++ sent })) := by
  unfold localErase eraseBlock mergeBlock
  simp only [bind, Except.bind, pure, Except.pure]
  cases vecIdx e._symbols 0 with
  | error err => rfl
  | ok line0 =>
    simp only []
    by_cases hc0 : line0.isEmpty = true ∨ e._symbols.length ≤ toSizeT startPos.line
    · simp only [hc0, if_true]
    · simp only [hc0, if_false]
      by_cases hml : startPos.line ≠ endPos.line
      · simp only [hml, ne_eq, not_false_eq_true, if_true]
        cases eraseMultipleLines e startPos endPos with
        | error err => rfl
        | ok v =>
          simp only []
          cases vecIdx v.2._symbols (startPos.line + 1) with
          | error err => rfl
          | ok next =>
            simp only [if_true]
            generalize hx2 : (if next.isEmpty = true then ({ v.2 with _symbols := v.2._symbols.eraseIdx (startPos.line + 1).toNat } : SharedEditor) else v.2) = x2
            cases vecIdx x2._symbols 0 with
            | error err => rfl
            | ok l0 =>
              simp only []
              by_cases hg : l0.isEmpty = true ∧ x2._symbols.length = 1
              · simp only [hg, and_self, not_true_eq_false, if_false]
              · simp only [hg, not_false_eq_true, if_true]
                cases vecIdx x2._symbols startPos.line with
                | error err => rfl
                | ok cur =>
                  simp only []
                  cases vecIdx x2._symbols (startPos.line + 1) with
                  | error err => rfl
                  | ok nxt => rfl
      · simp only [hml, if_false]
        cases eraseSingleLine e startPos endPos with
        | error err => rfl
        | ok v =>
          simp only []
          cases v.1.getLast? with
          | none => rfl
          | some back =>
            simp only []
            by_cases hb : back.c = '\n'
            · simp only [hb, if_true]
              cases hvn : vecIdx v.2._symbols (startPos.line + 1) with
              | error err => rfl
              | ok next =>
                simp only []
                by_cases hn : next.isEmpty = true
                · simp only [hn, if_true]
                  rfl
                · simp only [hn, Bool.false_eq_true, if_false, if_true]
                  cases vecIdx v.2._symbols 0 with
                  | error err => rfl
                  | ok l0 =>
                    simp only []
                    by_cases hg : l0.isEmpty = true ∧ v.2._symbols.length = 1
                    · simp only [hg, and_self, not_true_eq_false, if_false]
                    · simp only [hg, not_false_eq_true, if_true]
                      cases vecIdx v.2._symbols startPos.line with
                      | error err => rfl
                      | ok cur =>
                        simp only [hvn]
            · simp only [hb, if_false]
              rfl


theorem vecIdx_lt {α : Type} (v : List α) (i : Int) (x : α) (h : vecIdx v i = .ok x) :
    0 ≤ i ∧ i.toNat < v.length ∧ v[i.toNat]? = some x := by
  obtain ⟨h0, hc⟩ := (vecIdx_ok_iff _ _ _).mp h
  refine ⟨h0, ?_, hc⟩
  by_contra hcon
  rw [List.getElem?_eq_none (by omega)] at hc
  exact absurd hc (by simp)

theorem length_flatten_eraseIdx_empty {α : Type} (ls : List (List α)) (i : Nat) (cur : List α)
    (h : ls[i]? = some cur) (he : cur.isEmpty = true) :
    (ls.eraseIdx i).flatten.length = ls.flatten.length := by
  have := length_flatten_eraseIdx ls i cur h
  rw [List.isEmpty_iff] at he
  subst he
  simpa using this

theorem length_flatten_merge {α : Type} (ls : List (List α)) (i : Nat) (cur next : List α)
    (h1 : ls[i]? = some cur) (h2 : ls[i + 1]? = some next) :
    ((ls.set i (cur ++ next)).eraseIdx (i + 1)).flatten.length = ls.flatten.length ∧
    ((cur ++ next).isEmpty = true →
      (((ls.set i (cur ++ next)).eraseIdx (i + 1)).eraseIdx i).flatten.length
        = ls.flatten.length) := by
  have hi : i < ls.length := by
    by_contra hcon
    rw [List.getElem?_eq_none (by omega)] at h1
    exact absurd h1 (by simp)
  have hs := length_flatten_set ls i (cur ++ next) cur h1
  have h2b : (ls.set i (cur ++ next))[i + 1]? = some next := by
    rw [List.getElem?_set_ne (by omega)]; exact h2
  have he := length_flatten_eraseIdx _ (i + 1) next h2b
  have h3 : ((ls.set i (cur ++ next)).eraseIdx (i + 1))[i]? = some (cur ++ next) := by
    rw [List.getElem?_eraseIdx, if_pos (by omega), List.getElem?_set_self hi]
  constructor
  · simp only [List.length_append] at hs
    omega
  · intro hem
    have he2 := length_flatten_eraseIdx_empty _ i (cur ++ next) h3 hem
    rw [he2]
    simp only [List.length_append] at hs
    omega

/-- The first half of a completed `localErase` takes from the counter the number of symbols
it removes. -/
theorem eraseBlock_size (e : SharedEditor) (startPos endPos : Position)
    (symbols : List Symbol) (x : SharedEditor) (ml : Bool)
    (h : eraseBlock e startPos endPos = .ok (symbols, x, ml)) :
    x._siteId = e._siteId ∧
      x._counter - ((flat x).length : Int) = e._counter - ((flat e).length : Int) := by
  unfold eraseBlock at h
  simp only [bind, Except.bind, pure, Except.pure] at h
  by_cases hml : startPos.line ≠ endPos.line
  · simp only [hml, ne_eq, not_false_eq_true, if_true] at h
    cases hem : eraseMultipleLines e startPos endPos with
    | error err => simp [hem] at h
    | ok v =>
      obtain ⟨syms, e1⟩ := v
      obtain ⟨hs1, hs2⟩ := eraseMultipleLines_size e startPos endPos syms e1 hem
      simp only [hem] at h
      cases hvn : vecIdx e1._symbols (startPos.line + 1) with
      | error err => simp [hvn] at h
      | ok next =>
        simp only [hvn, Except.ok.injEq, Prod.mk.injEq] at h
        obtain ⟨-, rfl, -⟩ := h
        obtain ⟨-, -, hc⟩ := vecIdx_lt _ _ _ hvn
        by_cases hn : next.isEmpty = true
        · simp only [hn, if_true]
          refine ⟨hs1, ?_⟩
          unfold flat at hs2 ⊢
          simp only []
          rw [length_flatten_eraseIdx_empty _ _ _ hc hn]
          exact hs2
        · simp only [hn, Bool.false_eq_true, if_false]
          exact ⟨hs1, hs2⟩
  · simp only [hml, if_false] at h
    cases hes : eraseSingleLine e startPos endPos with
    | error err => simp [hes] at h
    | ok v =>
      obtain ⟨syms, e1⟩ := v
      obtain ⟨hs1, hs2⟩ := eraseSingleLine_size e startPos endPos syms e1 hes
      simp only [hes] at h
      cases hl : syms.getLast? with
      | none => simp [hl] at h
      | some back =>
        simp only [hl] at h
        by_cases hb : back.c = '\n'
        · simp only [hb, if_true] at h
          cases hvn : vecIdx e1._symbols (startPos.line + 1) with
          | error err => simp [hvn] at h
          | ok next =>
            simp only [hvn] at h
            obtain ⟨-, -, hc⟩ := vecIdx_lt _ _ _ hvn
            by_cases hn : next.isEmpty = true
            · simp only [hn, if_true, Except.ok.injEq, Prod.mk.injEq] at h
              obtain ⟨-, rfl, -⟩ := h
              refine ⟨hs1, ?_⟩
              unfold flat at hs2 ⊢
              simp only []
              rw [length_flatten_eraseIdx_empty _ _ _ hc hn]
              exact hs2
            · simp only [hn, Bool.false_eq_true, if_false, Except.ok.injEq, Prod.mk.injEq] at h
              obtain ⟨-, rfl, -⟩ := h
              exact ⟨hs1, hs2⟩
        · simp only [hb, if_false, Except.ok.injEq, Prod.mk.injEq] at h
          obtain ⟨-, rfl, -⟩ := h
          exact ⟨hs1, hs2⟩

/-- The second half of a completed `localErase` removes no symbol. -/
theorem mergeBlock_size (x : SharedEditor) (startLine : Int) (ml : Bool) (x3 : SharedEditor)
    (h : mergeBlock x startLine ml = .ok x3) :
    x3._siteId = x._siteId ∧ x3._counter = x._counter ∧
      (flat x3).length = (flat x).length := by
  unfold mergeBlock at h
  simp only [bind, Except.bind, pure, Except.pure] at h
  cases ml with
  | false =>
    simp only [Bool.false_eq_true, if_false, Except.ok.injEq] at h
    subst h
    exact ⟨rfl, rfl, rfl⟩
  | true =>
    simp only [if_true] at h
    cases hv0 : vecIdx x._symbols 0 with
    | error err => simp [hv0] at h
    | ok l0 =>
      simp only [hv0] at h
      by_cases hg : l0.isEmpty = true ∧ x._symbols.length = 1
      · simp only [hg, and_self, not_true_eq_false, if_false, Except.ok.injEq] at h
        subst h
        exact ⟨rfl, rfl, rfl⟩
      · simp only [hg, not_false_eq_true, if_true] at h
        cases hv1 : vecIdx x._symbols startLine with
        | error err => simp [hv1] at h
        | ok cur =>
          simp only [hv1] at h
          cases hv2 : vecIdx x._symbols (startLine + 1) with
          | error err => simp [hv2] at h
          | ok next =>
            simp only [hv2, Except.ok.injEq] at h
            subst h
            obtain ⟨h0, -, hc1⟩ := vecIdx_lt _ _ _ hv1
            obtain ⟨-, -, hc2⟩ := vecIdx_lt _ _ _ hv2
            rw [show (startLine + 1).toNat = startLine.toNat + 1 by omega] at hc2 ⊢
            obtain ⟨hm1, hm2⟩ := length_flatten_merge x._symbols startLine.toNat cur next hc1 hc2
            refine ⟨rfl, rfl, ?_⟩
            unfold flat
            simp only []
            by_cases hem : (cur ++ next).isEmpty = true
            · rw [if_pos hem]
              exact hm2 hem
            · rw [if_neg hem]
              exact hm1

/-- A completed `localErase` takes from the counter the number of symbols it removes. -/
theorem localErase_size (e : SharedEditor) (env : Env) (startPos endPos : Position)
    (e1 : SharedEditor) (env2 : Env)
    (h : localErase e env startPos endPos = .ok (e1, env2)) :
    e1._siteId = e._siteId ∧
      e1._counter - ((flat e1).length : Int) = e._counter - ((flat e).length : Int) := by
  rw [localErase_eq] at h
  simp only [bind, Except.bind, pure, Except.pure] at h
  cases hv0 : vecIdx e._symbols 0 with
  | error err => simp [hv0] at h
  | ok line0 =>
    simp only [hv0] at h
    by_cases hc0 : line0.isEmpty = true ∨ e._symbols.length ≤ toSizeT startPos.line
    · simp only [hc0, if_true, Except.ok.injEq, Prod.mk.injEq] at h
      obtain ⟨rfl, -⟩ := h
      exact ⟨rfl, rfl⟩
    · simp only [hc0, if_false] at h
      cases heb : eraseBlock e startPos endPos with
      | error err => simp [heb] at h
      | ok v =>
        obtain ⟨symbols, x, ml⟩ := v
        obtain ⟨hs1, hs2⟩ := eraseBlock_size e startPos endPos symbols x ml heb
        simp only [heb] at h
        cases hmb : mergeBlock x startPos.line ml with
        | error err => simp [hmb] at h
        | ok x3 =>
          obtain ⟨hm1, hm2, hm3⟩ := mergeBlock_size x startPos.line ml x3 hmb
          simp only [hmb, Except.ok.injEq, Prod.mk.injEq] at h
          obtain ⟨rfl, -⟩ := h
          by_cases hem : x3._symbols.isEmpty = true
          · rw [if_pos hem]
            refine ⟨by simp only []; rw [hm1, hs1], ?_⟩
            have hf : (flat x3).length = 0 := by
              unfold flat
              rw [List.isEmpty_iff] at hem
              rw [hem]; rfl
            simp only [flat, List.flatten_cons, List.flatten_nil, List.append_nil,
              List.length_nil] at hf hs2 hm3 ⊢
            omega
          · rw [if_neg hem]
            refine ⟨by rw [hm1, hs1], ?_⟩
            omega

end LSEQ

namespace LSEQ

/-! ## remoteErase and the counter -/

theorem eraseLookup_eq (e : SharedEditor) (symbol : Symbol) (line : Nat) :
    eraseLookup e symbol line =
      (match e._symbols[line]? with
      | none => .error .undefined
      | some cur =>
        let index_it := find cur symbol
        match cur[index_it]? with
        | none => .error .undefined
        | some x => do
          let (line, cur, index_it) ←
            if ¬ x.eq symbol then
              match e._symbols[line + 1]? with
              | none => .error .undefined
              | some next => pure (line + 1, next, find next symbol)
            else pure (line, cur, index_it)
          match cur[index_it]? with
          | none => .error .undefined
          | some y =>
            let mergeLines := decide (y.c = '\n')
            let (_, e1) ← eraseSingleLine e ⟨line, index_it⟩ ⟨line, index_it⟩
            let e2 ←
              if mergeLines ∧ line < e1._symbols.length - 1 then do
                let cur1 ← vecIdx e1._symbols line
                let next1 ← vecIdx e1._symbols (line + 1)
                pure { e1 with _symbols :=
                  (e1._symbols.set line (cur1 ++ next1)).eraseIdx (line + 1) }
              else pure e1
            pure (if e2._symbols.isEmpty then { e2 with _symbols := [[]] } else e2)) := by
  rfl

theorem remoteErase_eq (e : SharedEditor) (symbol : Symbol) :
    remoteErase e symbol =
      (match e._symbols.head? with
      | none => .error .undefined
      | some front =>
        if front.isEmpty then pure e
        else do
          let n := e._symbols.length
          let line_it ← lower_bound (lineLess e._symbols symbol) n 0 n
          let differs ←
            if line_it ≠ n ∧ line_it ≠ 0 then
              match (e._symbols[line_it]?).bind fun it => it.head? with
              | none => .error .undefined
              | some front => pure (decide (front.pos ≠ symbol.pos))
            else pure false
          let line :=
            if differs then line_it - 1
            else if line_it ≠ 0 then line_it - 1
            else line_it
          eraseLookup e symbol line) := by
  rfl


/-- The end of a completed `remoteErase` takes one from the counter and one symbol from the
document. -/
theorem eraseFound_size (e : SharedEditor) (line index_it : Nat) (y : Symbol)
    (e1 : SharedEditor) (h : eraseFound e line index_it y = .ok e1) :
    e1._siteId = e._siteId ∧
      e1._counter - ((flat e1).length : Int) = e._counter - ((flat e).length : Int) := by
  unfold eraseFound at h
  simp only [bind, Except.bind, pure, Except.pure] at h
  cases hes : eraseSingleLine e ⟨line, index_it⟩ ⟨line, index_it⟩ with
  | error err => simp [hes] at h
  | ok v =>
    obtain ⟨syms, x⟩ := v
    obtain ⟨hs1, hs2⟩ := eraseSingleLine_size e _ _ syms x hes
    simp only [hes] at h
    have hfin : ∀ x2 : SharedEditor, x2._siteId = x._siteId → x2._counter = x._counter →
        (flat x2).length = (flat x).length →
        (if x2._symbols.isEmpty = true then ({ x2 with _symbols := [[]] } : SharedEditor)
          else x2) = e1 →
        e1._siteId = e._siteId ∧
          e1._counter - ((flat e1).length : Int) = e._counter - ((flat e).length : Int) := by
      intro x2 h1 h2 h3 h4
      subst h4
      by_cases hem : x2._symbols.isEmpty = true
      · rw [if_pos hem]
        refine ⟨by simp only []; rw [h1, hs1], ?_⟩
        have hf : (flat x2).length = 0 := by
          unfold flat
          rw [List.isEmpty_iff] at hem
          rw [hem]; rfl
        simp only [flat, List.flatten_cons, List.flatten_nil, List.append_nil,
          List.length_nil] at hf hs2 h3 ⊢
        omega
      · rw [if_neg hem]
        refine ⟨by rw [h1, hs1], ?_⟩
        omega
    by_cases hm : decide (y.c = '\n') = true ∧ line < x._symbols.length - 1
    · simp only [hm, and_self, if_true] at h
      cases hv1 : vecIdx x._symbols (line : Int) with
      | error err => simp [hv1] at h
      | ok cur1 =>
        simp only [hv1] at h
        cases hv2 : vecIdx x._symbols ((line : Int) + 1) with
        | error err => simp [hv2] at h
        | ok next1 =>
          simp only [hv2, Except.ok.injEq] at h
          obtain ⟨-, -, hc1⟩ := vecIdx_lt _ _ _ hv1
          obtain ⟨-, -, hc2⟩ := vecIdx_lt _ _ _ hv2
          rw [Int.toNat_ofNat] at hc1
          rw [show ((line : Int) + 1).toNat = line + 1 by omega] at hc2
          obtain ⟨hm1, -⟩ := length_flatten_merge x._symbols line cur1 next1 hc1 hc2
          exact hfin ({ x with _symbols :=
            (x._symbols.set line (cur1 ++ next1)).eraseIdx (line + 1) } : SharedEditor) rfl rfl hm1 h
    · simp only [hm, if_false, Except.ok.injEq] at h
      exact hfin x rfl rfl rfl h

/-- The middle of a completed `remoteErase` takes one from the counter and one symbol from
the document. -/
theorem eraseLookup_size (e : SharedEditor) (s : Symbol) (line : Nat)
    (e1 : SharedEditor) (h : eraseLookup e s line = .ok e1) :
    e1._siteId = e._siteId ∧
      e1._counter - ((flat e1).length : Int) = e._counter - ((flat e).length : Int) := by
  unfold eraseLookup at h
  simp only [bind, Except.bind, pure, Except.pure] at h
  cases hc : e._symbols[line]? with
  | none => simp [hc] at h
  | some cur =>
    simp only [hc] at h
    cases hx : cur[find cur s]? with
    | none => simp [hx] at h
    | some x =>
      simp only [hx] at h
      by_cases heq : x.eq s = true
      · simp only [heq, not_true_eq_false, if_false, hx] at h
        exact eraseFound_size _ _ _ _ _ h
      · simp only [heq, not_false_eq_true, if_true] at h
        cases hn : e._symbols[line + 1]? with
        | none => simp [hn] at h
        | some next =>
          simp only [hn] at h
          cases hy : next[find next s]? with
          | none => simp [hy] at h
          | some y =>
            simp only [hy] at h
            exact eraseFound_size _ _ _ _ _ h

/-- A completed `remoteErase` takes from the counter the number of symbols it removes. -/
theorem remoteErase_size (e : SharedEditor) (s : Symbol) (e1 : SharedEditor)
    (h : remoteErase e s = .ok e1) :
    e1._siteId = e._siteId ∧
      e1._counter - ((flat e1).length : Int) = e._counter - ((flat e).length : Int) := by
  rw [remoteErase_eq] at h
  cases hh : e._symbols.head? with
  | none => simp [hh] at h
  | some front =>
    simp only [hh] at h
    by_cases hf : front.isEmpty = true
    · simp only [hf, if_true, pure, Except.pure, Except.ok.injEq] at h
      subst h
      exact ⟨rfl, rfl⟩
    · simp only [hf, Bool.false_eq_true, if_false, bind, Except.bind, pure, Except.pure] at h
      cases hlb : lower_bound (lineLess e._symbols s) e._symbols.length 0 e._symbols.length with
      | error err => simp [hlb] at h
      | ok line_it =>
        simp only [hlb] at h
        by_cases hd : line_it ≠ e._symbols.length ∧ line_it ≠ 0
        · simp only [hd, ne_eq, not_false_eq_true, and_self, if_true] at h
          cases hfr : (e._symbols[line_it]?).bind fun it => it.head? with
          | none => simp [hfr] at h
          | some fr =>
            simp only [hfr] at h
            exact eraseLookup_size _ _ _ _ h
        · simp only [hd, if_false] at h
          exact eraseLookup_size _ _ _ _ h

end LSEQ

namespace LSEQ

/-! ## remoteInsert, localInsert, process and the counter -/

/-- A completed `remoteInsert` adds one symbol and one to the counter. -/
theorem remoteInsert_size (e : SharedEditor) (s : Symbol) (g : Rng) (e1 : SharedEditor)
    (g1 : Rng) (h : remoteInsert e s g = .ok (e1, g1)) :
    e1._siteId = e._siteId ∧
      e1._counter - ((flat e1).length : Int) = e._counter - ((flat e).length : Int) := by
  have hfin : ∀ (x : SharedEditor) (pos : Position) (sym : Symbol) (x2 : SharedEditor) (n : Nat),
      x._siteId = e._siteId → x._counter = e._counter → x._symbols = e._symbols →
      insertSymbol x pos sym = .ok x2 →
      ({ x2 with _id_counter := n } : SharedEditor) = e1 →
      e1._siteId = e._siteId ∧
        e1._counter - ((flat e1).length : Int) = e._counter - ((flat e).length : Int) := by
    intro x pos sym x2 n h1 h2 h3 h4 h5
    obtain ⟨i1, i2, i3⟩ := insertSymbol_size x pos sym x2 h4
    subst h5
    refine ⟨by simp only []; rw [i1, h1], ?_⟩
    simp only [flat] at i3 ⊢
    rw [h3] at i3
    omega
  unfold remoteInsert at h
  cases hh : e._symbols.head? with
  | none => simp only [hh] at h; cases h
  | some front =>
    simp only [hh] at h
    by_cases hf : front.isEmpty = true
    · simp only [hf, if_true, bind, Except.bind, pure, Except.pure] at h
      cases hi : insertSymbol e ⟨0, 0⟩ s with
      | error err => simp only [hi] at h; cases h
      | ok x2 =>
        simp only [hi, Except.ok.injEq, Prod.mk.injEq] at h
        obtain ⟨rfl, -⟩ := h
        obtain ⟨i1, i2, i3⟩ := insertSymbol_size e _ s _ hi
        exact ⟨i1, by omega⟩
    · simp only [hf, Bool.false_eq_true, if_false] at h
      cases hb : e._symbols.getLast? with
      | none => simp only [hb] at h; cases h
      | some back =>
        simp only [hb, bind, Except.bind, pure, Except.pure] at h
        cases hlb : lower_bound (lineLess e._symbols s)
            (if back.isEmpty = true then e._symbols.length - 1 else e._symbols.length) 0
            (if back.isEmpty = true then e._symbols.length - 1 else e._symbols.length) with
        | error err => simp only [hlb] at h; cases h
        | ok line_it =>
          simp only [hlb] at h
          generalize (if line_it ≠ 0 then line_it - 1 else line_it) = line at h
          cases hc : e._symbols[line]? with
          | none => simp only [hc] at h; cases h
          | some cur =>
            simp only [hc] at h
            cases hlb2 : lower_bound (symLess cur s) cur.length 0 cur.length with
            | error err => simp only [hlb2] at h; cases h
            | ok index =>
              simp only [hlb2] at h
              generalize (if index = cur.length ∧ index ≠ 0 then index - 1
                else if index ≠ cur.length ∧
                    ¬ (index = 0 ∨ (cur[index]?).map (fun s => s.pos) = some s.pos) then
                  index - 1
                else index) = index_it at h
              cases hx : cur[index_it]? with
              | none => simp only [hx] at h; cases h
              | some x =>
                simp only [hx] at h
                by_cases hp : x.pos = s.pos
                · simp only [hp, if_true] at h
                  generalize (if x.c = '\n' then (⟨(line : Int) + 1, 0⟩ : Position)
                    else ⟨line, (index : Int) + 1⟩) = target at h
                  cases hpa : findPosAfter e target with
                  | error err => simp only [hpa] at h; cases h
                  | ok pos2 =>
                    simp only [hpa] at h
                    have hfr := generatePosBetween_frame e s.pos pos2 [] 0 g
                    rcases hgen : generatePosBetween e s.pos pos2 [] 0 g with ⟨r, x1, g2⟩
                    rw [hgen] at hfr h
                    simp only [] at hfr h
                    cases r with
                    | error err => simp only [] at h; cases h
                    | ok sym_position =>
                      simp only [] at h
                      cases hi : insertSymbol x1 target { s with pos := sym_position } with
                      | error err => simp only [hi] at h; cases h
                      | ok x2 =>
                        simp only [hi, Except.ok.injEq, Prod.mk.injEq] at h
                        exact hfin x1 _ _ x2 _ hfr.2.1 hfr.2.2.1 hfr.1 hi h.1
                · simp only [hp, if_false] at h
                  generalize (if x.c = '\n' ∧ x.lt s = true then (⟨(line : Int) + 1, 0⟩ : Position)
                    else ⟨line, (index : Int)⟩) = target at h
                  cases hi : insertSymbol e target s with
                  | error err => simp only [hi] at h; cases h
                  | ok x2 =>
                    simp only [hi, Except.ok.injEq, Prod.mk.injEq] at h
                    exact hfin e _ _ x2 _ rfl rfl rfl hi h.1

/-- A completed `localInsert` adds to the counter the number of symbols it adds (one, or
none when it reported an exception). -/
theorem localInsert_size (e : SharedEditor) (env : Env) (pos : Position) (value : Char)
    (e1 : SharedEditor) (env2 : Env) (h : localInsert e env pos value = .ok (e1, env2)) :
    e1._siteId = e._siteId ∧
      e1._counter - ((flat e1).length : Int) = e._counter - ((flat e).length : Int) := by
  unfold localInsert at h
  simp only [bind, Except.bind, pure, Except.pure] at h
  cases hv : vecIdx e._symbols pos.line with
  | error err => simp [hv] at h
  | ok cur =>
    simp only [hv] at h
    generalize (if ¬ cur.isEmpty ∧ toSizeT pos.index ≥ cur.length ∧
        (cur.getLast?.map fun s => s.c) = some '\n' then (⟨pos.line + 1, 0⟩ : Position)
      else pos) = target at h
    cases hb : findPosBefore e target with
    | error err =>
      simp only [hb] at h
      by_cases hc : err.caught = true
      · simp only [hc, if_true, Except.ok.injEq, Prod.mk.injEq] at h
        obtain ⟨rfl, -⟩ := h
        exact ⟨rfl, rfl⟩
      · simp [hc] at h
    | ok pos1 =>
      simp only [hb] at h
      cases ha : findPosAfter e target with
      | error err =>
        simp only [ha] at h
        by_cases hc : err.caught = true
        · simp only [hc, if_true, Except.ok.injEq, Prod.mk.injEq] at h
          obtain ⟨rfl, -⟩ := h
          exact ⟨rfl, rfl⟩
        · simp [hc] at h
      | ok pos2 =>
        simp only [ha] at h
        have hfr := generatePosBetween_frame e pos1 pos2 [] 0 env.gen
        rcases hgen : generatePosBetween e pos1 pos2 [] 0 env.gen with ⟨r, x1, g2⟩
        rw [hgen] at hfr h
        simp only [] at hfr h
        have hx1 : x1._siteId = e._siteId ∧
            x1._counter - ((flat x1).length : Int) = e._counter - ((flat e).length : Int) := by
          refine ⟨hfr.2.1, ?_⟩
          simp only [flat]
          rw [hfr.1, hfr.2.2.1]
        cases r with
        | error err =>
          simp only [] at h
          by_cases hc : err.caught = true
          · simp only [hc, if_true, Except.ok.injEq, Prod.mk.injEq] at h
            obtain ⟨rfl, -⟩ := h
            exact hx1
          · simp [hc] at h
        | ok sym_position =>
          simp only [] at h
          cases hi : insertSymbol x1 target ⟨value, symId e._siteId e._id_counter, sym_position⟩ with
          | error err =>
            simp only [hi] at h
            by_cases hc : err.caught = true
            · simp only [hc, if_true, Except.ok.injEq, Prod.mk.injEq] at h
              obtain ⟨rfl, -⟩ := h
              exact hx1
            · simp [hc] at h
          | ok x2 =>
            simp only [hi, Except.ok.injEq, Prod.mk.injEq] at h
            obtain ⟨rfl, -⟩ := h
            obtain ⟨i1, i2, i3⟩ := insertSymbol_size x1 _ _ _ hi
            refine ⟨by rw [i1, hx1.1], ?_⟩
            have := hx1.2
            omega

/-- A completed `process` moves the counter by as much as the number of stored symbols. -/
theorem process_size (e : SharedEditor) (m : Message) (g : Rng) (e1 : SharedEditor)
    (g1 : Rng) (h : process e m g = .ok (e1, g1)) :
    e1._siteId = e._siteId ∧
      e1._counter - ((flat e1).length : Int) = e._counter - ((flat e).length : Int) := by
  unfold process at h
  by_cases h1 : m.type = INSERT
  · simp only [h1, if_true] at h
    exact remoteInsert_size e m.s g e1 g1 h
  · simp only [h1, if_false] at h
    by_cases h2 : m.type = DELETE
    · simp only [h2, if_true, bind, Except.bind, pure, Except.pure] at h
      cases hr : remoteErase e m.s with
      | error err => simp [hr] at h
      | ok x =>
        simp only [hr, Except.ok.injEq, Prod.mk.injEq] at h
        obtain ⟨rfl, -⟩ := h
        exact remoteErase_size e m.s x hr
    · simp [h2] at h


/-- Every completed call keeps the site id and moves the counter by as much as the number
of stored symbols. -/
theorem apply_size (op : Op) (st st1 : SharedEditor × Env) (h : op.apply st = .ok st1) :
    st1.1._siteId = st.1._siteId ∧
      st1.1._counter - ((flat st1.1).length : Int)
        = st.1._counter - ((flat st.1).length : Int) := by
  obtain ⟨e, env⟩ := st
  obtain ⟨e1, env2⟩ := st1
  cases op with
  | localInsert pos value => exact localInsert_size e env pos value e1 env2 h
  | localErase startPos endPos => exact localErase_size e env startPos endPos e1 env2 h
  | remoteInsert symbol =>
    simp only [Op.apply, bind, Except.bind, pure, Except.pure] at h
    cases hr : remoteInsert e symbol env.gen with
    | error err => simp only [hr] at h; cases h
    | ok v =>
      obtain ⟨x, g⟩ := v
      simp only [hr, Except.ok.injEq, Prod.mk.injEq] at h
      obtain ⟨rfl, -⟩ := h
      exact remoteInsert_size e symbol env.gen x g hr
  | remoteErase symbol =>
    simp only [Op.apply, bind, Except.bind, pure, Except.pure] at h
    cases hr : remoteErase e symbol with
    | error err => simp only [hr] at h; cases h
    | ok x =>
      simp only [hr, Except.ok.injEq, Prod.mk.injEq] at h
      obtain ⟨rfl, -⟩ := h
      exact remoteErase_size e symbol x hr
  | process m =>
    simp only [Op.apply, bind, Except.bind, pure, Except.pure] at h
    cases hr : process e m env.gen with
    | error err => simp only [hr] at h; cases h
    | ok v =>
      obtain ⟨x, g⟩ := v
      simp only [hr, Except.ok.injEq, Prod.mk.injEq] at h
      obtain ⟨rfl, -⟩ := h
      exact process_size e m env.gen x g hr

theorem runOps_size (ops : List Op) :
    ∀ (st st1 : SharedEditor × Env), runOps ops st = .ok st1 →
      st1.1._siteId = st.1._siteId ∧
        st1.1._counter - ((flat st1.1).length : Int)
          = st.1._counter - ((flat st.1).length : Int) := by
  induction ops with
  | nil =>
    intro st st1 h
    simp only [runOps, Except.ok.injEq] at h
    subst h
    exact ⟨rfl, rfl⟩
  | cons op ops ih =>
    intro st st1 h
    simp only [runOps, bind, Except.bind] at h
    cases ha : op.apply st with
    | error err => simp only [ha] at h; cases h
    | ok st2 =>
      simp only [ha] at h
      obtain ⟨a1, a2⟩ := apply_size op st st2 ha
      obtain ⟨b1, b2⟩ := ih st2 st1 h
      exact ⟨by rw [b1, a1], by rw [b2, a2]⟩

end LSEQ

namespace LSEQ

/-! ## The relay -/

theorem runCalls_append (a b : List (Message × Nat)) :
    ∀ st, runCalls (a ++ b) st = (runCalls a st >>= runCalls b) := by
  induction a with
  | nil => intro st; rfl
  | cons c cs ih =>
    intro st
    rw [List.cons_append]
    show (callProcess st c >>= fun st1 => runCalls (cs ++ b) st1)
      = ((callProcess st c >>= fun st1 => runCalls cs st1) >>= runCalls b)
    cases callProcess st c with
    | error err => rfl
    | ok st1 => exact ih st1

theorem callsFrom_congr (m : Message) :
    ∀ (es es1 : List SharedEditor) (i : Nat),
      es1.map (fun e => e._siteId) = es.map (fun e => e._siteId) →
      callsFrom m i es1 = callsFrom m i es := by
  intro es
  induction es with
  | nil =>
    intro es1 i h
    have : es1 = [] := by simpa using h
    subst this
    rfl
  | cons e es ih =>
    intro es1 i h
    cases es1 with
    | nil => simp at h
    | cons e1 es1 =>
      simp only [List.map_cons, List.cons.injEq] at h
      simp only [callsFrom, h.1, ih es1 (i + 1) h.2]

theorem deliveries_congr (ms : List Message) (es es1 : List SharedEditor)
    (h : es1.map (fun e => e._siteId) = es.map (fun e => e._siteId)) :
    deliveries ms es1 = deliveries ms es := by
  unfold deliveries
  congr 1
  funext m
  exact callsFrom_congr m es es1 0 h

/-- The inner loop of `dispatchMessages` makes the calls owed for its message. -/
theorem deliver_calls (m : Message) :
    ∀ (todo done : List SharedEditor) (g : Rng),
      runCalls (callsFrom m done.length todo) (done ++ todo, g)
        = (deliver m todo g).map fun r => (done ++ r.1, r.2) := by
  intro todo
  induction todo with
  | nil =>
    intro done g
    simp [callsFrom, runCalls, deliver, Except.map]
  | cons e es ih =>
    intro done g
    have hget : (done ++ e :: es)[done.length]? = some e := getElem?_mid done e es
    by_cases hs : e._siteId ≠ m.siteId
    · simp only [callsFrom, hs, ne_eq, not_false_eq_true, if_true, runCalls, callProcess, hget,
        deliver, bind, Except.bind, pure, Except.pure]
      cases hp : process e m g with
      | error err => rfl
      | ok v =>
        obtain ⟨e1, g1⟩ := v
        simp only []
        have hih := ih (done ++ [e1]) g1
        rw [List.length_append, List.length_singleton, List.append_assoc,
          List.singleton_append] at hih
        rw [set_mid, hih]
        cases deliver m es g1 with
        | error err => rfl
        | ok r => simp [Except.map]
    · simp only [callsFrom, hs, if_false, deliver, bind, Except.bind, pure, Except.pure]
      have hih := ih (done ++ [e]) g
      rw [List.length_append, List.length_singleton, List.append_assoc,
        List.singleton_append] at hih
      rw [hih]
      cases deliver m es g with
      | error err => rfl
      | ok r => simp [Except.map]

/-- The inner loop of `dispatchMessages` keeps the site id of every editor. -/
theorem deliver_siteIds (m : Message) :
    ∀ (es es1 : List SharedEditor) (g g1 : Rng), deliver m es g = .ok (es1, g1) →
      es1.map (fun e => e._siteId) = es.map (fun e => e._siteId) := by
  intro es
  induction es with
  | nil =>
    intro es1 g g1 h
    simp only [deliver, Except.ok.injEq, Prod.mk.injEq] at h
    rw [← h.1]
  | cons e es ih =>
    intro es1 g g1 h
    by_cases hs : e._siteId ≠ m.siteId
    · simp only [deliver, hs, ne_eq, not_false_eq_true, if_true, bind, Except.bind, pure,
        Except.pure] at h
      cases hp : process e m g with
      | error err => simp only [hp] at h; cases h
      | ok v =>
        obtain ⟨e1, g2⟩ := v
        simp only [hp] at h
        cases hd : deliver m es g2 with
        | error err => simp only [hd] at h; cases h
        | ok r =>
          obtain ⟨es2, g3⟩ := r
          simp only [hd, Except.ok.injEq, Prod.mk.injEq] at h
          obtain ⟨rfl, -⟩ := h
          simp only [List.map_cons, (process_size e m g e1 g2 hp).1, ih es2 g2 g3 hd]
    · simp only [deliver, hs, if_false, bind, Except.bind, pure, Except.pure] at h
      cases hd : deliver m es g with
      | error err => simp only [hd] at h; cases h
      | ok r =>
        obtain ⟨es2, g3⟩ := r
        simp only [hd, Except.ok.injEq, Prod.mk.injEq] at h
        obtain ⟨rfl, -⟩ := h
        simp only [List.map_cons, ih es2 g g3 hd]

/-- The loops of `dispatchMessages` make the calls owed for the buffer, in their order. -/
theorem dispatchLoop_calls (ms : List Message) :
    ∀ (es : List SharedEditor) (g : Rng),
      dispatchLoop ms es g = runCalls (deliveries ms es) (es, g) := by
  induction ms with
  | nil => intro es g; rfl
  | cons m ms ih =>
    intro es g
    have hd : deliveries (m :: ms) es = callsFrom m 0 es ++ deliveries ms es := by
      simp [deliveries]
    rw [hd, runCalls_append]
    have hA := deliver_calls m es [] g
    simp only [List.length_nil, List.nil_append] at hA
    rw [hA]
    simp only [dispatchLoop, bind, Except.bind]
    cases hdl : deliver m es g with
    | error err => rfl
    | ok r =>
      obtain ⟨es1, g1⟩ := r
      simp only [Except.map]
      rw [ih es1 g1, deliveries_congr ms es es1 (deliver_siteIds m es es1 g g1 hdl)]

theorem dispatchLoop_siteIds (ms : List Message) :
    ∀ (es es1 : List SharedEditor) (g g1 : Rng), dispatchLoop ms es g = .ok (es1, g1) →
      es1.map (fun e => e._siteId) = es.map (fun e => e._siteId) := by
  induction ms with
  | nil =>
    intro es es1 g g1 h
    simp only [dispatchLoop, Except.ok.injEq, Prod.mk.injEq] at h
    rw [← h.1]
  | cons m ms ih =>
    intro es es1 g g1 h
    simp only [dispatchLoop, bind, Except.bind] at h
    cases hdl : deliver m es g with
    | error err => simp only [hdl] at h; cases h
    | ok r =>
      obtain ⟨es2, g2⟩ := r
      simp only [hdl] at h
      rw [ih es2 es1 g2 g1 h, deliver_siteIds m es es2 g g2 hdl]

/-- The calls owed for one message to the editor of index `i`: the message itself when the
site id of the editor differs from the origin, none otherwise. -/
theorem callsFrom_select (m : Message) (i : Nat) :
    ∀ (es : List SharedEditor) (k : Nat),
      (callsFrom m k es).filterMap (fun c => if c.2 = i then some c.1 else none) =
        match (if k ≤ i then es[i - k]? else none) with
        | some e => if e._siteId ≠ m.siteId then [m] else []
        | none => [] := by
  intro es
  induction es with
  | nil => intro k; simp [callsFrom]
  | cons e0 es ih =>
    intro k
    have hrec := ih (k + 1)
    rcases Nat.lt_trichotomy k i with hlt | heq | hgt
    · have h1 : k ≤ i := by omega
      have h2 : k + 1 ≤ i := by omega
      have h3 : (e0 :: es)[i - k]? = es[i - (k + 1)]? := by
        rw [show i - k = (i - (k + 1)) + 1 by omega]
        simp
      have h4 : ¬ k = i := by omega
      rw [if_pos h1, h3]
      rw [if_pos h2] at hrec
      by_cases hs : e0._siteId ≠ m.siteId
      · simp only [callsFrom, hs, ne_eq, not_false_eq_true, if_true, List.filterMap_cons, h4,
          if_false]
        exact hrec
      · simp only [callsFrom, hs, if_false]
        exact hrec
    · subst heq
      have h2 : ¬ k + 1 ≤ k := by omega
      rw [if_neg h2] at hrec
      simp only [le_refl, if_true, Nat.sub_self, List.getElem?_cons_zero]
      by_cases hs : e0._siteId ≠ m.siteId
      · simp only [callsFrom, hs, ne_eq, not_false_eq_true, if_true, List.filterMap_cons]
        rw [hrec]
      · simp only [callsFrom, hs, if_false]
        rw [hrec]
    · have h1 : ¬ k ≤ i := by omega
      have h2 : ¬ k + 1 ≤ i := by omega
      have h4 : ¬ k = i := by omega
      rw [if_neg h1]
      rw [if_neg h2] at hrec
      by_cases hs : e0._siteId ≠ m.siteId
      · simp only [callsFrom, hs, ne_eq, not_false_eq_true, if_true, List.filterMap_cons, h4,
          if_false]
        exact hrec
      · simp only [callsFrom, hs, if_false]
        exact hrec

/-- The calls a dispatch owes to the editor of index `i`: the buffered messages whose origin
differs from its site id, each once, in buffer order; none past the last editor. -/
theorem deliveries_select (ms : List Message) (es : List SharedEditor) (i : Nat) :
    (deliveries ms es).filterMap (fun c => if c.2 = i then some c.1 else none) =
      match es[i]? with
      | some e => ms.filter fun m => decide (e._siteId ≠ m.siteId)
      | none => [] := by
  induction ms with
  | nil => cases es[i]? <;> simp [deliveries]
  | cons m ms ih =>
    have hd : deliveries (m :: ms) es = callsFrom m 0 es ++ deliveries ms es := by
      simp [deliveries]
    rw [hd, List.filterMap_append, ih, callsFrom_select m i es 0]
    simp only [Nat.zero_le, if_true, Nat.sub_zero]
    cases es[i]? with
    | none => rfl
    | some e =>
      by_cases hs : e._siteId ≠ m.siteId
      · simp [hs]
      · simp [hs]

end LSEQ

namespace LSEQ

/-! ## Runs of the code at concrete inputs -/

set_option maxRecDepth 100000 in
/-- C1: site 0 types `a` and a newline, the messages are dispatched, site 0 erases `a`
(its text becomes a single newline while site 1 still holds both characters), and the final
`dispatchMessages` does not complete: `remoteErase` at site 1 reads the first symbol of the
trailing empty line. -/
theorem convergence_run_undefined :
    texts (twoReplicas.localInsert 0 ⟨0, 0⟩ 'a' >>= fun w =>
      w.localInsert 0 ⟨0, 1⟩ '\n' >>= dispatchMessages >>= fun w =>
      w.localErase 0 ⟨0, 0⟩ ⟨0, 0⟩) = .ok ["\n", "a\n"] ∧
    texts (twoReplicas.localInsert 0 ⟨0, 0⟩ 'a' >>= fun w =>
      w.localInsert 0 ⟨0, 1⟩ '\n' >>= dispatchMessages >>= fun w =>
      w.localErase 0 ⟨0, 0⟩ ⟨0, 0⟩ >>= dispatchMessages) = .error .undefined := by
  decide

set_option maxRecDepth 100000 in
/-- C4: on the document `"ab\ncd"` the call `localErase((0,1),(1,1))`, whose range ends on
the last symbol of the final line, reads the line after the last one. -/
theorem localErase_range_to_end_undefined :
    to_string docAbCd = "ab\ncd" ∧
    outcome (localErase docAbCd env1 ⟨0, 1⟩ ⟨1, 1⟩) = .error .undefined := by
  decide

set_option maxRecDepth 100000 in
/-- C6: on the document `"a\n"` (one line and the trailing empty line) `remoteErase` of the
stored symbol `a` reads the first symbol of the empty line. -/
theorem remoteErase_trailing_line_undefined :
    to_string docANewline = "a\n" ∧
    remoteErase docANewline ⟨'a', "0_0", [2]⟩ = .error .undefined := by
  decide

set_option maxRecDepth 100000 in
/-- C7: on the document `"a"` a DELETE message for the unknown symbol `7_3` makes
`process` dereference `end()`; on the empty document the same message changes nothing. -/
theorem process_delete_missing_undefined :
    (process docA ⟨DELETE, ⟨'x', "7_3", [7]⟩, 7⟩ fun _ => 1).map Prod.fst
      = .error .undefined ∧
    (process (SharedEditor.init 0) ⟨DELETE, ⟨'x', "7_3", [7]⟩, 7⟩ fun _ => 1).map Prod.fst
      = .ok (SharedEditor.init 0) := by
  decide

set_option maxRecDepth 100000 in
/-- C8: at site 0 holding `"a"`, the DELETE of `a` (from site 2) followed by the INSERT of
a newline (from site 1) leaves the text `"\n"`; in the other order the second `process`
does not complete. -/
theorem process_order_matters :
    processTwo docRemoteA ⟨DELETE, ⟨'a', "2_0", [5]⟩, 2⟩ ⟨INSERT, ⟨'\n', "1_0", [9]⟩, 1⟩
      (fun _ => 1) = .ok "\n" ∧
    processTwo docRemoteA ⟨INSERT, ⟨'\n', "1_0", [9]⟩, 1⟩ ⟨DELETE, ⟨'a', "2_0", [5]⟩, 2⟩
      (fun _ => 1) = .error .undefined := by
  decide

set_option maxRecDepth 100000 in
/-- C10: on the document `"ab\ncd"` the call `localErase((0,1),(1,1))` stops before the loop
that sends the DELETE messages, while the range `(0,1)`-`(1,0)` sends one DELETE for each
of `b`, the newline and `c`, in this order. -/
theorem localErase_messages_lost :
    (localErase docAbCd env1 ⟨0, 1⟩ ⟨1, 1⟩).map (fun p => p.2.messages)
      = .error .undefined ∧
    (localErase docAbCd env1 ⟨0, 1⟩ ⟨1, 0⟩).map (fun p => p.2.messages)
      = .ok [⟨DELETE, ⟨'b', "0_1", [4]⟩, 0⟩, ⟨DELETE, ⟨'\n', "0_2", [6]⟩, 0⟩,
             ⟨DELETE, ⟨'c', "0_3", [8]⟩, 0⟩] := by
  decide

end LSEQ

namespace LSEQ

/-! ## C3: localInsert inserts at the cursor -/

set_option maxRecDepth 100000 in
/-- C3, as stated, fails: the documents `docDeep`, `docCrossed` and `docDeepest` are
well-formed and the cursors `(0,1)`, `(1,0)` and `(0,1)` are in bounds, but the allocator
meets a negative interval (in the third document, whose flat view is ascending and within
the capacity of every level, a capacity that does not fit an `int`) and `localInsert` does
not complete. -/
theorem localInsert_allocator_fails :
    (WellFormed docDeep ∧
      (localInsert docDeep env1 ⟨0, 1⟩ 'x').map (fun p => to_string p.1)
        = .error .undefined) ∧
    (WellFormed docCrossed ∧
      (localInsert docCrossed env1 ⟨1, 0⟩ 'x').map (fun p => to_string p.1)
        = .error .undefined) ∧
    (WellFormed docDeepest ∧ withinCapacity deepPosition ∧
      (localInsert docDeepest env1 ⟨0, 1⟩ 'x').map (fun p => to_string p.1)
        = .error .undefined) := by
  decide

/-- C3 (amended): on a well-formed document and an in-bounds cursor, whenever the allocator
returns a position for the two neighbours of the cursor in the flat view, `localInsert`
completes and `to_string()` is the previous text with the character inserted at the flat
offset of the cursor; a newline inserted before the end of a line splits the line in two. -/
theorem localInsert_inserts_at_cursor (e : SharedEditor) (env : Env) (pos : Position)
    (value : Char) (cur : List Symbol) (q : List Int)
    (hwf : WellFormed e) (hline : 0 ≤ pos.line)
    (hcur : e._symbols[pos.line.toNat]? = some cur)
    (hidx : 0 ≤ pos.index) (hlen : pos.index ≤ cur.length)
    (halloc : (generatePosBetween e (leftNeighbour e (flatOffset e pos))
      (rightNeighbour e (flatOffset e pos)) [] 0 env.gen).1 = .ok q) :
    ∃ e2 env2, localInsert e env pos value = .ok (e2, env2) ∧
      (to_string e2).data = (to_string e).data.take (flatOffset e pos) ++
        value :: (to_string e).data.drop (flatOffset e pos) ∧
      (value = '\n' → pos.index < cur.length → ∃ sym, sym.c = '\n' ∧
        e2._symbols = e._symbols.take pos.line.toNat ++
          (cur.take pos.index.toNat ++ [sym]) :: cur.drop pos.index.toNat ::
            e._symbols.drop (pos.line.toNat + 1)) := by
  obtain ⟨pre, post, hl, hpre⟩ := split_of_getElem? _ _ _ hcur
  obtain ⟨line, index⟩ := pos
  simp only [] at hline hcur hidx hlen hpre halloc ⊢
  obtain ⟨k, rfl⟩ := Int.eq_ofNat_of_zero_le hidx
  have hline2 : line = (pre.length : Int) := by omega
  subst hline2
  have hk : k ≤ cur.length := by omega
  have hoff := flatOffset_split e pre cur post k hl
  rw [hoff] at halloc ⊢
  obtain ⟨e2, env2, sym, hres, hc, hflat, hsplit⟩ :=
    localInsert_at_cursor e env pre cur post k value hwf hl hk q halloc
  refine ⟨e2, env2, hres, ?_, ?_⟩
  · have hfe : flat e = (pre.flatten ++ cur.take k) ++ (cur.drop k ++ post.flatten) := by
      simp only [flat, hl, List.flatten_append, List.flatten_cons, List.flatten_nil,
        List.append_assoc]
      rw [← List.append_assoc (cur.take k), List.take_append_drop]
    have hlen1 : pre.flatten.length + k
        = (List.map (fun s => s.c) (pre.flatten ++ cur.take k)).length := by
      simp only [List.length_map, List.length_append, List.length_take]; omega
    rw [to_string_data, to_string_data, hflat, hfe, hlen1]
    generalize pre.flatten ++ cur.take k = A
    generalize cur.drop k ++ post.flatten = B
    rw [List.map_append, List.map_append, List.map_cons, hc, List.take_left, List.drop_left]
  · intro hv hlt
    have hlt2 : k < cur.length := by omega
    refine ⟨sym, hc.trans hv, ?_⟩
    rw [hsplit hv hlt2]
    have h1 : (e._symbols).take pre.length = pre := by simp [hl]
    have h2 : (e._symbols).drop (pre.length + 1) = post := by simp [hl]
    simp [h1, h2]

set_option maxRecDepth 100000 in
/-- C3 at the document `"abcd"`: a newline inserted at `(0,2)` gives `"ab\ncd"` on two
lines. -/
theorem localInsert_inserts_at_cursor_witness :
    WellFormed docAbcd ∧
    ∃ e2 env2, localInsert docAbcd env1 ⟨0, 2⟩ '\n' = .ok (e2, env2) ∧
      (to_string e2).data = (to_string docAbcd).data.take (flatOffset docAbcd ⟨0, 2⟩) ++
        '\n' :: (to_string docAbcd).data.drop (flatOffset docAbcd ⟨0, 2⟩) ∧
      (('\n' : Char) = '\n' → (2 : Int) < ((docAbcd._symbols.headD []).length : Nat) →
        ∃ sym, sym.c = '\n' ∧
        e2._symbols = docAbcd._symbols.take 0 ++
          ((docAbcd._symbols.headD []).take 2 ++ [sym]) :: (docAbcd._symbols.headD []).drop 2 ::
            docAbcd._symbols.drop 1) :=
  ⟨by decide,
   localInsert_inserts_at_cursor docAbcd env1 ⟨0, 2⟩ '\n' (docAbcd._symbols.headD []) [5]
    (by decide) (by decide) (by decide) (by decide) (by decide) (by decide)⟩

end LSEQ

namespace LSEQ

/-! ## C9: the message of a local insertion -/

theorem findPosBefore_ok_bounds (e : SharedEditor) (pos : Position) (p : List Int)
    (h : findPosBefore e pos = .ok p) :
    ∃ pre cur post k, e._symbols = pre ++ cur :: post ∧ pos = ⟨(pre.length : Nat), (k : Nat)⟩ ∧
      k ≤ cur.length := by
  obtain ⟨line, index⟩ := pos
  unfold findPosBefore at h
  simp only [] at h
  by_cases h1 : line < 0
  · simp [h1] at h
  by_cases h2 : line ≥ (e._symbols.length : Nat)
  · simp [h1, h2] at h
  by_cases h3 : index < 0
  · simp [h1, h2, h3] at h
  simp only [h1, h2, h3, if_false, bind, Except.bind] at h
  cases hv : vecIdx e._symbols line with
  | error err => simp [hv] at h
  | ok cur =>
    simp only [hv] at h
    by_cases h4 : index > (cur.length : Nat)
    · simp [h4] at h
    obtain ⟨-, hc⟩ := (vecIdx_ok_iff _ _ _).mp hv
    obtain ⟨pre, post, hl, hpre⟩ := split_of_getElem? _ _ _ hc
    refine ⟨pre, cur, post, index.toNat, hl, ?_, ?_⟩
    · have a1 : (pre.length : Int) = line := by omega
      have a2 : (index.toNat : Int) = index := by omega
      rw [a1, a2]
    · omega

/-- Every completed `localInsert` either leaves the lines and the buffer as they were or
has stored one new symbol and sent it. -/
theorem localInsert_ok_cases (e : SharedEditor) (env : Env) (pos : Position) (value : Char)
    (e2 : SharedEditor) (env2 : Env) (h : localInsert e env pos value = .ok (e2, env2)) :
    (e2._symbols = e._symbols ∧ env2.messages = env.messages) ∨
    ∃ q l r, env2.messages = env.messages ++
        [⟨INSERT, ⟨value, symId e._siteId e._id_counter, q⟩, e._siteId⟩] ∧
      flat e = l ++ r ∧
      flat e2 = l ++ ⟨value, symId e._siteId e._id_counter, q⟩ :: r := by
  unfold localInsert at h
  simp only [bind, Except.bind] at h
  cases hv : vecIdx e._symbols pos.line with
  | error err => simp [hv] at h
  | ok cur =>
    simp only [hv] at h
    generalize (if ¬ cur.isEmpty = true ∧ toSizeT pos.index ≥ cur.length ∧
        (cur.getLast?.map fun s => s.c) = some '\n' then
          (⟨pos.line + 1, 0⟩ : Position) else pos) = pos1 at h
    cases hb : findPosBefore e pos1 with
    | error err =>
      simp only [hb] at h
      by_cases hc : err.caught = true
      · simp only [hc, if_true, pure, Except.pure, Except.ok.injEq, Prod.mk.injEq] at h
        left; rw [← h.1, ← h.2]; simp
      · simp [hc] at h
    | ok p1 =>
      simp only [hb] at h
      cases ha : findPosAfter e pos1 with
      | error err =>
        simp only [ha] at h
        by_cases hc : err.caught = true
        · simp only [hc, if_true, pure, Except.pure, Except.ok.injEq, Prod.mk.injEq] at h
          left; rw [← h.1, ← h.2]; simp
        · simp [hc] at h
      | ok p2 =>
        simp only [ha] at h
        have hfr := generatePosBetween_frame e p1 p2 [] 0 env.gen
        rcases hg : generatePosBetween e p1 p2 [] 0 env.gen with ⟨r, e1, g1⟩
        rw [hg] at hfr h
        simp only [] at hfr h
        cases r with
        | error err =>
          simp only [] at h
          by_cases hc : err.caught = true
          · simp only [hc, if_true, pure, Except.pure, Except.ok.injEq, Prod.mk.injEq] at h
            left; rw [← h.1, ← h.2]; exact ⟨hfr.1, rfl⟩
          · simp [hc] at h
        | ok q =>
          simp only [] at h
          obtain ⟨pre, cur1, post, k, hl, hpos, hk⟩ := findPosBefore_ok_bounds e pos1 p1 hb
          subst hpos
          have hl1 : e1._symbols = pre ++ cur1 :: post := by rw [hfr.1, hl]
          rw [insertSymbol_at e1 pre cur1 post k _ hl1 hk] at h
          simp only [pure, Except.pure, Except.ok.injEq, Prod.mk.injEq] at h
          right
          refine ⟨q, pre.flatten ++ cur1.take k, cur1.drop k ++ post.flatten, ?_, ?_, ?_⟩
          · rw [← h.2]
          · simp only [flat, hl, List.flatten_append, List.flatten_cons, List.flatten_nil,
              List.append_assoc]
            rw [← List.append_assoc (cur1.take k), List.take_append_drop]
          · rw [← h.1]
            simp only [flat]
            split
            · split
              · rename_i h1 h2; subst h2; simp
              · simp
            · simp [insertIdx_take_drop cur1 k _ hk]

/-- C9: a `localInsert` that changes the document appends exactly one message to the
buffer of the server: an INSERT with the site id of the replica as origin, whose symbol has
the value typed, the identifier `"{siteId}_{idCounter}"` of the counter held before the
call, and is the one symbol added to the document. -/
theorem localInsert_emits_one_message (e : SharedEditor) (env : Env) (pos : Position)
    (value : Char) (e2 : SharedEditor) (env2 : Env)
    (h : localInsert e env pos value = .ok (e2, env2))
    (hchg : e2._symbols ≠ e._symbols) :
    ∃ sym l r, env2.messages = env.messages ++ [⟨INSERT, sym, e._siteId⟩] ∧
      INSERT = 1 ∧ sym.c = value ∧
      sym.id = toString e._siteId ++ "_" ++ toString e._id_counter ∧
      flat e = l ++ r ∧ flat e2 = l ++ sym :: r := by
  rcases localInsert_ok_cases e env pos value e2 env2 h with ⟨h1, -⟩ | ⟨q, l, r, h1, h2, h3⟩
  · exact absurd h1 hchg
  · exact ⟨_, l, r, h1, rfl, rfl, rfl, h2, h3⟩

set_option maxRecDepth 100000 in
/-- C9 at the document `"abcd"`: the insertion of `x` at `(0,4)`. -/
theorem localInsert_emits_one_message_witness :
    ∃ sym l r, env1.messages ++ [⟨INSERT, ⟨'x', "0_4", [10]⟩, 0⟩]
        = env1.messages ++ [⟨INSERT, sym, docAbcd._siteId⟩] ∧
      INSERT = 1 ∧ sym.c = 'x' ∧
      sym.id = toString docAbcd._siteId ++ "_" ++ toString docAbcd._id_counter ∧
      flat docAbcd = l ++ r ∧
      flat { docAbcd with
        _symbols := [[⟨'a', "0_0", [2]⟩, ⟨'b', "0_1", [4]⟩, ⟨'c', "0_2", [6]⟩,
          ⟨'d', "0_3", [8]⟩, ⟨'x', "0_4", [10]⟩]],
        _counter := 5, _id_counter := 5 } = l ++ sym :: r :=
  localInsert_emits_one_message docAbcd env1 ⟨0, 4⟩ 'x'
    { docAbcd with
      _symbols := [[⟨'a', "0_0", [2]⟩, ⟨'b', "0_1", [4]⟩, ⟨'c', "0_2", [6]⟩,
        ⟨'d', "0_3", [8]⟩, ⟨'x', "0_4", [10]⟩]],
      _counter := 5, _id_counter := 5 }
    { env1 with gen := fun n => env1.gen (n + 1 + 1),
                messages := env1.messages ++ [⟨INSERT, ⟨'x', "0_4", [10]⟩, 0⟩] }
    (by rfl) (by decide)

end LSEQ

namespace LSEQ

/-! ## C2: the allocator returns a position between its neighbours -/

set_option maxRecDepth 100000 in
/-- Between `[5]` and `[5,10,3]` the element is drawn at level 1, past the end of `[5]` and
before the last level of `[5,10,3]`, from an interval of exactly `boundary`: both endpoints
of the interval give a position between the two. -/
theorem generatePosBetween_boundary_inside :
    drawnInterval [5] 28 [5, 10, 3] 0 = boundary ∧ drawnLevel [5] 28 [5, 10, 3] 0 = 1 ∧
    allocated (generatePosBetween (SharedEditor.init 0) [5] [5, 10, 3] [] 0 fun _ => 0)
      = .ok [5, 0] ∧
    lexicographical_compare [5] [5, 0] = true ∧
    lexicographical_compare [5, 0] [5, 10, 3] = true ∧
    allocated (generatePosBetween (SharedEditor.init 0) [5] [5, 10, 3] [] 0 fun _ => 9)
      = .ok [5, 10] ∧
    lexicographical_compare [5] [5, 10] = true ∧
    lexicographical_compare [5, 10] [5, 10, 3] = true := by
  decide

end LSEQ

namespace LSEQ

theorem Ascending.insert_unique {l r l2 r2 : List Symbol} {s : Symbol}
    (h : l ++ r = l2 ++ r2) (h1 : Ascending (l ++ s :: r)) (h2 : Ascending (l2 ++ s :: r2)) :
    l2 = l ∧ r2 = r := by
  have below : ∀ {a b : List Symbol}, Ascending (a ++ s :: b) →
      ∀ z ∈ a, lexicographical_compare z.pos s.pos = true := fun hab z hz =>
    (List.pairwise_append.mp hab).2.2 z hz s (by simp)
  have above : ∀ {a b : List Symbol}, Ascending (a ++ s :: b) →
      ∀ z ∈ b, lexicographical_compare s.pos z.pos = true := fun hab z hz =>
    (List.pairwise_cons.mp (List.pairwise_append.mp hab).2.1).1 z hz
  rcases List.append_eq_append_iff.mp h with ⟨a, ha1, ha2⟩ | ⟨c, hc1, hc2⟩
  · cases a with
    | nil => simp at ha1 ha2; exact ⟨ha1, ha2.symm⟩
    | cons z zs =>
      exfalso
      have hz1 := below h2 z (by rw [ha1]; simp)
      have hz2 := above h1 z (by rw [ha2]; simp)
      rw [lex_asymm _ _ hz1] at hz2
      exact absurd hz2 (by simp)
  · cases c with
    | nil => simp at hc1 hc2; exact ⟨hc1.symm, hc2⟩
    | cons z zs =>
      exfalso
      have hz1 := below h1 z (by rw [hc1]; simp)
      have hz2 := above h2 z (by rw [hc2]; simp)
      rw [lex_asymm _ _ hz1] at hz2
      exact absurd hz2 (by simp)

set_option maxRecDepth 100000 in
/-- C5, as stated, fails: the document `docInnerNewline` is well-formed and strictly
ascending, the position `[2,5]` is new and lies between the inner newline and `b`, but
`remoteInsert` puts the symbol at the start of the next line, after `b` and the second
newline; in the document `docFinalNewline`, which satisfies I1 to I5, `remoteInsert` of a
symbol behind the final newline reads the line after the last one. -/
theorem remoteInsert_after_inner_newline :
    (WellFormed docInnerNewline ∧ Ascending (flat docInnerNewline) ∧
      (∀ x ∈ flat docInnerNewline, x.pos ≠ [2, 5]) ∧
      (remoteInsert docInnerNewline ⟨'y', "2_0", [2, 5]⟩ fun _ => 1).map
        (fun p => (to_string p.1, decide (Ascending (flat p.1)))) = .ok ("a\nb\nyc", false)) ∧
    (Invariants docFinalNewline ∧ Ascending (flat docFinalNewline) ∧
      (∀ x ∈ flat docFinalNewline, x.pos ≠ [7]) ∧
      (remoteInsert docFinalNewline ⟨'y', "2_0", [7]⟩ fun _ => 1).map
        (fun p => to_string p.1) = .error .undefined) := by
  decide

/-- C5 (amended): on a well-formed document in which every newline is the last symbol of its
line and whose flat view is strictly ascending by position, `remoteInsert` of a symbol whose
position no stored symbol has completes, and the new flat view is the old one with the
symbol added (nothing else added, removed or reordered) at the one place that keeps it
strictly ascending. -/
theorem remoteInsert_keeps_position_order (e : SharedEditor) (s : Symbol) (g : Rng)
    (hwf : WellFormed e) (hnl : NewlineEndsLine e) (hasc : Ascending (flat e))
    (hfresh : ∀ x ∈ flat e, x.pos ≠ s.pos) :
    ∃ e2 l r, (remoteInsert e s g).map Prod.fst = .ok e2 ∧ flat e = l ++ r ∧
      flat e2 = l ++ s :: r ∧ Ascending (flat e2) ∧
      ∀ l2 r2, flat e = l2 ++ r2 → Ascending (l2 ++ s :: r2) → l2 = l ∧ r2 = r := by
  obtain ⟨e2, l, r, h1, h2, h3, h4⟩ :=
    remoteInsert_sorted e s g (textLines_of hwf hnl) hasc hfresh
  refine ⟨e2, l, r, h1, h2, h3, h4, ?_⟩
  intro l2 r2 hl2 hasc2
  rw [h3] at h4
  exact Ascending.insert_unique (h2.symm.trans hl2) h4 hasc2

set_option maxRecDepth 100000 in
/-- C5 at the document `"ab\ncd"` and a symbol whose position lies between the newline and
`c`. -/
theorem remoteInsert_keeps_position_order_witness :
    ∃ e2 l r, (remoteInsert docAbCd ⟨'x', "1_0", [7]⟩ fun _ => 1).map Prod.fst = .ok e2 ∧
      flat docAbCd = l ++ r ∧ flat e2 = l ++ ⟨'x', "1_0", [7]⟩ :: r ∧ Ascending (flat e2) ∧
      ∀ l2 r2, flat docAbCd = l2 ++ r2 → Ascending (l2 ++ ⟨'x', "1_0", [7]⟩ :: r2) →
        l2 = l ∧ r2 = r :=
  remoteInsert_keeps_position_order docAbCd ⟨'x', "1_0", [7]⟩ (fun _ => 1)
    (by decide) (by decide) (by decide) (by decide)

end LSEQ

namespace LSEQ

/-! ## Further runs of the code at concrete inputs -/

set_option maxRecDepth 100000 in
/-- C14: on a fresh replica, with the raw outcomes 1, 1, 0, 0 of the generator, the calls
`retrieveStrategy(0)`, `retrieveStrategy(1)`, `retrieveStrategy(0)`, `retrieveStrategy(1)`
return true, true, false, false: the second call for a level draws again and returns
another value, while the map keeps the first one.  A first call for level 2 on a fresh
replica throws `out_of_range`. -/
theorem retrieveStrategy_draws_again :
    strategyCalls [0, 1, 0, 1] (SharedEditor.init 0) (draws [1, 1, 0, 0])
      = [.ok true, .ok true, .ok false, .ok false] ∧
    (retrieveStrategy (retrieveStrategy (SharedEditor.init 0) 0 (draws [1, 0])).2.1 0
      (retrieveStrategy (SharedEditor.init 0) 0 (draws [1, 0])).2.2).2.1.strategies
      = [(0, true)] ∧
    (retrieveStrategy (SharedEditor.init 0) 2 (draws [])).1 = .error .out_of_range := by
  decide

/-- C15: with `max - min = boundary` the call `generateIdBetween(0, 10, false)` returns
`min` when the raw outcome is 0, and `generateIdBetween(0, 10, true)` returns `max` when
the raw outcome is 9. -/
theorem generateIdBetween_endpoint :
    (generateIdBetween 0 10 false (draws [0])).1 = .ok 0 ∧
    (generateIdBetween 0 10 true (draws [9])).1 = .ok 10 := by
  decide

/-- C16: on the document `"a\n"` (the line `[a, '\n']` and the trailing empty line) the
cursor `(0, 2)` is in bounds and `findPosAfter` throws `out_of_range`. -/
theorem findPosAfter_before_empty_line :
    docANewline._symbols.length = 2 ∧
    (docANewline._symbols[0]?.map List.length) = some 2 ∧
    findPosAfter docANewline ⟨0, 2⟩ = .error .out_of_range := by
  decide

set_option maxRecDepth 100000 in
/-- C17: on the empty document of a fresh replica `process` of an INSERT message leaves
`_id_counter` at 1, not at its value 0 before the call. -/
theorem process_insert_moves_id_counter :
    getIdCounter (SharedEditor.init 1) = 0 ∧
    (process (SharedEditor.init 1) ⟨INSERT, ⟨'a', "0_0", [2]⟩, 0⟩ (draws [])).map
      (fun p => getIdCounter p.1) = .ok 1 := by
  decide

set_option maxRecDepth 100000 in
/-- C19: site 0 types `"x\na\nb\n"` and erases the range `(1,0)`-`(2,1)`: every call
completes and the document is left with the single line `[x, '\n']`, its final line ending
in a newline.  The call `localInsert((0,2), 'y')` that follows is moved to `(1, 0)`, reports
`out_of_range` and inserts nothing. -/
theorem localErase_drops_trailing_line :
    chars (runOps typeThreeLines (SharedEditor.init 0, env1))
      = .ok [['x', '\n'], ['a', '\n'], ['b', '\n'], []] ∧
    chars (runOps (typeThreeLines ++ [.localErase ⟨1, 0⟩ ⟨2, 1⟩]) (SharedEditor.init 0, env1))
      = .ok [['x', '\n']] ∧
    (runOps (typeThreeLines ++ [.localErase ⟨1, 0⟩ ⟨2, 1⟩, .localInsert ⟨0, 2⟩ 'y'])
      (SharedEditor.init 0, env1)).map (fun p => (p.1._symbols.map fun l => l.map fun s => s.c, p.2.cout))
      = .ok ([['x', '\n']], [.out_of_range]) := by
  decide

set_option maxRecDepth 100000 in
/-- C13: site 0 types `"x\nw"`; `process` of an INSERT message from site 1 whose symbol
`z` has the position `[2]` of `x` completes and leaves the lines `[x, '\n', z]` and `[w]`:
the first line is not the final one and does not end in a newline. -/
theorem process_insert_breaks_line :
    (runOps typeTwoLines (SharedEditor.init 0, env1)).map (fun p => p.1._symbols)
      = .ok [[⟨'x', "0_0", [2]⟩, ⟨'\n', "0_1", [4]⟩], [⟨'w', "0_2", [6]⟩]] ∧
    chars (runOps (typeTwoLines ++ [.process ⟨INSERT, ⟨'z', "1_0", [2]⟩, 1⟩])
      (SharedEditor.init 0, env1)) = .ok [['x', '\n', 'z'], ['w']] := by
  decide

end LSEQ

namespace LSEQ

/-! ## C20: the descent of the allocator -/

set_option maxRecDepth 1000000 in
set_option maxHeartbeats 4000000 in
/-- C20: `deepPosition` (26 levels, each element within the capacity of its level) lies
before `[32]`, and the descent between them reaches level 26, whose capacity `2^26 * base`
does not fit an `int`: nothing is returned.  The pair is met by typing: 26 characters
appended to the empty document of a fresh replica (every strategy boundary-minus, every drawn
element the last of its range) leave the last symbol at `deepPosition`, nothing reported, and
the 27th `localInsert` at the end of the line does not complete. -/
theorem generatePosBetween_descent_overflow :
    deepPosition ≠ [] ∧ withinCapacity deepPosition ∧ withinCapacity [32] ∧
    deepPosition.length = 26 ∧
    lexicographical_compare deepPosition [32] = true ∧
    capacity 26 = .error .undefined ∧
    allocated (generatePosBetween (SharedEditor.init 0) deepPosition [32] [] 0 (draws []))
      = .error .undefined ∧
    lastPosition (runOps (appends 26) (SharedEditor.init 0, ⟨[], appendDraws, []⟩))
      = .ok (some deepPosition, []) ∧
    lastPosition (runOps (appends 27) (SharedEditor.init 0, ⟨[], appendDraws, []⟩))
      = .error .undefined := by
  decide

end LSEQ

namespace LSEQ

/-! ## C11: localInsert on a bad cursor -/

end LSEQ

namespace LSEQ

/-! ## C18: the counter and the stored symbols -/

set_option maxRecDepth 100000 in
/-- C18: site 0 types `"ab\ncd"`: the counter is 5 and five symbols are stored.  The call
`localErase((0,1),(1,1))`, whose range lies inside the text, takes `b`, the newline, `c` and
`d` out and removes the emptied end line (counter 1, the single line `[a]`), and then merges
line 0 with the line after the last one: the call does not complete within defined
behaviour, so nothing is guaranteed about the counter and the lines it leaves. -/
theorem localErase_counter_undefined :
    tally (runOps typeAbCd (SharedEditor.init 0, env1)) = .ok (5, 5, "ab\ncd") ∧
    (runOps typeAbCd (SharedEditor.init 0, env1)).map Prod.fst = .ok docAbCd ∧
    counted (eraseBlock docAbCd ⟨0, 1⟩ ⟨1, 1⟩) = .ok (1, [['a']]) ∧
    (eraseBlock docAbCd ⟨0, 1⟩ ⟨1, 1⟩ >>= fun p => mergeBlock p.2.1 0 p.2.2)
      = .error .undefined ∧
    tally (runOps (typeAbCd ++ [.localErase ⟨0, 1⟩ ⟨1, 1⟩]) (SharedEditor.init 0, env1))
      = .error .undefined := by
  decide

end LSEQ

namespace LSEQ

/-! ## C12: the relay -/

set_option maxRecDepth 100000 in
/-- C12, as stated, fails: with a message of the unknown kind 0 first in the buffer, three
calls of `process` are owed; the first one throws `runtime_error`, which ends
`dispatchMessages`: the other two calls are not made and the dispatch does not complete.
With the DELETE message of `a` first in the buffer and site 1 holding `"a\n"`, the one call
owed for it does not complete either (`remoteErase` reads the trailing empty line), and the
call owed for the second message is not made. -/
theorem dispatchMessages_stops_at_exception :
    (deliveries relayForbidden.messages relayForbidden.editors
        = [(⟨0, ⟨'a', "7_0", [2]⟩, 7⟩, 0), (⟨0, ⟨'a', "7_0", [2]⟩, 7⟩, 1),
           (⟨INSERT, ⟨'b', "0_0", [3]⟩, 0⟩, 1)] ∧
      (callProcess (relayForbidden.editors, relayForbidden.gen)
        (⟨0, ⟨'a', "7_0", [2]⟩, 7⟩, 0)).map Prod.fst = .error .runtime_error ∧
      texts (dispatchMessages relayForbidden) = .error .runtime_error) ∧
    (deliveries relayStale.messages relayStale.editors
        = [(⟨DELETE, ⟨'a', "0_0", [2]⟩, 0⟩, 1), (⟨INSERT, ⟨'b', "0_2", [3]⟩, 0⟩, 1)] ∧
      texts (dispatchMessages relayStale) = .error .undefined) := by
  decide

/-- C12 (amended): `dispatchMessages` makes the calls `process(m)` of `deliveries`, in their
order (the messages in buffer order, for each message the editors in connection order), up
to the first call that does not return: an exception of `process` ends the dispatch with
that exception.  The calls owed to the editor of index `i` are the buffered messages whose
origin differs from its site id, each once and in buffer order, and none for a message of
its own site; a dispatch whose calls all return makes all of them, leaves the buffer empty
and every editor with its site id. -/
theorem dispatchMessages_broadcast (w : World) :
    dispatchMessages w
      = (runCalls (deliveries w.messages w.editors) (w.editors, w.gen)).map
          (fun st => { w with editors := st.1, gen := st.2, messages := [] }) ∧
    (∀ i, (deliveries w.messages w.editors).filterMap
          (fun c => if c.2 = i then some c.1 else none) =
        match w.editors[i]? with
        | some e => w.messages.filter fun m => decide (e._siteId ≠ m.siteId)
        | none => []) ∧
    (∀ ms1 ms2, deliveries (ms1 ++ ms2) w.editors
        = deliveries ms1 w.editors ++ deliveries ms2 w.editors) ∧
    (∀ w1, dispatchMessages w = .ok w1 →
        w1.messages = [] ∧
        w1.editors.map (fun e => e._siteId) = w.editors.map (fun e => e._siteId)) ∧
    (∀ st, runCalls (deliveries w.messages w.editors) (w.editors, w.gen) = .ok st →
        dispatchMessages w = .ok { w with editors := st.1, gen := st.2, messages := [] }) := by
  have hmain : dispatchMessages w
      = (runCalls (deliveries w.messages w.editors) (w.editors, w.gen)).map
          (fun st => { w with editors := st.1, gen := st.2, messages := [] }) := by
    unfold dispatchMessages
    simp only [bind, Except.bind, pure, Except.pure]
    rw [dispatchLoop_calls]
    cases runCalls (deliveries w.messages w.editors) (w.editors, w.gen) with
    | error err => rfl
    | ok st => rfl
  refine ⟨hmain, fun i => deliveries_select w.messages w.editors i, ?_, ?_, ?_⟩
  · intro ms1 ms2
    simp [deliveries]
  · intro w1 h
    unfold dispatchMessages at h
    simp only [bind, Except.bind, pure, Except.pure] at h
    cases hd : dispatchLoop w.messages w.editors w.gen with
    | error err => simp only [hd] at h; cases h
    | ok r =>
      obtain ⟨es, g⟩ := r
      simp only [hd, Except.ok.injEq] at h
      subst h
      exact ⟨rfl, dispatchLoop_siteIds w.messages w.editors es w.gen g hd⟩
  · intro st hst
    rw [hmain, hst]
    rfl

set_option maxRecDepth 100000 in
/-- C12 with the editors of the sites 0 and 1 and one message of site 0 in the buffer: the
editor of index 0 gets no call, the editor of index 1 gets the message. -/
theorem dispatchMessages_broadcast_witness :
    (deliveries relayOne.messages relayOne.editors).filterMap
        (fun c => if c.2 = 0 then some c.1 else none) = [] ∧
    (deliveries relayOne.messages relayOne.editors).filterMap
        (fun c => if c.2 = 1 then some c.1 else none) = relayOne.messages ∧
    texts (dispatchMessages relayOne) = .ok ["", "a"] :=
  ⟨((dispatchMessages_broadcast relayOne).2.1 0).trans (by decide),
   ((dispatchMessages_broadcast relayOne).2.1 1).trans (by decide),
   by decide⟩

end LSEQ
